import Mathlib

/-!
Verification of the RALearning register-automaton learner.

This file gives a shallow embedding of the Python sources (`alphabet.py`,
`dra.py`, `teacher.py`, `table.py`, `rpni.py`) and proves or refutes the
frozen claims about them.  Data values (`Fraction` or `float` in Python)
are modelled as exact rationals; Python `set`s of integers are modelled as
`Finset N`, Python `set`s of letters as deduplicated lists, and `str`
values as `List Char`.
-/

set_option maxHeartbeats 1000000

/-- Letter domains (`LetterType.RATIONAL` / `LetterType.REAL` in `alphabet.py`).
Values of both are modelled as exact rationals. -/
inductive LType where
  | rational
  | real
  deriving DecidableEq, Repr

/-- The two comparators of `alphabet.py`: `comp_id` (equality) and `comp_lt`
(strict order).  The Python code passes the comparison functions themselves
and compares them with `==`; we model the choice as an enumeration. -/
inductive Cmp where
  | ceq
  | clt
  deriving DecidableEq, Repr

/-- `Letter` from `alphabet.py`: a data value together with its domain tag. -/
structure Letter where
  value : ℚ
  ltype : LType
  deriving DecidableEq, Repr

instance : Inhabited Letter := ⟨⟨0, LType.rational⟩⟩

/-- `LetterSeq` from `alphabet.py`.  The stored `letter_type` attribute is
`None` for a sequence built by the raw constructor from `[]`, and is a
concrete type for `LetterSeq.empty(letter_type)`; we model it as an
`Option LType`. -/
structure LetterSeq where
  letters : List Letter
  ltype : Option LType
  deriving DecidableEq, Repr

/-- The `LetterSeq(letters)` constructor: the stored type is the type of the
first letter (or `None` when empty).  The constructor raises when the
letters mix domains; all sequences built by the program are homogeneous. -/
def mkSeq (ls : List Letter) : LetterSeq := ⟨ls, ls.head?.map Letter.ltype⟩

/-- `LetterSeq.empty(letter_type)`. -/
def emptySeq (t : LType) : LetterSeq := ⟨[], some t⟩

/-- A sequence is well formed when every letter carries the stored domain.
This holds for every sequence the program constructs. -/
def seqWF (s : LetterSeq) : Prop :=
  ∀ l ∈ s.letters, some l.ltype = s.ltype

instance (s : LetterSeq) : Decidable (seqWF s) := by
  unfold seqWF; infer_instance

/-- `LetterSeq.append` (raises on a domain mismatch, which cannot occur for
well-formed arguments): rebuilds via the constructor. -/
def seqAppend (s : LetterSeq) (l : Letter) : LetterSeq := mkSeq (s.letters ++ [l])

/-- `LetterSeq.concat` (raises when the stored types differ). -/
def seqConcat (s o : LetterSeq) : LetterSeq :=
  if s.letters = [] ∧ o.letters = [] then ⟨[], s.ltype⟩
  else mkSeq (s.letters ++ o.letters)

/-- `LetterSeq.remove_by_indices`. -/
def removeByIndices (s : LetterSeq) (E : Finset ℕ) : LetterSeq :=
  let remaining := (s.letters.enum.filter (fun p => decide (p.1 ∉ E))).map Prod.snd
  if remaining = [] then ⟨[], s.ltype⟩ else mkSeq remaining

/-- `LetterSeq.get_suffix` (negative indices do not arise with `ℕ`). -/
def getSuffix (s : LetterSeq) (i : ℕ) : LetterSeq :=
  if s.letters.length ≤ i then ⟨[], s.ltype⟩ else mkSeq (s.letters.drop i)

/-- `LetterSeq.get_prefix`; the Python code raises when `n` exceeds the
length, and every call site keeps `n` within bounds. -/
def takePre (s : LetterSeq) (n : ℕ) : LetterSeq :=
  if n = 0 then ⟨[], s.ltype⟩ else mkSeq (s.letters.take n)

/-- `LetterSeq.index`: first index of a letter, `-1` (here `none`) if absent. -/
def seqIndexOf (s : LetterSeq) (x : Letter) : Option ℕ :=
  s.letters.findIdx? (fun l => l == x)

/-- The comparator functions `comp_id` / `comp_lt` applied to values. -/
def cmpv : Cmp → ℚ → ℚ → Bool
  | Cmp.ceq, x, y => x == y
  | Cmp.clt, x, y => decide (x < y)

/-- `is_same_type(seq1, seq2, comp)` from `alphabet.py`: equal lengths, equal
stored domains, and agreeing pairwise comparator answers. -/
def isSameType (c : Cmp) (s1 s2 : LetterSeq) : Bool :=
  (s1.letters.length == s2.letters.length) && decide (s1.ltype = s2.ltype) &&
    ((List.range s1.letters.length).all fun i =>
      (List.range s1.letters.length).all fun j =>
        (i == j) ||
          (cmpv c (s1.letters.getD i default).value (s1.letters.getD j default).value
            == cmpv c (s2.letters.getD i default).value (s2.letters.getD j default).value))

/-- Stable insertion used to model Python's `sorted(..., key=lambda x: x.value)`. -/
def insertByValue (a : Letter) : List Letter → List Letter
  | [] => [a]
  | b :: l => if a.value ≤ b.value then a :: b :: l else b :: insertByValue a l

/-- Model of `sorted(letters, key=lambda x: x.value)` (a stable sort). -/
def sortValue : List Letter → List Letter
  | [] => []
  | a :: l => insertByValue a (sortValue l)

/-- Model of `sorted(set(letters), key=lambda x: x.value)`: deduplicate then
sort by value. -/
def sortedSetByValue (ls : List Letter) : List Letter := sortValue ls.dedup

/-- The interleaving loop of `get_letter_extension` under `comp_lt`: each
element of the sorted list followed by the midpoint to its successor when
the values differ, ending with the last element. -/
def interMids (t : LType) : List Letter → List Letter
  | [] => []
  | [a] => [a]
  | a :: b :: rest =>
      a :: (if a.value ≠ b.value then [Letter.mk ((a.value + b.value) / 2) t] else [])
        ++ interMids t (b :: rest)

/-- `LetterSeq.get_letter_extension(comparator)` from `alphabet.py`. -/
def getLetterExtension (s : LetterSeq) (c : Cmp) : LetterSeq :=
  if s.letters = [] then mkSeq [⟨0, s.ltype.getD LType.rational⟩]
  else
    let t := s.ltype.getD (s.letters.headD default).ltype
    let sorted := sortedSetByValue s.letters
    let maxv := (sorted.getLastD default).value
    let minv := (sorted.headD default).value
    match c with
    | Cmp.ceq => mkSeq (s.letters ++ [⟨maxv + 1, t⟩])
    | Cmp.clt => mkSeq (interMids t sorted ++ [⟨maxv + 1, t⟩, ⟨minv - 1, t⟩])

/-- The interval-search loop inside the mapper of `get_bijective_map`:
finds the first adjacent pair `(ss[i], ss[i+1])` with
`ss[i] ≤ v < ss[i+1]` and interpolates between `os[i]` and `os[i+1]`. -/
def interpLoop (v : ℚ) : List Letter → List Letter → Option ℚ
  | a :: b :: ss, x :: y :: os =>
      if a.value ≤ v ∧ v < b.value then
        some (x.value + (v - a.value) * (y.value - x.value) / (b.value - a.value))
      else interpLoop v (b :: ss) (y :: os)
  | _, _ => none

/-- `LetterSeq.get_bijective_map(other)` from `alphabet.py`, as the mapper
function it returns.  The Python method first raises on domain or length
mismatches; the mapper itself is modelled here and the theorems carry those
checks as hypotheses. -/
def getBijectiveMap (s o : LetterSeq) : Letter → Letter :=
  fun letter =>
    if s.letters = [] then letter
    else
        let ss := sortValue s.letters
        let os := sortValue o.letters
        let v := letter.value
        let v0 := (ss.headD default).value
        let vlast := (ss.getLastD default).value
        let olast := (os.getLastD default).value
        let mapped :=
          if v < v0 then (os.headD default).value + (v - v0)
          else if vlast ≤ v then olast + (v - vlast)
          else
            match interpLoop v ss os with
            | some m => m
            | none => olast
        ⟨mapped, o.ltype.getD letter.ltype⟩

/-- `Alphabet` from `alphabet.py`: a domain tag plus a comparator. -/
structure Alphabet where
  ltype : LType
  cmp : Cmp
  deriving DecidableEq, Repr

/-- `Alphabet.make_letter`. -/
def Alphabet.makeLetter (a : Alphabet) (v : ℚ) : Letter := ⟨v, a.ltype⟩

/-- `Alphabet.make_sequence`. -/
def Alphabet.makeSequence (a : Alphabet) (vs : List ℚ) : LetterSeq :=
  if vs = [] then emptySeq a.ltype else mkSeq (vs.map a.makeLetter)

/-- `Alphabet.form_sequence`. -/
def Alphabet.formSequence (a : Alphabet) (ls : List Letter) : LetterSeq :=
  if ls = [] then emptySeq a.ltype else mkSeq ls

/-- `Alphabet.empty_sequence`. -/
def Alphabet.emptySequence (a : Alphabet) : LetterSeq := emptySeq a.ltype

/-- `Alphabet.test_type`. -/
def Alphabet.testType (a : Alphabet) (s1 s2 : LetterSeq) : Bool := isSameType a.cmp s1 s2

/-- `Alphabet.apply_map`. -/
def Alphabet.applyMap (a : Alphabet) (s : LetterSeq) (f : Letter → Letter) : LetterSeq :=
  if s.letters = [] then a.emptySequence else mkSeq (s.letters.map f)

/-- `Transition` from `dra.py`: `(source, τ, E, target)`. -/
structure Transition where
  source : ℕ
  tau : LetterSeq
  E : Finset ℕ
  target : ℕ
  deriving DecidableEq

/-- `Location` from `dra.py`. -/
structure Location where
  id : ℕ
  name : List Char
  accepting : Bool
  transitions : List Transition
  deriving DecidableEq

/-- `Location.add_transition`: append the transition if it is not already
present (the source-mismatch check raises; call sites pass matching ids). -/
def Location.addTransition (loc : Location) (t : Transition) : Location :=
  if t ∈ loc.transitions then loc
  else { loc with transitions := loc.transitions ++ [t] }

/-- `RegisterAutomaton` from `dra.py`.  The `locations` dict is modelled as a
list in insertion order with lookup by id. -/
structure RA where
  locations : List Location
  initial : Option ℕ
  alphabet : Alphabet
  deriving DecidableEq

/-- Lookup in the `locations` dict. -/
def RA.findLoc (A : RA) (i : ℕ) : Option Location := A.locations.find? (fun l => l.id == i)

/-- `RegisterAutomaton.add_location` (raises on a duplicate id; modelled as a
no-op in that unreachable case). -/
def RA.addLocation (A : RA) (i : ℕ) (name : List Char) (acc : Bool) : RA :=
  if (A.findLoc i).isSome then A
  else { A with locations := A.locations ++ [⟨i, name, acc, []⟩] }

/-- `RegisterAutomaton.add_transition` (the existence checks raise; the
update applies to the location whose id is the transition's source). -/
def RA.addTransition (A : RA) (t : Transition) : RA :=
  { A with locations := A.locations.map (fun l => if l.id = t.source then l.addTransition t else l) }

/-- A configuration `(location_id, register_values, last_transition)`. -/
abbrev Config := ℕ × LetterSeq × Option Transition

/-- The matching test of `RegisterAutomaton.step` for one transition: same
length, same stored domain, and same type as the extended register sequence. -/
def stepMatches (alpha : Alphabet) (ext : LetterSeq) (t : Transition) : Bool :=
  (ext.letters.length == t.tau.letters.length) && decide (ext.ltype = t.tau.ltype)
    && alpha.testType ext t.tau

/-- The scanning loop of `RegisterAutomaton.step` over the outgoing
transitions, in insertion order. -/
def stepScan (alpha : Alphabet) (ext : LetterSeq) : List Transition → Option Config
  | [] => none
  | t :: rest =>
      if ext.letters.length ≠ t.tau.letters.length then stepScan alpha ext rest
      else if ext.ltype ≠ t.tau.ltype then stepScan alpha ext rest
      else if alpha.testType ext t.tau then
        some (t.target, removeByIndices ext t.E, some t)
      else stepScan alpha ext rest

/-- `RegisterAutomaton.step` (a missing current location raises `KeyError` in
Python; theorems assume the location exists). -/
def RA.step (A : RA) (conf : Config) (letter : Letter) : Option Config :=
  match A.findLoc conf.1 with
  | none => none
  | some loc => stepScan A.alphabet (seqAppend conf.2.1 letter) loc.transitions

/-- The loop of `RegisterAutomaton.run`, collecting configurations and
stopping at the first missing transition. -/
def RA.runFrom (A : RA) (conf : Config) : List Letter → List Config
  | [] => [conf]
  | l :: rest =>
      match A.step conf l with
      | none => [conf]
      | some c2 => conf :: A.runFrom c2 rest

/-- The starting configuration `(initial, empty, None)`; `run` raises when
the initial location is unset, and theorems assume it is set. -/
def RA.initConf (A : RA) : Config := (A.initial.getD 0, A.alphabet.emptySequence, none)

/-- `RegisterAutomaton.run`. -/
def RA.run (A : RA) (w : LetterSeq) : List Config := A.runFrom A.initConf w.letters

/-- The last configuration of a run (`configs[-1]`; the list is never empty). -/
def RA.lastConf (A : RA) (w : LetterSeq) : Config := (A.run w).getLastD A.initConf

/-- `RegisterAutomaton.is_accepted`. -/
def RA.isAccepted (A : RA) (w : LetterSeq) : Bool :=
  match A.findLoc (A.lastConf w).1 with
  | some loc => loc.accepting
  | none => false

/-- `RegisterAutomaton.get_sink_rejecting_locations`: ids of non-accepting
locations all of whose transitions self-target (vacuously true when there
are no transitions). -/
def RA.getSinkRejectingLocations (A : RA) : List ℕ :=
  (A.locations.filter
    (fun loc => !loc.accepting && loc.transitions.all (fun t => t.target == loc.id))).map Location.id

/-- The nested `is_sink_rejecting` helper of `find_distinguishing_seq` in
`teacher.py` (a missing location raises `KeyError`). -/
def isSinkRejecting (target : RA) (i : ℕ) : Bool :=
  match target.findLoc i with
  | none => false
  | some loc => !loc.accepting && loc.transitions.all (fun t => t.target == i)

/-- A concrete automaton used by witnesses: one non-accepting location `0`
with a single self-loop on any one letter. -/
def wRA : RA :=
  { locations := [⟨0, ['q'], false,
      [⟨0, mkSeq [⟨0, LType.rational⟩], {0}, 0⟩]⟩],
    initial := some 0,
    alphabet := ⟨LType.rational, Cmp.clt⟩ }

/-- An automaton with a transition-less non-accepting location `1`. -/
def wRA2 : RA :=
  { locations := [⟨0, ['q'], true, []⟩, ⟨1, ['s'], false, []⟩],
    initial := some 0,
    alphabet := ⟨LType.rational, Cmp.ceq⟩ }

/-! ### Claim C1: the teacher's equivalence query -/

/-- The tuples enumerated by `itertools.product(alphabet_list, repeat=L)`
inside `Teacher._generate_sequences`, in product order. -/
def tuplesOf (l : List Letter) : ℕ → List (List Letter)
  | 0 => [[]]
  | n + 1 => l.flatMap (fun x => (tuplesOf l n).map (fun xs => x :: xs))

/-- `Teacher._generate_sequences(alphabet, max_len)`: the empty sequence
followed by all sequences over the letter list of lengths `1 .. max_len`. -/
def generateSequences (T : RA) (letters : List Letter) (maxLen : ℕ) : List LetterSeq :=
  T.alphabet.emptySequence ::
    (List.range' 1 maxLen).flatMap
      (fun L => (tuplesOf letters L).map T.alphabet.formSequence)

/-- `Teacher.equivalence_query(hypothesis, alphabet, max_len)`: compare the
target and the hypothesis on every generated sequence, returning
`(False, seq)` at the first disagreement and `(True, None)` otherwise.
The query counters are bookkeeping and are not modelled. -/
def equivalenceQuery (T H : RA) (letters : List Letter) (maxLen : ℕ) :
    Bool × Option LetterSeq :=
  match (generateSequences T letters maxLen).find?
      (fun s => T.isAccepted s != H.isAccepted s) with
  | some s => (false, some s)
  | none => (true, none)

/-! ### Sorting lemmas for `sortValue` / `sortedSetByValue` -/

/-- The set of data values occurring in a letter list. -/
def valueSet (ls : List Letter) : Finset ℚ := (ls.map Letter.value).toFinset

/-- The set of midpoint values of adjacent pairs of a letter list. -/
def midsOf (L : List Letter) : Finset ℚ :=
  ((L.zip L.tail).map (fun p => (p.1.value + p.2.value) / 2)).toFinset

/-! ### Claim C4: the letter extension -/

/-- The maximal data value of a sequence, as the code reads it
(`sorted_letters[-1].value`). -/
def maxVal (s : LetterSeq) : ℚ := ((sortedSetByValue s.letters).getLastD default).value

/-- The minimal data value of a sequence (`sorted_letters[0].value`). -/
def minVal (s : LetterSeq) : ℚ := ((sortedSetByValue s.letters).headD default).value

/-- `TableRow` from `table.py`.  Python's `TableRow.__eq__` compares only
`(row_prefix, row_memorable)`; cache membership below uses that pair. -/
structure TableRow where
  rowPre : LetterSeq
  rowMem : LetterSeq
  entries : List Bool
  accepting : Bool
  deriving DecidableEq

instance : Inhabited TableRow := ⟨⟨⟨[], none⟩, ⟨[], none⟩, [], false⟩⟩

/-- The observation table's rows and columns (`table_rows`, `table_suffixes`).
The membership oracle and the negative cache are passed explicitly. -/
structure OTable where
  rows : List TableRow
  suffixes : List LetterSeq
  deriving DecidableEq

/-- `ObservationTable.check_equivalence_with_reference_row`.  `cacheSet` is
the negative-cache entry `inconsistent_rows_cache[(candidate_prefix,
candidate_memorable)]`, whose membership test uses the `(prefix, memorable)`
row equality; the cache-insertion side effects do not change the returned
value and are not modelled. -/
def checkEquivalenceWithReferenceRow (alpha : Alphabet) (memQ : LetterSeq → Bool)
    (suffixes : List LetterSeq) (cacheSet : List (LetterSeq × LetterSeq))
    (refRow : TableRow) (candPre candMem : LetterSeq) : Bool :=
  if (refRow.rowPre, refRow.rowMem) ∈ cacheSet then false
  else if ¬ alpha.testType refRow.rowMem candMem then false
  else
    let mapper := getBijectiveMap candMem refRow.rowMem
    let mappedPre := alpha.applyMap candPre mapper
    (List.range suffixes.length).all fun i =>
      memQ (seqConcat mappedPre (suffixes.getD i (emptySeq alpha.ltype)))
        == refRow.entries.getD i false

/-- `ObservationTable.insert_column`: no-op when the suffix is present;
otherwise append the suffix and extend every row with one membership query. -/
def insertColumn (_alpha : Alphabet) (memQ : LetterSeq → Bool) (t : OTable)
    (suffix : LetterSeq) : OTable :=
  if suffix ∈ t.suffixes then t
  else
    { rows := t.rows.map
        (fun r => { r with entries := r.entries ++ [memQ (seqConcat r.rowPre suffix)] }),
      suffixes := t.suffixes ++ [suffix] }

/-- The target of the C1 counterexample: a chain accepting exactly the words
of length at least five (each step clears the register). -/
def cexT : RA :=
  { locations :=
      [⟨0, ['0'], false, [⟨0, mkSeq [⟨0, LType.rational⟩], {0}, 1⟩]⟩,
       ⟨1, ['1'], false, [⟨1, mkSeq [⟨0, LType.rational⟩], {0}, 2⟩]⟩,
       ⟨2, ['2'], false, [⟨2, mkSeq [⟨0, LType.rational⟩], {0}, 3⟩]⟩,
       ⟨3, ['3'], false, [⟨3, mkSeq [⟨0, LType.rational⟩], {0}, 4⟩]⟩,
       ⟨4, ['4'], false, [⟨4, mkSeq [⟨0, LType.rational⟩], {0}, 5⟩]⟩,
       ⟨5, ['5'], true, []⟩],
    initial := some 0,
    alphabet := ⟨LType.rational, Cmp.clt⟩ }

/-- The hypothesis of the C1 counterexample: rejects every word. -/
def cexH : RA :=
  { locations := [⟨0, ['0'], false, []⟩],
    initial := some 0,
    alphabet := ⟨LType.rational, Cmp.clt⟩ }

/-! ### Claim C8: the memorability oracle -/

/-- The key type of the visited set in `find_distinguishing_seq`:
`(l1, tuple(r1.letters), l2, tuple(r2.letters))`. -/
abbrev KeyT := ℕ × List Letter × ℕ × List Letter

/-- `can_add_to_queue` from `teacher.py`: reject a key already visited or
type-equivalent (same location pair, same register types) to a visited one. -/
def canAddToQueue (target : RA) (visited : List KeyT) (key : KeyT) : Bool :=
  if key ∈ visited then false
  else
    !(visited.any (fun ek =>
      (ek.1 == key.1) && (ek.2.2.1 == key.2.2.1)
        && target.alphabet.testType (target.alphabet.formSequence ek.2.1)
            (target.alphabet.formSequence key.2.1)
        && target.alphabet.testType (target.alphabet.formSequence ek.2.2.2)
            (target.alphabet.formSequence key.2.2.2)))

/-- Accepting flag of a location (`locations[i].accepting`; a missing id
raises `KeyError`). -/
def locAccepting (A : RA) (i : ℕ) : Bool :=
  match A.findLoc i with
  | some loc => loc.accepting
  | none => false

/-- Outgoing transitions of a location (`locations[i].transitions`). -/
def locTransitions (A : RA) (i : ℕ) : List Transition :=
  match A.findLoc i with
  | some loc => loc.transitions
  | none => []

/-- An element of the BFS queue of `find_distinguishing_seq`:
`((l1, r1), (l2, r2), w_prefix)`. -/
structure BFSItem where
  l1 : ℕ
  r1 : LetterSeq
  l2 : ℕ
  r2 : LetterSeq
  w : List Letter

/-- The triple-nested loop body of `find_distinguishing_seq` over
`(next_letter, t1, t2)` combinations for one popped queue item: returns the
early distinguishing word, if any, together with the queue items appended
before it. -/
def scanTriples (target : RA) (u v : LetterSeq) (a : Letter) (repl : Letter → Letter)
    (sinks : List ℕ) (visited : List KeyT) (it : BFSItem) :
    List (Letter × Transition × Transition) → Option (List Letter) × List BFSItem
  | [] => (none, [])
  | (nl, t1, t2) :: rest =>
      let inputTau1 := seqAppend it.r1 nl
      let inputTau2 := if nl ≠ a then seqAppend it.r2 nl else seqAppend it.r2 (repl nl)
      let newW := it.w ++ [nl]
      let newWSeq := target.alphabet.formSequence newW
      let newWpSeq := target.alphabet.applyMap newWSeq repl
      if ¬ target.alphabet.testType newWSeq newWpSeq then
        scanTriples target u v a repl sinks visited it rest
      else
        let uConcat := seqConcat u newWSeq
        let vConcat := seqConcat v newWpSeq
        if target.alphabet.testType inputTau1 t1.tau
            && target.alphabet.testType inputTau2 t2.tau
            && target.alphabet.testType uConcat vConcat then
          let newR1 := removeByIndices inputTau1 t1.E
          let newR2 := removeByIndices inputTau2 t2.E
          if locAccepting target t1.target != locAccepting target t2.target then
            (some newW, [])
          else
            let adds :=
              if (t1.target ∉ sinks ∨ t2.target ∉ sinks)
                  ∧ canAddToQueue target visited
                      (t1.target, newR1.letters, t2.target, newR2.letters) = true then
                [BFSItem.mk t1.target newR1 t2.target newR2 newW]
              else []
            let res := scanTriples target u v a repl sinks visited it rest
            (res.1, adds ++ res.2)
        else scanTriples target u v a repl sinks visited it rest

/-- The BFS loop of `find_distinguishing_seq` (`while queue and
len(queue) < 20`).  The Python loop has no static bound, so it is modelled
with explicit fuel; the claims proved about the oracle hold for every fuel
value. -/
def bfsLoop (target : RA) (u v : LetterSeq) (a : Letter) (repl : Letter → Letter)
    (sinks : List ℕ) : ℕ → List BFSItem → List KeyT → Option (List Letter)
  | 0, _, _ => none
  | _ + 1, [], _ => none
  | fuel + 1, it :: qrest, visited =>
      if 20 ≤ (it :: qrest).length then none
      else if locAccepting target it.l1 != locAccepting target it.l2 then some it.w
      else
        if (it.l1, it.r1.letters, it.l2, it.r2.letters) ∈ visited then
          bfsLoop target u v a repl sinks fuel qrest visited
        else
          let visited2 := visited ++ [(it.l1, it.r1.letters, it.l2, it.r2.letters)]
          let nls := (getLetterExtension (seqConcat it.r1 it.r2)
            target.alphabet.cmp).letters.dedup
          let triples := nls.flatMap (fun nl =>
            (locTransitions target it.l1).flatMap (fun t1 =>
              (locTransitions target it.l2).map (fun t2 => (nl, t1, t2))))
          let res := scanTriples target u v a repl sinks visited2 it triples
          match res.1 with
          | some w => some w
          | none => bfsLoop target u v a repl sinks fuel (qrest ++ res.2) visited2

/-- `find_distinguishing_seq(target, u, v, a, replace_a_with_b)` from
`teacher.py`.  The source computes both starting configurations by running
`u` (its line 118 runs `u`, not `v`); `next_letters` is a Python set,
modelled as a deduplicated list. -/
def findDistinguishingSeq (fuel : ℕ) (target : RA) (u v : LetterSeq) (a : Letter)
    (repl : Letter → Letter) : Option (List Letter) :=
  let sinks := (target.locations.filter
    (fun loc => isSinkRejecting target loc.id)).map Location.id
  let cu := (target.run u).getLastD target.initConf
  let cv := (target.run u).getLastD target.initConf
  bfsLoop target u v a repl sinks fuel
    [BFSItem.mk cu.1 cu.2.1 cv.1 cv.2.1 []] []

/-- The first loop of `get_memorable_seq`: scan the letters of `u`, build
the perturbed letter `b`, and add `a` to the memorable set when a
distinguishing suffix is found (`if suffix:` in Python is falsy both for
`None` and for the empty list).  The `memorables` set is modelled as a
duplicate-free list in insertion order. -/
def memorablesLoop (fuel : ℕ) (target : RA) (u : LetterSeq) (uSorted : List Letter) :
    List Letter → List Letter → List Letter
  | [], mems => mems
  | a :: rest, mems =>
      if a ∈ mems then memorablesLoop fuel target u uSorted rest mems
      else
        let idx := (uSorted.findIdx? (fun l => l == a)).getD 0
        let b :=
          if idx = 0 then target.alphabet.makeLetter (a.value - 1 / 2)
          else if idx = uSorted.length - 1 then target.alphabet.makeLetter (a.value + 1 / 2)
          else target.alphabet.makeLetter
            ((a.value + (uSorted.getD (idx + 1) default).value) / 2)
        let repl := fun c => if c == a then b else c
        let uprime := target.alphabet.applyMap u repl
        let suffix := findDistinguishingSeq fuel target u uprime a repl
        let isMem := match suffix with
          | some w => !w.isEmpty
          | none => false
        memorablesLoop fuel target u uSorted rest (if isMem then mems ++ [a] else mems)

/-- `dict.__setitem__` on an association list: overwrite the entry of an
existing key, else append. -/
def dictUpdate (m : List (Letter × ℕ)) (k : Letter) (v : ℕ) : List (Letter × ℕ) :=
  if m.any (fun p => p.1 == k) then m.map (fun p => if p.1 == k then (k, v) else p)
  else m ++ [(k, v)]

/-- The `mem_map` construction of `get_memorable_seq`: walk the positions in
order and record the index of each memorable letter, later occurrences
overwriting earlier ones. -/
def memMapFold (mems : List Letter) :
    List (ℕ × Letter) → List (Letter × ℕ) → List (Letter × ℕ)
  | [], m => m
  | (idx, a) :: rest, m =>
      memMapFold mems rest (if a ∈ mems then dictUpdate m a idx else m)

/-- `get_memorable_seq(target, u)` from `teacher.py`, with the fuel of the
inner symbolic search made explicit.  This is the value
`Teacher.memorability_query` returns. -/
def getMemorableSeq (fuel : ℕ) (target : RA) (u : LetterSeq) : LetterSeq :=
  let uSorted := sortedSetByValue u.letters
  let memorables := memorablesLoop fuel target u uSorted u.letters []
  let memMap := memMapFold memorables u.letters.enum []
  let vals := memMap.map Prod.snd
  (u.letters.enum.filter (fun p => decide (p.1 ∈ vals))).foldl
    (fun acc p => seqAppend acc p.2) target.alphabet.emptySequence

/-! #### Characterisation of the dictionary fold -/

/-- Association-list lookup (`dict` access by key). -/
def lookupL : List (Letter × ℕ) → Letter → Option ℕ
  | [], _ => none
  | p :: m, a => if p.1 == a then some p.2 else lookupL m a

/-! ### rpni.py: the S-completability check (C5) -/

/-- Threading of `RegisterAutomaton.step` over a letter list from a
`(state, registers)` pair, `none` when some step is undefined; this is the
incremental stepping pattern used throughout `s_completable`. -/
def runSteps (A : RA) : ℕ × LetterSeq → List Letter → Option (ℕ × LetterSeq)
  | c, [] => some c
  | c, l :: rest =>
      match A.step (c.1, c.2, none) l with
      | none => none
      | some c2 => runSteps A (c2.1, c2.2.1) rest

/-- Configuration reached from the initial configuration after reading a
whole value list. -/
def reachAfter (A : RA) (vs : List ℚ) : Option (ℕ × LetterSeq) :=
  runSteps A (A.initial.getD 0, A.alphabet.emptySequence) (vs.map A.alphabet.makeLetter)

/-- Body of the comparison at one position pair in `s_completable`
(`rpni.py` lines 301-319): at a common state the function returns `False`
when the registers differ in type or when the register-suffix
concatenations have the same type. -/
def scTrigger (A : RA) (wState : ℕ) (wReg wSuf : LetterSeq)
    (zState : ℕ) (zReg zSuf : LetterSeq) : Bool :=
  (wState == zState) &&
    (!(A.alphabet.testType wReg zReg) ||
      A.alphabet.testType (seqConcat wReg wSuf) (seqConcat zReg zSuf))

/-- Iterations `j ≥ 0` of the inner `for j in range(-1, len(z_seq))` loop of
`s_completable`: step through `z`, testing `scTrigger` after each successful
step; `j` is the index of the next letter of `fullZ` to read and `c` the
current `(z_state, z_reg)`. -/
def scZScan (A : RA) (wState : ℕ) (wReg wSuf : LetterSeq) (fullZ : LetterSeq) :
    List Letter → ℕ → ℕ × LetterSeq → Bool
  | [], _, _ => false
  | l :: rest, j, c =>
      match A.step (c.1, c.2, none) l with
      | none => false
      | some c2 =>
          scTrigger A wState wReg wSuf c2.1 c2.2.1 (getSuffix fullZ (j + 1)) ||
            scZScan A wState wReg wSuf fullZ rest (j + 1) (c2.1, c2.2.1)

/-- The whole inner `z` loop for one position of `w`, including the `j = -1`
iteration, which is skipped exactly when `w_suffix` still has the length of
`w_seq` (`rpni.py` line 285). -/
def scZPass (A : RA) (wState : ℕ) (wReg wSuf : LetterSeq) (isFirst : Bool)
    (fullZ : LetterSeq) : Bool :=
  ((!isFirst) &&
      scTrigger A wState wReg wSuf (A.initial.getD 0) A.alphabet.emptySequence
        (getSuffix fullZ 0)) ||
    scZScan A wState wReg wSuf fullZ fullZ.letters 0
      (A.initial.getD 0, A.alphabet.emptySequence)

/-- The outer `while True` loop of `s_completable` over positions of `w`;
`rest` mirrors `w_suffix.letters` and `wSuf` the running `w_suffix`. -/
def scWScan (A : RA) (fullW fullZ : LetterSeq) :
    List Letter → LetterSeq → ℕ × LetterSeq → Bool
  | [], wSuf, c =>
      scZPass A c.1 c.2 wSuf (wSuf.letters.length == fullW.letters.length) fullZ
  | l :: rest, wSuf, c =>
      if scZPass A c.1 c.2 wSuf (wSuf.letters.length == fullW.letters.length) fullZ
      then true
      else
        match A.step (c.1, c.2, none) l with
        | none => false
        | some c2 => scWScan A fullW fullZ rest (getSuffix wSuf 1) (c2.1, c2.2.1)

/-- The body of `s_completable` for one `(w, z)` pair, from the initial
configuration with `w_suffix = w_seq`. -/
def scCheckPair (A : RA) (wSeq zSeq : LetterSeq) : Bool :=
  scWScan A wSeq zSeq wSeq.letters wSeq (A.initial.getD 0, A.alphabet.emptySequence)

/-- The loop over `mutable_pairs` in `s_completable`; `none` models the
`assert not test_type(w_seq, z_seq)` at `rpni.py` line 273 failing. -/
def scPairsLoop (A : RA) : List (List ℚ × List ℚ) → Option Bool
  | [] => some true
  | (w, z) :: rest =>
      if A.alphabet.testType (A.alphabet.makeSequence w) (A.alphabet.makeSequence z)
      then none
      else if scCheckPair A (A.alphabet.makeSequence w) (A.alphabet.makeSequence z)
      then some false
      else scPairsLoop A rest

/-- `RegisterAutomatonRPNILearner.s_completable` (`rpni.py` lines 246-331),
with the negative samples and the positive/negative pairs as explicit
arguments; `none` models an `AssertionError`. -/
def sCompletable (A : RA) (negs : List (List ℚ))
    (pairs : List (List ℚ × List ℚ)) : Option Bool :=
  if negs.any (fun z => A.isAccepted (A.alphabet.makeSequence z)) then some false
  else scPairsLoop A pairs

/-- Rejection condition exactly as the claim words it (stated from the
specification, for comparison with `sCompletable`): some negative sample is
accepted, or some pair has prefixes reaching a common location whose
register contents have the same type and whose register-suffix
concatenations also have the same type. -/
def sCompletableSpecCond (A : RA) (negs : List (List ℚ))
    (pairs : List (List ℚ × List ℚ)) : Bool :=
  negs.any (fun z => A.isAccepted (A.alphabet.makeSequence z)) ||
    pairs.any (fun p =>
      (List.range (p.1.length + 1)).any (fun i =>
        (List.range (p.2.length + 1)).any (fun j =>
          match reachAfter A (p.1.take i), reachAfter A (p.2.take j) with
          | some cw, some cz =>
              (cw.1 == cz.1) && A.alphabet.testType cw.2 cz.2 &&
                A.alphabet.testType
                  (seqConcat cw.2 (A.alphabet.makeSequence (p.1.drop i)))
                  (seqConcat cz.2 (A.alphabet.makeSequence (p.2.drop j)))
          | _, _ => false)))

/-- LT-comparator automaton used for the C5 analysis: any first letter moves
location 0 to location 1 keeping the letter; from location 1 an ascending
register pair moves to location 2 and so does a descending pair; location 2
is rejecting with no outgoing transitions. -/
def cexA5 : RA :=
  { locations :=
      [⟨0, ['q', '0'], false, [⟨0, mkSeq [⟨0, LType.rational⟩], ∅, 1⟩]⟩,
       ⟨1, ['q', '1'], false,
         [⟨1, mkSeq [⟨0, LType.rational⟩, ⟨1, LType.rational⟩], ∅, 2⟩,
          ⟨1, mkSeq [⟨1, LType.rational⟩, ⟨0, LType.rational⟩], ∅, 2⟩]⟩,
       ⟨2, ['q', '2'], false, []⟩],
    initial := some 0,
    alphabet := ⟨LType.rational, Cmp.clt⟩ }

/-! ### dra.py: text export and parsing (C7) -/

/-- Whitespace recogniser for the `str.strip` and `\s` behaviours on the
characters this format emits. -/
def isSpaceC (c : Char) : Bool :=
  c == ' ' || c == '\t' || c == '\n' || c == '\r'

/-- ASCII digit test (the regex `\d` on this format's characters). -/
def isDigitC (c : Char) : Bool :=
  48 ≤ c.toNat && c.toNat ≤ 57

/-- Characters Python's `str.splitlines` treats as line breaks; the
round-trip hypotheses exclude them from location names. -/
def isLineBreakC (c : Char) : Bool :=
  c == '\n' || c == '\r' || c == '\x0b' || c == '\x0c' ||
    c == '\x1c' || c == '\x1d' || c == '\x1e' || c == '\u0085' ||
    c == ' ' || c == ' '

/-- Decimal digit to character. -/
def digitChar : ℕ → Char
  | 0 => '0'
  | 1 => '1'
  | 2 => '2'
  | 3 => '3'
  | 4 => '4'
  | 5 => '5'
  | 6 => '6'
  | 7 => '7'
  | 8 => '8'
  | 9 => '9'
  | _ => '0'

/-- Character to decimal digit. -/
def charToDigit (c : Char) : ℕ := c.toNat - 48

/-- Digit expansion of `str(n)` for a natural number, with explicit fuel
(always called with enough). -/
def natToCharsAux : ℕ → ℕ → List Char
  | 0, _ => []
  | fuel + 1, n =>
      if n = 0 then []
      else natToCharsAux fuel (n / 10) ++ [digitChar (n % 10)]

/-- `str(n)` for a natural number. -/
def natToChars (n : ℕ) : List Char :=
  if n = 0 then ['0'] else natToCharsAux n n

/-- `str(z)` for an integer. -/
def intToChars (z : ℤ) : List Char :=
  if z < 0 then '-' :: natToChars z.natAbs else natToChars z.natAbs

/-- `str(Fraction)` (and, for the REAL branch, the exact printing of the
rational standing in for a float; Python's `repr(float)` also round-trips
exactly). -/
def ratToChars (q : ℚ) : List Char :=
  if q.den = 1 then intToChars q.num
  else intToChars q.num ++ '/' :: natToChars q.den

/-- `str(bool)`. -/
def boolChars (b : Bool) : List Char :=
  if b then ("True".toList) else ("False".toList)

/-- The comparator symbol of `to_text`: `<` for `comp_lt`, otherwise `=`. -/
def cmpChars : Cmp → List Char
  | Cmp.clt => ['<']
  | Cmp.ceq => ['=']

/-- The letter-type string (`LetterType.RATIONAL` and `LetterType.REAL` are
the strings printed by `to_text`). -/
def ltypeChars : LType → List Char
  | LType.rational => ("rational".toList)
  | LType.real => ("real".toList)

/-- `str(self.initial)` in `to_text` (`None` when unset). -/
def initialChars : Option ℕ → List Char
  | some i => natToChars i
  | none => ("None".toList)

/-- `sep.join`, on character lists. -/
def joinChar (sep : Char) : List (List Char) → List Char
  | [] => []
  | [l] => l
  | l :: ls => l ++ sep :: joinChar sep ls

/-- `str.split(sep)` (all occurrences), on character lists. -/
def splitChar (sep : Char) : List Char → List (List Char)
  | [] => [[]]
  | c :: cs =>
      match splitChar sep cs with
      | [] => [[c]]
      | l :: ls => if c = sep then [] :: l :: ls else (c :: l) :: ls

/-- `str.split(sep, 1)`: split at the first occurrence, `none` when the
separator is absent (where Python's unpacking would raise). -/
def splitOnceChar (sep : Char) : List Char → Option (List Char × List Char)
  | [] => none
  | c :: cs =>
      if c = sep then some ([], cs)
      else (splitOnceChar sep cs).map (fun p => (c :: p.1, p.2))

/-- `str.split(pat)` for a multi-character pattern `p :: ps` (all
occurrences, scanning left to right and skipping the matched pattern). -/
def splitOnSub1 (p : Char) (ps : List Char) : List Char → List (List Char)
  | [] => [[]]
  | c :: cs =>
      if List.isPrefixOf (p :: ps) (c :: cs) then
        match splitOnSub1 p ps (cs.drop ps.length) with
        | [] => [[], []]
        | r => [] :: r
      else
        match splitOnSub1 p ps cs with
        | [] => [[c]]
        | l :: ls => (c :: l) :: ls
termination_by s => s.length
decreasing_by
  all_goals simp_wf <;> omega

/-- `str.split()` with no argument: split on whitespace runs, dropping
empty tokens. -/
def splitWS : List Char → List (List Char)
  | [] => []
  | c :: cs =>
      if isSpaceC c then splitWS cs
      else (c :: cs.takeWhile (fun d => !isSpaceC d)) ::
        splitWS (cs.dropWhile (fun d => !isSpaceC d))
termination_by s => s.length
decreasing_by
  all_goals simp_wf
  all_goals have h : (List.dropWhile (fun d => !isSpaceC d) cs).length ≤ cs.length :=
    List.Sublist.length_le (List.dropWhile_sublist _)
  all_goals omega

/-- `str.strip()` on the whitespace this format emits. -/
def stripChars (s : List Char) : List Char :=
  ((s.dropWhile isSpaceC).reverse.dropWhile isSpaceC).reverse

/-- `int(s)` on an unsigned decimal string (signed and padded forms never
survive the surrounding checks on this format's inputs). -/
def parseNatChars (cs : List Char) : Option ℕ :=
  if cs.isEmpty then none
  else if cs.all isDigitC then
    some (cs.foldl (fun a c => a * 10 + charToDigit c) 0)
  else none

/-- `int(s)` including a leading minus sign. -/
def parseIntChars (cs : List Char) : Option ℤ :=
  if cs.head? = some '-' then (parseNatChars cs.tail).map (fun n => -(n : ℤ))
  else (parseNatChars cs).map (fun n => (n : ℤ))

/-- `Fraction(s)` (and `float(s)` on the exact strings this format emits):
either an integer or `num/den` with a positive denominator. -/
def parseRatChars (cs : List Char) : Option ℚ :=
  match splitChar '/' cs with
  | [a] => (parseIntChars a).map (fun z => (z : ℚ))
  | [a, b] =>
      match parseIntChars a, parseNatChars b with
      | some z, some d => if d = 0 then none else some ((z : ℚ) / (d : ℚ))
      | _, _ => none
  | _ => none

/-- Parse every element of a list of value strings. -/
def parseRatList : List (List Char) → Option (List ℚ)
  | [] => some []
  | c :: cs =>
      match parseRatChars c, parseRatList cs with
      | some v, some vs => some (v :: vs)
      | _, _ => none

/-- Parse every element of a list of index strings. -/
def parseNatList : List (List Char) → Option (List ℕ)
  | [] => some []
  | c :: cs =>
      match parseNatChars c, parseNatList cs with
      | some v, some vs => some (v :: vs)
      | _, _ => none

/-- The parsed letter-type string as an `LType`.  Python keeps the raw
string; any string other than these two makes every later `make_letter`
call raise, so the model rejects it upfront. -/
def parseLType (cs : List Char) : Option LType :=
  if cs = ("rational".toList) then some LType.rational
  else if cs = ("real".toList) then some LType.real
  else none

/-- The `E={...}` payload of `to_text`: sorted indices in braces. -/
def eChars (E : Finset ℕ) : List Char :=
  if E = ∅ then ['\x7b', '\x7d']
  else '\x7b' :: (joinChar ',' ((E.sort (· ≤ ·)).map natToChars)) ++ ['\x7d']

/-- One location line of `to_text`:
two spaces, the id, the quoted name, and the accepting flag. -/
def locLine (loc : Location) : List Char :=
  ' ' :: ' ' :: natToChars loc.id ++ ' ' :: '\x22' :: loc.name ++
    '\x22' :: ' ' :: ("accepting=".toList) ++ boolChars loc.accepting

/-- One transition line of `to_text`. -/
def transLine (t : Transition) : List Char :=
  ' ' :: ' ' :: natToChars t.source ++ (" -> ".toList) ++ natToChars t.target ++
    (" : tau=[".toList) ++
    joinChar ',' (t.tau.letters.map (fun l => ratToChars l.value)) ++
    (("], E=").toList) ++ eChars t.E

/-- The line list built by `RegisterAutomaton.to_text` (`dra.py` lines
377-403); note the `"\ntransitions:"` element really contains the leading
newline, as in the source. -/
def toTextLines (A : RA) : List (List Char) :=
  ("# Register Automaton".toList) ::
    (("alphabet: ".toList) ++ ltypeChars A.alphabet.ltype ++ (", ".toList) ++
      cmpChars A.alphabet.cmp) ::
    (("initial: ".toList) ++ initialChars A.initial) ::
    ("locations:".toList) ::
    (A.locations.map locLine ++
      ('\n' :: ("transitions:".toList)) ::
        (A.locations.map (fun loc => loc.transitions.map transLine)).flatten)

/-- `RegisterAutomaton.to_text`. -/
def toText (A : RA) : List Char := joinChar '\n' (toTextLines A)

/-- The `alphabet:` line parser of `from_text` (`dra.py` lines 426-447). -/
def parseAlphaLine (l : List Char) : Option Alphabet :=
  if List.isPrefixOf ("alphabet:".toList) l then
    match splitOnceChar ':' l with
    | none => none
    | some (_, desc) =>
        match (splitChar ',' (stripChars desc)).map stripChars with
        | [tstr, cstr] =>
            match parseLType tstr with
            | none => none
            | some t =>
                if cstr = ("<".toList) then some ⟨t, Cmp.clt⟩
                else if cstr = ("=".toList) then some ⟨t, Cmp.ceq⟩
                else none
        | _ => none
  else none

/-- The `initial:` line parser of `from_text` (`dra.py` lines 453-455). -/
def parseInitLine (l : List Char) : Option ℕ :=
  if List.isPrefixOf ("initial:".toList) l then
    match (splitChar ':' l).get? 1 with
    | none => none
    | some s => parseNatChars (stripChars s)
  else none

/-- The location-line regex `(\d+)\s+"([^"]+)"\s+accepting=(True|False)`
of `from_text` as a prefix matcher (`re.match` ignores trailing text). -/
def parseLocLine (l : List Char) : Option (ℕ × List Char × Bool) :=
  let ds := l.takeWhile isDigitC
  let r1 := l.dropWhile isDigitC
  if ds.isEmpty then none
  else if (r1.takeWhile isSpaceC).isEmpty then none
  else
    let r2 := r1.dropWhile isSpaceC
    if r2.head? = some '\x22' then
      let r3 := r2.tail
      let nm := r3.takeWhile (fun c => !(c == '\x22'))
      let r4 := r3.dropWhile (fun c => !(c == '\x22'))
      if nm.isEmpty then none
      else if r4.head? = some '\x22' then
        let r5 := r4.tail
        if (r5.takeWhile isSpaceC).isEmpty then none
        else
          let r6 := r5.dropWhile isSpaceC
          if List.isPrefixOf ("accepting=".toList) r6 then
            let r7 := r6.drop ("accepting=".toList).length
            if List.isPrefixOf ("True".toList) r7 then
              (parseNatChars ds).map (fun j => (j, nm, true))
            else if List.isPrefixOf ("False".toList) r7 then
              (parseNatChars ds).map (fun j => (j, nm, false))
            else none
          else none
      else none
    else none

/-- The location loop of `from_text` (`dra.py` lines 463-474): consume
lines until one starts with `transitions`, adding a location per line
(a duplicate id raises). -/
def parseLocLoop (ra : RA) : List (List Char) → Option (RA × List (List Char))
  | [] => some (ra, [])
  | l :: rest =>
      if List.isPrefixOf ("transitions".toList) l then some (ra, l :: rest)
      else
        match parseLocLine l with
        | none => none
        | some (i, nm, b) =>
            if (ra.findLoc i).isSome then none
            else parseLocLoop (ra.addLocation i nm b) rest

/-- One transition line parser of `from_text` (`dra.py` lines 486-519). -/
def parseTransLine (alpha : Alphabet) (l : List Char) :
    Option (ℕ × ℕ × LetterSeq × Finset ℕ) :=
  match splitChar ':' l with
  | [left, right] =>
      match splitWS (stripChars left) with
      | [srcS, _, tgtS] =>
          match parseNatChars srcS, parseNatChars tgtS with
          | some src, some tgt =>
              match splitOnSub1 ',' ((" E=").toList) (stripChars right) with
              | [tauPart, ePart] =>
                  match splitOnceChar '=' tauPart with
                  | none => none
                  | some (_, tauAfter) =>
                      let tauStr := ((stripChars tauAfter).drop 1).dropLast
                      match (if tauStr.isEmpty then some [] else
                          parseRatList ((splitChar ',' tauStr).map stripChars)) with
                      | none => none
                      | some vals =>
                          let tau := alpha.formSequence (vals.map alpha.makeLetter)
                          let eStr := ((stripChars ePart).drop 1).dropLast
                          match (if eStr.isEmpty then some (∅ : Finset ℕ) else
                              (parseNatList (splitChar ',' eStr)).map List.toFinset) with
                          | none => none
                          | some E => some (src, tgt, tau, E)
              | _ => none
          | _, _ => none
      | _ => none
  | _ => none

/-- The transition loop of `from_text` (`dra.py` lines 483-525); both
endpoint locations must exist. -/
def parseTransLoop (ra : RA) : List (List Char) → Option RA
  | [] => some ra
  | l :: rest =>
      match parseTransLine ra.alphabet l with
      | none => none
      | some (src, tgt, tau, E) =>
          if (ra.findLoc src).isSome && (ra.findLoc tgt).isSome then
            parseTransLoop (ra.addTransition ⟨src, tau, E, tgt⟩) rest
          else none

/-- `RegisterAutomaton.from_text` on the filtered, stripped line list
(`dra.py` lines 423-526); `none` models any raised exception. -/
def fromLines (ls : List (List Char)) : Option RA :=
  match ls with
  | [] => none
  | l0 :: rest0 =>
      match parseAlphaLine l0 with
      | none => none
      | some alpha =>
          match rest0 with
          | [] => none
          | l1 :: rest1 =>
              match parseInitLine l1 with
              | none => none
              | some initId =>
                  match rest1 with
                  | [] => none
                  | l2 :: rest2 =>
                      if l2 = ("locations:".toList) then
                        match parseLocLoop ⟨[], none, alpha⟩ rest2 with
                        | none => none
                        | some (ra, rest3) =>
                            if (ra.findLoc initId).isSome then
                              match rest3 with
                              | [] => none
                              | lt :: rest4 =>
                                  if lt = ("transitions:".toList) then
                                    parseTransLoop
                                      { ra with initial := some initId } rest4
                                  else none
                            else none
                      else none

/-- The line preprocessing of `from_text` (`dra.py` lines 415-419): keep
the lines whose strip is nonempty and that do not start with `#`, each
stripped.  `splitlines` is modelled as splitting on `'\n'`, exact for
texts free of the other break characters of `isLineBreakC`. -/
def preprocessLines (text : List Char) : List (List Char) :=
  ((splitChar '\n' text).filter
    (fun ln => !(stripChars ln).isEmpty && !(List.isPrefixOf ['#'] ln))).map
    stripChars

/-- `RegisterAutomaton.from_text`. -/
def fromText (text : List Char) : Option RA := fromLines (preprocessLines text)

/-- Automaton with an empty location name, inside the claim's scope (its
initial location is set). -/
def cexA7 : RA :=
  { locations := [⟨0, [], false, []⟩],
    initial := some 0,
    alphabet := ⟨LType.rational, Cmp.clt⟩ }

/-- A location line of `to_text` after `strip`. -/
def locLineStripped (loc : Location) : List Char :=
  natToChars loc.id ++ (' ' :: '\x22' :: (loc.name ++ ('\x22' :: ' ' ::
    (("accepting=".toList) ++ boolChars loc.accepting))))

/-- A transition line of `to_text` after `strip`. -/
def transLineStripped (t : Transition) : List Char :=
  (natToChars t.source ++ (' ' :: '-' :: '>' :: ' ' ::
      (natToChars t.target ++ [' ']))) ++
    ':' :: (' ' :: 't' :: 'a' :: 'u' :: '=' :: '[' ::
      (joinChar ',' ((t.tau.letters.map Letter.value).map ratToChars) ++
        (']' :: ',' :: ' ' :: 'E' :: '=' :: eChars t.E)))

def wA7 : RA :=
  { locations :=
      [⟨0, ("q0".toList), false,
          [⟨0, ⟨[⟨1, LType.rational⟩], some LType.rational⟩, {1}, 1⟩]⟩,
        ⟨1, ("q1".toList), true, []⟩],
    initial := some 0,
    alphabet := ⟨LType.rational, Cmp.clt⟩ }

/-- `LetterSeq.get_prefix` (total model: every call site passes
`len(tau) - 1 < len(tau)`, so the out-of-range `ValueError` is unreachable). -/
def seqPrefix (s : LetterSeq) (n : ℕ) : LetterSeq :=
  if n = 0 then ⟨[], s.ltype⟩ else mkSeq (s.letters.take n)

/-- The canonical memorable prefix built at `dra.py` lines 251-257: each
letter of `u` replaced by its index in the sorted duplicate-free letters. -/
def mkCanonU (alpha : Alphabet) (u0 : LetterSeq) : LetterSeq :=
  alpha.makeSequence (u0.letters.map
    (fun x => (((sortedSetByValue u0.letters).indexOf x : ℕ) : ℚ)))

/-- The canonical input letter of `dra.py` lines 259-283 (`bisect_right`
on the sorted letters is the count of letters with value `≤ a`). -/
def canonLetter (alpha : Alphabet) (u0 : LetterSeq) (a : Letter) : Letter :=
  let uSorted := sortedSetByValue u0.letters
  let n := uSorted.length
  let insertPos := (uSorted.filter (fun x => x.value ≤ a.value)).length
  if n = 0 then alpha.makeLetter 0
  else if a ∈ uSorted then alpha.makeLetter ((uSorted.indexOf a : ℕ) : ℚ)
  else if alpha.cmp = Cmp.ceq then alpha.makeLetter (n : ℚ)
  else if insertPos = 0 then alpha.makeLetter (-1)
  else if n ≤ insertPos then alpha.makeLetter (n : ℚ)
  else alpha.makeLetter ((insertPos : ℚ) - 1/2)

/-- `Location.add_transition` reached through `normalised.locations[i]`
(the id lookup; ids are unique in every dict-backed automaton). -/
def RA.locAdd (r : RA) (i : ℕ) (t : Transition) : RA :=
  { r with
      locations := r.locations.map
        (fun l => if l.id = i then l.addTransition t else l) }

/-- The shared-`u` bookkeeping of `dra.py` lines 242-248: the first kept
transition fixes `original_u`; later ones must have a same-type `u`. -/
def resolveU (alpha : Alphabet) (origU : Option LetterSeq) (u : LetterSeq) :
    Option LetterSeq :=
  match origU with
  | none => some u
  | some u0 => if alpha.testType u u0 then some u0 else none

/-- The inner transition loop of `get_normalised_dra` (`dra.py` lines
228-291): skip transitions into rejecting sinks, check the shared-`u`
assumption against the first kept transition's `u`, canonicalise, and add
the canonical transition (the existence checks of `add_transition` raise,
modelled as `none`).  Returns the updated automaton, the shared original
`u`, and the set of used canonical letters in first-use order. -/
def normLoop (alpha : Alphabet) (sinks : List ℕ) :
    RA → Option LetterSeq → List Letter → List Transition →
      Option (RA × Option LetterSeq × List Letter)
  | ra, origU, used, [] => some (ra, origU, used)
  | ra, origU, used, t :: rest =>
      if t.tau.letters.length = 0 then none
      else if t.target ∈ sinks then normLoop alpha sinks ra origU used rest
      else
        match resolveU alpha origU (seqPrefix t.tau (t.tau.letters.length - 1))
        with
        | none => none
        | some u0 =>
            let aCanon := canonLetter alpha u0 (t.tau.letters.getLastD default)
            if (ra.findLoc t.source).isSome && (ra.findLoc t.target).isSome then
              normLoop alpha sinks
                (ra.addTransition
                  ⟨t.source, seqAppend (mkCanonU alpha u0) aCanon, t.E, t.target⟩)
                (some u0)
                (if aCanon ∈ used then used else used ++ [aCanon]) rest
            else none

/-- The outer location loop of `get_normalised_dra` (`dra.py` lines
218-300): skip rejecting sinks, run the transition loop, fail when no
transition fixed `u` (the Python code dereferences `None` at line 294),
and record the missing canonical letters and the canonical `u` per
location (Python set difference, modelled in letter-extension order). -/
def normLocs (alpha : Alphabet) (sinks : List ℕ) :
    RA → List (ℕ × List Letter) → List (ℕ × LetterSeq) → List Location →
      Option (RA × List (ℕ × List Letter) × List (ℕ × LetterSeq))
  | ra, mm, cm, [] => some (ra, mm, cm)
  | ra, mm, cm, loc :: rest =>
      if loc.id ∈ sinks then normLocs alpha sinks ra mm cm rest
      else
        match normLoop alpha sinks ra none [] loc.transitions with
        | none => none
        | some (ra2, origU, used) =>
            match origU with
            | none => none
            | some u0 =>
                let canonU := mkCanonU alpha u0
                let missing :=
                  ((getLetterExtension canonU alpha.cmp).letters.dedup).filter
                    (fun a => !(used.contains a))
                normLocs alpha sinks ra2
                  (if missing.isEmpty then mm else mm ++ [(loc.id, missing)])
                  (cm ++ [(loc.id, canonU)]) rest

/-- The missing-letter block of `get_normalised_dra` (`dra.py` lines
315-322): for each recorded location, one transition into the sink per
missing canonical letter, forgetting every index. -/
def addSinkTrans (sinkId : ℕ) (cm : List (ℕ × LetterSeq)) :
    RA → List (ℕ × List Letter) → RA
  | ra, [] => ra
  | ra, (i, ms) :: rest =>
      addSinkTrans sinkId cm
        (ms.foldl (fun r a =>
          r.locAdd i ⟨i, seqAppend ((cm.lookup i).getD ⟨[], none⟩) a,
            Finset.range (((cm.lookup i).getD ⟨[], none⟩).letters.length + 1),
            sinkId⟩) ra)
        rest

/-- `RegisterAutomaton.get_normalised_dra` (`dra.py` lines 195-330).
`next(iter(rejecting_sinks), -1)` iterates a CPython set of small ints in
ascending order, modelled as the minimum; raising paths return `none`. -/
def RA.getNormalisedDra (A : RA) : Option RA :=
  let sinks := A.getSinkRejectingLocations
  match A.initial with
  | none => none
  | some i0 =>
      let base : RA :=
        ⟨A.locations.map (fun l => ⟨l.id, l.name, l.accepting, []⟩),
          none, A.alphabet⟩
      if (base.findLoc i0).isSome then
        match normLocs A.alphabet sinks { base with initial := some i0 }
            [] [] A.locations with
        | none => none
        | some (ra2, mm, cm) =>
            if mm.isEmpty then some ra2
            else
              match sinks.min? with
              | some c =>
                  some ((addSinkTrans c cm ra2 mm).locAdd c
                    ⟨c, A.alphabet.makeSequence [0], {0}, c⟩)
              | none =>
                  some ((addSinkTrans ra2.locations.length cm
                      (ra2.addLocation ra2.locations.length ("sink".toList)
                        false) mm).locAdd ra2.locations.length
                    ⟨ra2.locations.length, A.alphabet.makeSequence [0], {0},
                      ra2.locations.length⟩)
      else none

/-- A non-sink location whose only non-sink transition is a self-loop
covering the whole letter extension of its (empty) memorable prefix;
normalisation turns it into a rejecting sink. -/
def cexA6 : RA :=
  { locations :=
      [⟨0, ("p0".toList), true,
          [⟨0, ⟨[⟨5, LType.rational⟩], some LType.rational⟩, {0}, 0⟩]⟩,
        ⟨1, ("p1".toList), false,
          [⟨1, ⟨[⟨7, LType.rational⟩], some LType.rational⟩, {0}, 1⟩,
            ⟨1, ⟨[⟨9, LType.rational⟩], some LType.rational⟩, {0}, 2⟩]⟩,
        ⟨2, ("p2".toList), false, []⟩],
    initial := some 0,
    alphabet := ⟨LType.rational, Cmp.clt⟩ }

def wA6 : RA :=
  { locations :=
      [⟨0, ("r0".toList), true,
          [⟨0, ⟨[⟨3, LType.rational⟩], some LType.rational⟩, {0}, 0⟩]⟩,
        ⟨1, ("r1".toList), false, []⟩,
        ⟨2, ("r2".toList), false, []⟩],
    initial := some 0,
    alphabet := ⟨LType.rational, Cmp.clt⟩ }

def wB6 : RA :=
  { locations :=
      [⟨0, ("r0".toList), true,
          [⟨0, ⟨[⟨0, LType.rational⟩], some LType.rational⟩, {0}, 0⟩]⟩,
        ⟨1, ("r1".toList), false, []⟩,
        ⟨2, ("r2".toList), false, []⟩],
    initial := some 0,
    alphabet := ⟨LType.rational, Cmp.clt⟩ }

/-! ### Basic lemmas -/

theorem stepScan_eq_find (alpha : Alphabet) (ext : LetterSeq) (ts : List Transition) :
    stepScan alpha ext ts =
      (ts.find? (stepMatches alpha ext)).map
        (fun t => (t.target, removeByIndices ext t.E, some t)) := by
  induction ts with
  | nil => rfl
  | cons t rest ih =>
      by_cases h1 : ext.letters.length = t.tau.letters.length
      · by_cases h2 : ext.ltype = t.tau.ltype
        · by_cases h3 : alpha.testType ext t.tau
          · have hm : stepMatches alpha ext t = true := by
              simp [stepMatches, h1, h2, h3]
            simp [stepScan, h1, h2, h3, List.find?, hm]
          · have hm : stepMatches alpha ext t = false := by
              simp [stepMatches, h3]
            simp [stepScan, h1, h2, h3, List.find?, hm, ih]
        · have hm : stepMatches alpha ext t = false := by
            simp [stepMatches, h2]
          simp [stepScan, h1, h2, List.find?, hm, ih]
      · have hm : stepMatches alpha ext t = false := by
          simp [stepMatches, h1]
        simp [stepScan, h1, List.find?, hm, ih]

theorem find_loc_list (ls : List Location) (loc : Location)
    (hnd : (ls.map Location.id).Nodup) (hmem : loc ∈ ls) :
    ls.find? (fun l => l.id == loc.id) = some loc := by
  induction ls with
  | nil => cases hmem
  | cons l rest ih =>
      rcases List.mem_cons.mp hmem with rfl | hmem2
      · simp [List.find?]
      · have hne : l.id ≠ loc.id := by
          simp only [List.map_cons, List.nodup_cons] at hnd
          intro he
          exact hnd.1 (he ▸ List.mem_map_of_mem Location.id hmem2)
        have hb : (l.id == loc.id) = false := by simp [hne]
        simp only [List.find?, hb]
        exact ih (by simp only [List.map_cons, List.nodup_cons] at hnd; exact hnd.2) hmem2

theorem findLoc_of_mem (A : RA) (loc : Location)
    (hnd : (A.locations.map Location.id).Nodup) (hmem : loc ∈ A.locations) :
    A.findLoc loc.id = some loc :=
  find_loc_list A.locations loc hnd hmem

/-! ### Claim C2: the step function -/

/-- C2: `step` returns `None` exactly when no outgoing transition of the
current location has a guard τ of the same length, same domain and same
type as `registers · x`; otherwise it returns
`(q, (registers · x).remove_at(E), t)` built from the first matching
transition `t` in insertion order. -/
theorem step_spec (A : RA) (conf : Config) (x : Letter) (loc : Location)
    (hloc : A.findLoc conf.1 = some loc) :
    (A.step conf x = none ↔
      ∀ t ∈ loc.transitions, stepMatches A.alphabet (seqAppend conf.2.1 x) t = false)
    ∧ A.step conf x =
        (loc.transitions.find? (stepMatches A.alphabet (seqAppend conf.2.1 x))).map
          (fun t => (t.target, removeByIndices (seqAppend conf.2.1 x) t.E, some t)) := by
  have hstep : A.step conf x =
      (loc.transitions.find? (stepMatches A.alphabet (seqAppend conf.2.1 x))).map
        (fun t => (t.target, removeByIndices (seqAppend conf.2.1 x) t.E, some t)) := by
    unfold RA.step
    rw [hloc]
    exact stepScan_eq_find _ _ _
  refine ⟨?_, hstep⟩
  rw [hstep]
  constructor
  · intro hnone t hmem
    rcases hfind : loc.transitions.find? (stepMatches A.alphabet (seqAppend conf.2.1 x)) with _ | u
    · have := List.find?_eq_none.mp hfind t hmem
      simpa using this
    · rw [hfind] at hnone
      simp at hnone
  · intro hall
    have : loc.transitions.find? (stepMatches A.alphabet (seqAppend conf.2.1 x)) = none := by
      apply List.find?_eq_none.mpr
      intro t hmem
      simp [hall t hmem]
    simp [this]

/-- Witness for C2 at a concrete configuration of `wRA`. -/
theorem step_spec_witness :
    wRA.findLoc 0 = some ⟨0, ['q'], false, [⟨0, mkSeq [⟨0, LType.rational⟩], {0}, 0⟩]⟩ ∧
    (wRA.step (0, emptySeq LType.rational, none) ⟨5, LType.rational⟩ = none ↔
      ∀ t ∈ [Transition.mk 0 (mkSeq [⟨0, LType.rational⟩]) {0} 0],
        stepMatches wRA.alphabet (seqAppend (emptySeq LType.rational) ⟨5, LType.rational⟩) t = false) := by
  constructor
  · rfl
  · exact (step_spec wRA (0, emptySeq LType.rational, none) ⟨5, LType.rational⟩ _ rfl).1

/-! ### Claim C10: transition-less non-accepting locations are sinks -/

/-- C10: a non-accepting location with no outgoing transitions is always in
`get_sink_rejecting_locations` (the self-target condition holds vacuously),
and `find_distinguishing_seq`'s `is_sink_rejecting` classifies it the same
way. -/
theorem sink_vacuous (A : RA) (loc : Location)
    (hnd : (A.locations.map Location.id).Nodup)
    (hmem : loc ∈ A.locations)
    (hacc : loc.accepting = false)
    (htr : loc.transitions = []) :
    loc.id ∈ A.getSinkRejectingLocations ∧ isSinkRejecting A loc.id = true := by
  constructor
  · unfold RA.getSinkRejectingLocations
    apply List.mem_map_of_mem Location.id
    apply List.mem_filter.mpr
    exact ⟨hmem, by simp [hacc, htr]⟩
  · unfold isSinkRejecting
    rw [findLoc_of_mem A loc hnd hmem]
    simp [hacc, htr]

/-- Witness for C10 on `wRA2`. -/
theorem sink_vacuous_witness :
    1 ∈ wRA2.getSinkRejectingLocations ∧ isSinkRejecting wRA2 1 = true := by
  have h := sink_vacuous wRA2 ⟨1, ['s'], false, []⟩ (by decide)
    (by simp [wRA2]) rfl rfl
  exact h

theorem mkSeq_letters (ls : List Letter) : (mkSeq ls).letters = ls := rfl

theorem valueSet_append (L1 L2 : List Letter) :
    valueSet (L1 ++ L2) = valueSet L1 ∪ valueSet L2 := by
  unfold valueSet
  ext v
  simp

theorem insertByValue_perm (a : Letter) (l : List Letter) :
    List.Perm (insertByValue a l) (a :: l) := by
  induction l with
  | nil => exact List.Perm.refl _
  | cons b l ih =>
      unfold insertByValue
      by_cases h : a.value ≤ b.value
      · rw [if_pos h]
      · rw [if_neg h]
        exact (ih.cons b).trans (List.Perm.swap a b l)

theorem sortValue_perm (l : List Letter) : List.Perm (sortValue l) l := by
  induction l with
  | nil => exact List.Perm.refl _
  | cons a l ih =>
      exact (insertByValue_perm a (sortValue l)).trans (ih.cons a)

theorem insertByValue_sorted (a : Letter) (l : List Letter)
    (hs : l.Pairwise (fun x y => x.value ≤ y.value)) :
    (insertByValue a l).Pairwise (fun x y => x.value ≤ y.value) := by
  induction l with
  | nil => simp [insertByValue]
  | cons b l ih =>
      unfold insertByValue
      by_cases h : a.value ≤ b.value
      · rw [if_pos h]
        refine List.Pairwise.cons ?_ hs
        intro x hx
        rcases List.mem_cons.mp hx with rfl | hx2
        · exact h
        · exact le_trans h ((List.pairwise_cons.mp hs).1 x hx2)
      · rw [if_neg h]
        have hs2 := (List.pairwise_cons.mp hs).2
        refine List.Pairwise.cons ?_ (ih hs2)
        intro x hx
        have hx3 := (insertByValue_perm a l).mem_iff.mp hx
        rcases List.mem_cons.mp hx3 with rfl | hx4
        · exact le_of_lt (lt_of_not_le h)
        · exact (List.pairwise_cons.mp hs).1 x hx4

theorem sortValue_sorted (l : List Letter) :
    (sortValue l).Pairwise (fun x y => x.value ≤ y.value) := by
  induction l with
  | nil => exact List.Pairwise.nil
  | cons a l ih => exact insertByValue_sorted a (sortValue l) ih

theorem sortedSetByValue_perm_dedup (ls : List Letter) :
    List.Perm (sortedSetByValue ls) ls.dedup := sortValue_perm ls.dedup

theorem sortedSetByValue_sorted (ls : List Letter) :
    (sortedSetByValue ls).Pairwise (fun x y => x.value ≤ y.value) :=
  sortValue_sorted ls.dedup

theorem sortedSetByValue_nodup (ls : List Letter) : (sortedSetByValue ls).Nodup :=
  ((sortedSetByValue_perm_dedup ls).nodup_iff).mpr (List.nodup_dedup ls)

theorem mem_sortedSetByValue (ls : List Letter) (x : Letter) :
    x ∈ sortedSetByValue ls ↔ x ∈ ls := by
  rw [(sortedSetByValue_perm_dedup ls).mem_iff, List.mem_dedup]

theorem valueSet_sortedSetByValue (ls : List Letter) :
    valueSet (sortedSetByValue ls) = valueSet ls := by
  unfold valueSet
  ext v
  simp only [List.mem_toFinset, List.mem_map]
  constructor
  · rintro ⟨a, ha, rfl⟩
    exact ⟨a, (mem_sortedSetByValue ls a).mp ha, rfl⟩
  · rintro ⟨a, ha, rfl⟩
    exact ⟨a, (mem_sortedSetByValue ls a).mpr ha, rfl⟩

/-- For a homogeneous letter list, the values of the sorted deduplicated
list are pairwise distinct. -/
theorem sortedSetByValue_values_nodup (ls : List Letter) (t : LType)
    (hwf : ∀ l ∈ ls, l.ltype = t) :
    ((sortedSetByValue ls).map Letter.value).Nodup := by
  refine List.Nodup.map_on ?_ (sortedSetByValue_nodup ls)
  intro x hx y hy hxy
  have hxt := hwf x ((mem_sortedSetByValue ls x).mp hx)
  have hyt := hwf y ((mem_sortedSetByValue ls y).mp hy)
  cases x; cases y
  simp only [Letter.mk.injEq]
  simp only [] at hxy hxt hyt
  exact ⟨hxy, hxt.trans hyt.symm⟩

theorem sortedSetByValue_strict (ls : List Letter) (t : LType)
    (hwf : ∀ l ∈ ls, l.ltype = t) :
    (sortedSetByValue ls).Pairwise (fun x y => x.value < y.value) := by
  have h1 := sortedSetByValue_sorted ls
  have hnd := sortedSetByValue_values_nodup ls t hwf
  have h2 : (sortedSetByValue ls).Pairwise (fun x y => x.value ≠ y.value) :=
    List.pairwise_map.mp hnd
  exact (h1.and h2).imp (fun h => lt_of_le_of_ne h.1 h.2)

theorem pairwise_zip_tail {r : Letter → Letter → Prop} (L : List Letter)
    (h : L.Pairwise r) : ∀ p ∈ L.zip L.tail, r p.1 p.2 := by
  induction L with
  | nil => intro p hp; cases hp
  | cons a L ih =>
      intro p hp
      cases L with
      | nil => cases hp
      | cons b L2 =>
          simp only [List.tail_cons, List.zip_cons_cons] at hp
          rcases List.mem_cons.mp hp with rfl | hp2
          · exact (List.pairwise_cons.mp h).1 b (List.mem_cons_self b L2)
          · exact ih (List.pairwise_cons.mp h).2 p hp2

theorem sorted_headD_le (L : List Letter) (d : Letter)
    (hs : L.Pairwise (fun x y => x.value ≤ y.value)) :
    ∀ x ∈ L, (L.headD d).value ≤ x.value := by
  cases L with
  | nil => intro x hx; cases hx
  | cons a L =>
      intro x hx
      rcases List.mem_cons.mp hx with rfl | hx2
      · simp
      · exact (List.pairwise_cons.mp hs).1 x hx2

theorem sorted_le_getLastD (L : List Letter) (d : Letter)
    (hs : L.Pairwise (fun x y => x.value ≤ y.value)) :
    ∀ x ∈ L, x.value ≤ (L.getLastD d).value := by
  induction L generalizing d with
  | nil => intro x hx; cases hx
  | cons a L ih =>
      intro x hx
      have hlast : (a :: L).getLastD d = L.getLastD a := by
        cases L <;> simp [List.getLastD]
      rw [hlast]
      rcases List.mem_cons.mp hx with rfl | hx2
      · cases L with
        | nil => simp [List.getLastD]
        | cons b L2 =>
            have hmem : (b :: L2).getLastD x ∈ b :: L2 := by
              rw [List.getLastD_eq_getLast?, List.getLast?_eq_getLast (b :: L2) (by simp)]
              simp [List.getLast_mem]
            exact (List.pairwise_cons.mp hs).1 _ hmem
      · exact ih a (List.pairwise_cons.mp hs).2 x hx2

theorem mem_interMids_value (t : LType) (L : List Letter) (v : ℚ) :
    v ∈ (interMids t L).map Letter.value ↔
      v ∈ L.map Letter.value ∨
        v ∈ (L.zip L.tail).map (fun p => (p.1.value + p.2.value) / 2) := by
  induction L with
  | nil => simp [interMids]
  | cons a L ih =>
      cases L with
      | nil => simp [interMids]
      | cons b L2 =>
          have hrw0 : interMids t (a :: b :: L2)
              = a :: ((if a.value ≠ b.value
                  then [Letter.mk ((a.value + b.value) / 2) t] else [])
                ++ interMids t (b :: L2)) := rfl
          by_cases h : a.value = b.value
          · rw [hrw0, if_neg (by simp [h])]
            have hm : (a.value + b.value) / 2 = a.value := by rw [h]; ring
            simp only [List.nil_append, List.map_cons, List.mem_cons, List.tail_cons,
              List.zip_cons_cons, hm] at ih ⊢
            tauto
          · rw [hrw0, if_pos h]
            simp only [List.cons_append, List.nil_append, List.map_cons, List.mem_cons,
              List.tail_cons, List.zip_cons_cons] at ih ⊢
            tauto

theorem interMids_values (t : LType) (L : List Letter) :
    valueSet (interMids t L) = valueSet L ∪ midsOf L := by
  ext v
  simp only [valueSet, midsOf, Finset.mem_union, List.mem_toFinset]
  exact mem_interMids_value t L v

theorem le_maxVal (s : LetterSeq) (v : ℚ) (hv : v ∈ valueSet s.letters) :
    v ≤ maxVal s := by
  unfold valueSet at hv
  simp only [List.mem_toFinset, List.mem_map] at hv
  obtain ⟨a, ha, rfl⟩ := hv
  exact sorted_le_getLastD _ default (sortedSetByValue_sorted s.letters) a
    ((mem_sortedSetByValue s.letters a).mpr ha)

theorem minVal_le (s : LetterSeq) (v : ℚ) (hv : v ∈ valueSet s.letters) :
    minVal s ≤ v := by
  unfold valueSet at hv
  simp only [List.mem_toFinset, List.mem_map] at hv
  obtain ⟨a, ha, rfl⟩ := hv
  exact sorted_headD_le _ default (sortedSetByValue_sorted s.letters) a
    ((mem_sortedSetByValue s.letters a).mpr ha)

theorem getLetterExtension_ceq (s : LetterSeq) (hne : s.letters ≠ []) :
    getLetterExtension s Cmp.ceq
      = mkSeq (s.letters ++ [⟨maxVal s + 1, s.ltype.getD (s.letters.headD default).ltype⟩]) := by
  unfold getLetterExtension
  rw [if_neg hne]
  rfl

theorem getLetterExtension_clt (s : LetterSeq) (hne : s.letters ≠ []) :
    getLetterExtension s Cmp.clt
      = mkSeq (interMids (s.ltype.getD (s.letters.headD default).ltype)
            (sortedSetByValue s.letters)
          ++ [⟨maxVal s + 1, s.ltype.getD (s.letters.headD default).ltype⟩,
              ⟨minVal s - 1, s.ltype.getD (s.letters.headD default).ltype⟩]) := by
  unfold getLetterExtension
  rw [if_neg hne]
  rfl

/-- C4: the letter extension of `s` is, as a set of data values: under `EQ`
the distinct values of `s` plus one fresh value not in `s`; under `LT` the
distinct values of `s`, one midpoint for every adjacent pair of the sorted
distinct values (each strictly between the two), one value strictly below
the minimum and one strictly above the maximum; and `{0}` for the empty
sequence. -/
theorem letter_extension_spec (s : LetterSeq) (c : Cmp) (t : LType)
    (hwf : ∀ l ∈ s.letters, l.ltype = t) :
    (s.letters = [] → valueSet (getLetterExtension s c).letters = {0})
    ∧ (s.letters ≠ [] → c = Cmp.ceq →
        valueSet (getLetterExtension s c).letters = valueSet s.letters ∪ {maxVal s + 1}
        ∧ maxVal s + 1 ∉ valueSet s.letters)
    ∧ (s.letters ≠ [] → c = Cmp.clt →
        valueSet (getLetterExtension s c).letters
          = valueSet s.letters ∪ midsOf (sortedSetByValue s.letters)
              ∪ {maxVal s + 1, minVal s - 1}
        ∧ (∀ p ∈ (sortedSetByValue s.letters).zip (sortedSetByValue s.letters).tail,
            p.1.value < (p.1.value + p.2.value) / 2 ∧ (p.1.value + p.2.value) / 2 < p.2.value)
        ∧ (∀ v ∈ valueSet s.letters, minVal s - 1 < v ∧ v < maxVal s + 1)) := by
  refine ⟨?_, ?_, ?_⟩
  · intro he
    unfold getLetterExtension
    rw [if_pos he]
    simp [valueSet, mkSeq]
  · intro hne hc
    subst hc
    constructor
    · rw [getLetterExtension_ceq s hne, mkSeq_letters, valueSet_append]
      have hsingle : valueSet
          [(⟨maxVal s + 1, s.ltype.getD (s.letters.headD default).ltype⟩ : Letter)]
          = {maxVal s + 1} := by
        simp [valueSet]
      rw [hsingle]
    · intro hmem
      have := le_maxVal s _ hmem
      linarith
  · intro hne hc
    subst hc
    refine ⟨?_, ?_, ?_⟩
    · rw [getLetterExtension_clt s hne, mkSeq_letters, valueSet_append, interMids_values,
        valueSet_sortedSetByValue]
      have hpair : valueSet
          [(⟨maxVal s + 1, s.ltype.getD (s.letters.headD default).ltype⟩ : Letter),
           ⟨minVal s - 1, s.ltype.getD (s.letters.headD default).ltype⟩]
          = {maxVal s + 1, minVal s - 1} := by
        simp [valueSet]
      rw [hpair]
    · intro p hp
      have hstrict := sortedSetByValue_strict s.letters t hwf
      have hlt := pairwise_zip_tail _ hstrict p hp
      constructor <;> linarith
    · intro v hv
      have h1 := minVal_le s v hv
      have h2 := le_maxVal s v hv
      constructor <;> linarith

/-- Witness for C4 on the sequence `[1, 3, 3]` under `LT`. -/
theorem letter_extension_spec_witness :
    valueSet (getLetterExtension (mkSeq [⟨1, LType.rational⟩, ⟨3, LType.rational⟩,
        ⟨3, LType.rational⟩]) Cmp.clt).letters
      = valueSet (mkSeq [⟨1, LType.rational⟩, ⟨3, LType.rational⟩,
            ⟨3, LType.rational⟩]).letters
          ∪ midsOf (sortedSetByValue (mkSeq [⟨1, LType.rational⟩, ⟨3, LType.rational⟩,
              ⟨3, LType.rational⟩]).letters)
          ∪ {maxVal (mkSeq [⟨1, LType.rational⟩, ⟨3, LType.rational⟩, ⟨3, LType.rational⟩]) + 1,
             minVal (mkSeq [⟨1, LType.rational⟩, ⟨3, LType.rational⟩, ⟨3, LType.rational⟩]) - 1} :=
  ((letter_extension_spec (mkSeq [⟨1, LType.rational⟩, ⟨3, LType.rational⟩,
      ⟨3, LType.rational⟩]) Cmp.clt LType.rational (by decide)).2.2 (by decide) rfl).1

theorem checkEquiv_append (alpha : Alphabet) (memQ : LetterSeq → Bool)
    (suffixes : List LetterSeq) (cacheSet : List (LetterSeq × LetterSeq))
    (refRow : TableRow) (candPre candMem : LetterSeq) (s : LetterSeq) (e : Bool)
    (hlen : refRow.entries.length = suffixes.length)
    (h : checkEquivalenceWithReferenceRow alpha memQ suffixes cacheSet refRow candPre candMem
      = false) :
    checkEquivalenceWithReferenceRow alpha memQ (suffixes ++ [s]) cacheSet
      { refRow with entries := refRow.entries ++ [e] } candPre candMem = false := by
  unfold checkEquivalenceWithReferenceRow at h ⊢
  by_cases hc : (refRow.rowPre, refRow.rowMem) ∈ cacheSet
  · simp [hc]
  · simp only [if_neg hc] at h ⊢
    by_cases ht : alpha.testType refRow.rowMem candMem = true
    · have hni : ¬¬(alpha.testType refRow.rowMem candMem = true) := not_not_intro ht
      rw [if_neg hni] at h ⊢
      rw [List.all_eq_false] at h ⊢
      obtain ⟨i, hi, hne⟩ := h
      refine ⟨i, ?_, ?_⟩
      · simp only [List.mem_range, List.length_append] at hi ⊢
        omega
      · have hilt : i < suffixes.length := List.mem_range.mp hi
        have hilt2 : i < refRow.entries.length := hlen ▸ hilt
        simp only [List.getD_eq_getElem?_getD, List.getElem?_append_left hilt,
          List.getElem?_append_left hilt2]
        simpa only [List.getD_eq_getElem?_getD] using hne
    · simp [ht]

/-- C9: the negative cache stays valid under column growth: if the row
equivalence check answers `False` for a reference row with respect to the
current columns, it still answers `False` for the corresponding row after
`insert_column` adds any new column — a new column can turn an equivalent
pair inequivalent but never the reverse. -/
theorem check_equivalence_monotone (alpha : Alphabet) (memQ : LetterSeq → Bool)
    (t : OTable) (suffix : LetterSeq) (cacheSet : List (LetterSeq × LetterSeq))
    (k : ℕ) (hk : k < t.rows.length) (candPre candMem : LetterSeq)
    (hlen : ∀ r ∈ t.rows, r.entries.length = t.suffixes.length)
    (hfalse : checkEquivalenceWithReferenceRow alpha memQ t.suffixes cacheSet
      (t.rows.getD k default) candPre candMem = false) :
    checkEquivalenceWithReferenceRow alpha memQ
      (insertColumn alpha memQ t suffix).suffixes cacheSet
      ((insertColumn alpha memQ t suffix).rows.getD k default) candPre candMem = false := by
  unfold insertColumn
  by_cases hmem : suffix ∈ t.suffixes
  · simpa [hmem] using hfalse
  · simp only [if_neg hmem]
    have hrow : (t.rows.map
        (fun r => { r with entries := r.entries ++ [memQ (seqConcat r.rowPre suffix)] })).getD
          k default
        = { t.rows.getD k default with
            entries := (t.rows.getD k default).entries
              ++ [memQ (seqConcat (t.rows.getD k default).rowPre suffix)] } := by
      have h1 : (t.rows.map
          (fun r => { r with entries := r.entries ++ [memQ (seqConcat r.rowPre suffix)] }))[k]? =
          (t.rows[k]?).map
            (fun r => { r with entries := r.entries ++ [memQ (seqConcat r.rowPre suffix)] }) :=
        List.getElem?_map _ t.rows k
      rcases h2 : t.rows[k]? with _ | r
      · exact absurd (List.getElem?_eq_some_iff.mpr ⟨hk, rfl⟩) (by simp [h2])
      · rw [List.getD_eq_getElem?_getD, List.getD_eq_getElem?_getD, h1, h2]
        rfl
    rw [hrow]
    have hdmem : t.rows.getD k default ∈ t.rows := by
      rw [List.getD_eq_getElem?_getD, List.getElem?_eq_getElem hk]
      exact List.getElem_mem hk
    exact checkEquiv_append alpha memQ t.suffixes cacheSet (t.rows.getD k default)
      candPre candMem suffix _ (hlen _ hdmem) hfalse

/-- Witness for C9: a one-row table where the reference row fails the type
check against the candidate, before and after a column insertion. -/
theorem check_equivalence_monotone_witness :
    checkEquivalenceWithReferenceRow ⟨LType.rational, Cmp.ceq⟩ (fun _ => false)
      (insertColumn ⟨LType.rational, Cmp.ceq⟩ (fun _ => false)
        ⟨[⟨mkSeq [⟨1, LType.rational⟩], mkSeq [⟨1, LType.rational⟩], [false], false⟩],
          [emptySeq LType.rational]⟩ (mkSeq [⟨2, LType.rational⟩])).suffixes []
      ((insertColumn ⟨LType.rational, Cmp.ceq⟩ (fun _ => false)
        ⟨[⟨mkSeq [⟨1, LType.rational⟩], mkSeq [⟨1, LType.rational⟩], [false], false⟩],
          [emptySeq LType.rational]⟩ (mkSeq [⟨2, LType.rational⟩])).rows.getD 0 default)
      (emptySeq LType.rational) (emptySeq LType.rational) = false :=
  check_equivalence_monotone ⟨LType.rational, Cmp.ceq⟩ (fun _ => false)
    ⟨[⟨mkSeq [⟨1, LType.rational⟩], mkSeq [⟨1, LType.rational⟩], [false], false⟩],
      [emptySeq LType.rational]⟩ (mkSeq [⟨2, LType.rational⟩]) [] 0 (by decide)
    (emptySeq LType.rational) (emptySeq LType.rational) (by decide) (by decide)

/-- C1 counterexample: the equivalence query (all words up to the default
length 4 over the letter `1`) reports equivalence although the two
automata disagree on the word `1 1 1 1 1`, so "no counterexample implies
equal languages" is false as stated. -/
theorem equivalence_query_claim_false :
    equivalenceQuery cexT cexH [⟨1, LType.rational⟩] 4 = (true, none) ∧
    cexT.isAccepted (mkSeq (List.replicate 5 ⟨1, LType.rational⟩)) = true ∧
    cexH.isAccepted (mkSeq (List.replicate 5 ⟨1, LType.rational⟩)) = false := by
  refine ⟨?_, by decide, by decide⟩
  decide

/-- C1 amended: the equivalence query returns `(True, None)` iff the target
and the hypothesis agree on every sequence generated from the given letter
list up to `max_len`; and whenever it returns a counterexample word, the
two automata disagree on that word (which is one of the generated ones). -/
theorem equivalence_query_spec (T H : RA) (letters : List Letter) (maxLen : ℕ) :
    (equivalenceQuery T H letters maxLen = (true, none) ↔
      ∀ s ∈ generateSequences T letters maxLen, T.isAccepted s = H.isAccepted s)
    ∧ ∀ s, (equivalenceQuery T H letters maxLen).2 = some s →
        (equivalenceQuery T H letters maxLen).1 = false ∧
        s ∈ generateSequences T letters maxLen ∧
        T.isAccepted s ≠ H.isAccepted s := by
  constructor
  · unfold equivalenceQuery
    rcases hfind : (generateSequences T letters maxLen).find?
        (fun s => T.isAccepted s != H.isAccepted s) with _ | u
    · simp only []
      constructor
      · intro _ s hs
        have := List.find?_eq_none.mp hfind s hs
        simpa using this
      · intro _; trivial
    · simp only []
      constructor
      · intro h; cases h
      · intro hall
        have hu := List.find?_some hfind
        have hmem := List.mem_of_find?_eq_some hfind
        have := hall u hmem
        simp [this] at hu
  · intro s hs
    unfold equivalenceQuery at hs ⊢
    rcases hfind : (generateSequences T letters maxLen).find?
        (fun s => T.isAccepted s != H.isAccepted s) with _ | u
    · rw [hfind] at hs; simp at hs
    · rw [hfind] at hs
      simp only [Prod.snd] at hs
      have hsu : u = s := by simpa using hs
      subst hsu
      have hu := List.find?_some hfind
      have hmem := List.mem_of_find?_eq_some hfind
      refine ⟨rfl, hmem, ?_⟩
      simpa using hu

/-! ### Claim C3: the bijective dense map -/

theorem isSameType_unpack {c : Cmp} {s o : LetterSeq} (h : isSameType c s o = true) :
    s.letters.length = o.letters.length ∧ s.ltype = o.ltype ∧
      ∀ i j, i < s.letters.length → j < s.letters.length → i ≠ j →
        cmpv c (s.letters.getD i default).value (s.letters.getD j default).value
          = cmpv c (o.letters.getD i default).value (o.letters.getD j default).value := by
  unfold isSameType at h
  simp only [Bool.and_eq_true, beq_iff_eq, decide_eq_true_eq, List.all_eq_true,
    List.mem_range, Bool.or_eq_true] at h
  refine ⟨h.1.1, h.1.2, ?_⟩
  intro i j hi hj hij
  rcases h.2 i hi j hj with h1 | h2
  · exact absurd (by simpa using h1) hij
  · simpa using h2

theorem sameType_lt_iff {s o : LetterSeq} (h : isSameType Cmp.clt s o = true)
    (i j : ℕ) (hi : i < s.letters.length) (hj : j < s.letters.length) :
    (s.letters.getD i default).value < (s.letters.getD j default).value ↔
      (o.letters.getD i default).value < (o.letters.getD j default).value := by
  by_cases hij : i = j
  · subst hij
    exact iff_of_false (lt_irrefl _) (lt_irrefl _)
  · have := (isSameType_unpack h).2.2 i j hi hj hij
    simp only [cmpv] at this
    exact decide_eq_decide.mp this

theorem sameType_le_iff {s o : LetterSeq} (h : isSameType Cmp.clt s o = true)
    (i j : ℕ) (hi : i < s.letters.length) (hj : j < s.letters.length) :
    (s.letters.getD i default).value ≤ (s.letters.getD j default).value ↔
      (o.letters.getD i default).value ≤ (o.letters.getD j default).value := by
  rw [← not_lt, ← not_lt]
  exact not_congr (sameType_lt_iff h j i hj hi)

theorem countP_pointwise (p q : Letter → Bool) (l1 l2 : List Letter)
    (hlen : l1.length = l2.length)
    (h : ∀ k, k < l1.length → p (l1.getD k default) = q (l2.getD k default)) :
    l1.countP p = l2.countP q := by
  induction l1 generalizing l2 with
  | nil =>
      cases l2 with
      | nil => rfl
      | cons b l2 => simp at hlen
  | cons a l1 ih =>
      cases l2 with
      | nil => simp at hlen
      | cons b l2 =>
          have h0 : p a = q b := by simpa using h 0 (by simp)
          have htail : ∀ k, k < l1.length → p (l1.getD k default) = q (l2.getD k default) := by
            intro k hk
            simpa [List.getD_cons_succ] using h (k + 1) (by simpa using Nat.succ_lt_succ hk)
          rw [List.countP_cons, List.countP_cons, ih l2 (by simpa using hlen) htail, h0]

theorem sorted_getD_value_eq (L : List Letter) (x : ℚ) (k : ℕ)
    (hs : L.Pairwise (fun u w => u.value ≤ w.value))
    (hk : k < L.length)
    (hlow : L.countP (fun l => decide (l.value < x)) ≤ k)
    (hhigh : k < L.countP (fun l => decide (l.value ≤ x))) :
    (L.getD k default).value = x := by
  induction L generalizing k with
  | nil => simp at hk
  | cons a L ih =>
      by_cases ha : a.value < x
      · have hcl : (a :: L).countP (fun l => decide (l.value < x))
            = L.countP (fun l => decide (l.value < x)) + 1 :=
          List.countP_cons_of_pos _ _ (by simpa using ha)
        have hce : (a :: L).countP (fun l => decide (l.value ≤ x))
            = L.countP (fun l => decide (l.value ≤ x)) + 1 :=
          List.countP_cons_of_pos _ _ (by simp [le_of_lt ha])
        cases k with
        | zero => omega
        | succ k2 =>
            rw [List.getD_cons_succ]
            exact ih k2 (List.pairwise_cons.mp hs).2 (by simpa using hk)
              (by omega) (by omega)
      · by_cases ha2 : a.value = x
        · cases k with
          | zero => simpa using ha2
          | succ k2 =>
              rw [List.getD_cons_succ]
              have hl0 : L.countP (fun l => decide (l.value < x)) = 0 := by
                rw [List.countP_eq_zero]
                intro b hb
                have hab := (List.pairwise_cons.mp hs).1 b hb
                simp only [decide_eq_true_eq]
                exact not_lt.mpr (by linarith)
              have hce : (a :: L).countP (fun l => decide (l.value ≤ x))
                  = L.countP (fun l => decide (l.value ≤ x)) + 1 :=
                List.countP_cons_of_pos _ _ (by simp [le_of_eq ha2])
              exact ih k2 (List.pairwise_cons.mp hs).2 (by simpa using hk)
                (by omega) (by omega)
        · have hax : x < a.value := lt_of_le_of_ne (not_lt.mp ha) (fun he => ha2 he.symm)
          have hce : (a :: L).countP (fun l => decide (l.value ≤ x)) = 0 := by
            rw [List.countP_eq_zero]
            intro b hb
            rcases List.mem_cons.mp hb with rfl | hb2
            · simp only [decide_eq_true_eq]
              exact not_le.mpr hax
            · have := (List.pairwise_cons.mp hs).1 b hb2
              simp only [decide_eq_true_eq]
              intro hc
              exact absurd (le_trans this hc) (not_le.mpr hax)
          omega

theorem countP_lt_lt_le (L : List Letter) (x : ℚ) (hmem : ∃ a ∈ L, a.value = x) :
    L.countP (fun l => decide (l.value < x)) < L.countP (fun l => decide (l.value ≤ x)) := by
  induction L with
  | nil => simp at hmem
  | cons a L ih =>
      rw [List.countP_cons, List.countP_cons]
      by_cases ha : a.value = x
      · have h1 : (decide (a.value < x) : Bool) = false := by simp [ha]
        have h2 : (decide (a.value ≤ x) : Bool) = true := by simp [le_of_eq ha]
        have hmono : L.countP (fun l => decide (l.value < x))
            ≤ L.countP (fun l => decide (l.value ≤ x)) := by
          apply List.countP_mono_left
          intro b _ hb
          simp only [decide_eq_true_eq] at hb ⊢
          exact le_of_lt hb
        rw [h1, h2]
        simpa using Nat.lt_succ_of_le hmono
      · obtain ⟨w, hw, hwx⟩ := hmem
        rcases List.mem_cons.mp hw with rfl | hw2
        · exact absurd hwx ha
        · have := ih ⟨w, hw2, hwx⟩
          have hsame : (if decide (a.value < x) then 1 else 0)
              ≤ (if decide (a.value ≤ x) then 1 else 0) := by
            by_cases hlt : a.value < x
            · simp [hlt, le_of_lt hlt]
            · simp [hlt]
          omega

theorem getLastD_eq_getD_pred (L : List Letter) (d : Letter) :
    L.getLastD d = L.getD (L.length - 1) d := by
  rw [List.getLastD_eq_getLast?, List.getLast?_eq_getElem?, List.getD_eq_getElem?_getD]

theorem getLastD_irrel (L : List Letter) (d1 d2 : Letter) (hne : L ≠ []) :
    L.getLastD d1 = L.getLastD d2 := by
  rw [List.getLastD_eq_getLast?, List.getLastD_eq_getLast?,
    List.getLast?_eq_getLast L hne]
  rfl

theorem interpLoop_eq (ss os : List Letter) (v : ℚ)
    (hlen : ss.length = os.length)
    (hsorted : ss.Pairwise (fun u w => u.value ≤ w.value))
    (hmem : ∃ a ∈ ss, a.value = v)
    (hlast : v < (ss.getLastD default).value) :
    ∃ k, interpLoop v ss os = some ((os.getD k default).value)
      ∧ k + 1 = ss.countP (fun l => decide (l.value ≤ v)) := by
  induction ss generalizing os with
  | nil => simp at hmem
  | cons a ss2 ih =>
      cases ss2 with
      | nil =>
          obtain ⟨w, hw, hwx⟩ := hmem
          rcases List.mem_cons.mp hw with rfl | hw2
          · rw [List.getLastD_eq_getLast?] at hlast
            simp only [List.getLast?_singleton] at hlast
            simp only [Option.getD_some] at hlast
            exact absurd hlast (by rw [hwx]; exact lt_irrefl v)
          · cases hw2
      | cons b ss3 =>
          cases os with
          | nil => simp at hlen
          | cons x os2 =>
              cases os2 with
              | nil => simp at hlen
              | cons y os3 =>
                  have hav : a.value ≤ v := by
                    obtain ⟨w, hw, hwx⟩ := hmem
                    have := sorted_headD_le (a :: b :: ss3) default hsorted w hw
                    simpa [hwx] using this
                  by_cases hcond : a.value ≤ v ∧ v < b.value
                  · refine ⟨0, ?_, ?_⟩
                    · have hva : v = a.value := by
                        obtain ⟨w, hw, hwx⟩ := hmem
                        rcases List.mem_cons.mp hw with rfl | hw2
                        · exact hwx.symm
                        · have := (List.pairwise_cons.mp
                            (List.pairwise_cons.mp hsorted).2).1
                          have hbw : b.value ≤ w.value := by
                            rcases List.mem_cons.mp hw2 with rfl | hw3
                            · exact le_refl _
                            · exact this w hw3
                          exfalso
                          rw [hwx] at hbw
                          exact absurd hbw (not_le.mpr hcond.2)
                      unfold interpLoop
                      rw [if_pos hcond]
                      rw [List.getD_cons_zero]
                      congr 1
                      rw [hva]
                      ring
                    · have hc1 : (b :: ss3).countP (fun l => decide (l.value ≤ v)) = 0 := by
                        rw [List.countP_eq_zero]
                        intro w hw
                        have hbw : b.value ≤ w.value := by
                          rcases List.mem_cons.mp hw with rfl | hw2
                          · exact le_refl _
                          · exact (List.pairwise_cons.mp
                              (List.pairwise_cons.mp hsorted).2).1 w hw2
                        simp only [decide_eq_true_eq]
                        exact not_le.mpr (lt_of_lt_of_le hcond.2 hbw)
                      have hc2 : (a :: b :: ss3).countP (fun l => decide (l.value ≤ v))
                          = (b :: ss3).countP (fun l => decide (l.value ≤ v)) + 1 :=
                        List.countP_cons_of_pos _ _ (by simpa using hav)
                      omega
                  · have hbv : b.value ≤ v := by
                      rcases not_and_or.mp hcond with h1 | h2
                      · exact absurd hav h1
                      · exact not_lt.mp h2
                    have hmem2 : ∃ w ∈ b :: ss3, w.value = v := by
                      obtain ⟨w, hw, hwx⟩ := hmem
                      rcases List.mem_cons.mp hw with rfl | hw2
                      · have hab : w.value ≤ b.value :=
                          (List.pairwise_cons.mp hsorted).1 b (List.mem_cons_self b ss3)
                        exact ⟨b, List.mem_cons_self b ss3, le_antisymm hbv (hwx ▸ hab)⟩
                      · exact ⟨w, hw2, hwx⟩
                    have hlast2 : v < ((b :: ss3).getLastD default).value := by
                      have he1 : (a :: b :: ss3).getLastD default
                          = (b :: ss3).getLastD a := by
                        simp [List.getLastD]
                      have he2 : (b :: ss3).getLastD a = (b :: ss3).getLastD default :=
                        getLastD_irrel _ a default (by simp)
                      rw [he1, he2] at hlast
                      exact hlast
                    obtain ⟨k, hk1, hk2⟩ := ih (y :: os3) (by simpa using hlen)
                      (List.pairwise_cons.mp hsorted).2 hmem2 hlast2
                    refine ⟨k + 1, ?_, ?_⟩
                    · unfold interpLoop
                      rw [if_neg hcond]
                      rw [List.getD_cons_succ]
                      exact hk1
                    · have hc2 : (a :: b :: ss3).countP (fun l => decide (l.value ≤ v))
                          = (b :: ss3).countP (fun l => decide (l.value ≤ v)) + 1 :=
                        List.countP_cons_of_pos _ _ (by simpa using hav)
                      omega

theorem getBijectiveMap_pointwise (s o : LetterSeq)
    (hso : isSameType Cmp.clt s o = true) (i : ℕ) (hi : i < s.letters.length) :
    (getBijectiveMap s o (s.letters.getD i default)).value
      = (o.letters.getD i default).value := by
  obtain ⟨hlen, hty, _⟩ := isSameType_unpack hso
  have hne : s.letters ≠ [] := by
    intro h
    rw [h] at hi
    simp at hi
  have hone : o.letters ≠ [] := by
    intro h
    rw [h, List.length_nil] at hlen
    omega
  have hio : i < o.letters.length := hlen ▸ hi
  have hpermS := sortValue_perm s.letters
  have hpermO := sortValue_perm o.letters
  have hsortS := sortValue_sorted s.letters
  have hsortO := sortValue_sorted o.letters
  have hlenS : (sortValue s.letters).length = s.letters.length := hpermS.length_eq
  have hlenO : (sortValue o.letters).length = o.letters.length := hpermO.length_eq
  have hmemx : s.letters.getD i default ∈ sortValue s.letters := by
    rw [hpermS.mem_iff, List.getD_eq_getElem _ _ hi]
    exact List.getElem_mem hi
  have hmemo : o.letters.getD i default ∈ sortValue o.letters := by
    rw [hpermO.mem_iff, List.getD_eq_getElem _ _ hio]
    exact List.getElem_mem hio
  have hsne : sortValue s.letters ≠ [] := by
    intro h
    rw [h] at hmemx
    cases hmemx
  have hosne : sortValue o.letters ≠ [] := by
    intro h
    rw [h] at hmemo
    cases hmemo
  -- counting transfer between the two sides
  have hcle : s.letters.countP
        (fun l => decide (l.value ≤ (s.letters.getD i default).value))
      = o.letters.countP
        (fun l => decide (l.value ≤ (o.letters.getD i default).value)) := by
    apply countP_pointwise _ _ _ _ hlen
    intro k hk
    have := sameType_le_iff hso k i hk hi
    exact decide_eq_decide.mpr this
  have hclt : s.letters.countP
        (fun l => decide (l.value < (s.letters.getD i default).value))
      = o.letters.countP
        (fun l => decide (l.value < (o.letters.getD i default).value)) := by
    apply countP_pointwise _ _ _ _ hlen
    intro k hk
    have := sameType_lt_iff hso k i hk hi
    exact decide_eq_decide.mpr this
  have hcltlt : o.letters.countP
        (fun l => decide (l.value < (o.letters.getD i default).value))
      < o.letters.countP
        (fun l => decide (l.value ≤ (o.letters.getD i default).value)) := by
    apply countP_lt_lt_le
    refine ⟨o.letters.getD i default, ?_, rfl⟩
    rw [List.getD_eq_getElem _ _ hio]
    exact List.getElem_mem hio
  have hcleo : o.letters.countP
        (fun l => decide (l.value ≤ (o.letters.getD i default).value))
      ≤ o.letters.length := List.countP_le_length _
  -- the mapper's branches
  unfold getBijectiveMap
  rw [if_neg hne]
  dsimp only
  have hv0 : ((sortValue s.letters).headD default).value
      ≤ (s.letters.getD i default).value :=
    sorted_headD_le _ default hsortS _ hmemx
  rw [if_neg (by exact not_lt.mpr hv0)]
  by_cases hcase : ((sortValue s.letters).getLastD default).value
      ≤ (s.letters.getD i default).value
  · -- the maximum: maps to the last element of sorted o
    rw [if_pos hcase]
    have hvle : (s.letters.getD i default).value
        ≤ ((sortValue s.letters).getLastD default).value :=
      sorted_le_getLastD _ default hsortS _ hmemx
    have hveq : (s.letters.getD i default).value
        = ((sortValue s.letters).getLastD default).value := le_antisymm hvle hcase
    have step1 : ((sortValue o.letters).getLastD default).value
          + ((s.letters.getD i default).value
            - ((sortValue s.letters).getLastD default).value)
        = ((sortValue o.letters).getLastD default).value := by
      rw [hveq]
      ring
    simp only [step1]
    -- identify the last element of sorted o with position i of o
    rw [getLastD_eq_getD_pred]
    have hcnt_all : o.letters.countP
        (fun l => decide (l.value ≤ (o.letters.getD i default).value))
        = o.letters.length := by
      rw [List.countP_eq_length]
      intro w hw
      obtain ⟨j, hj, rfl⟩ := List.mem_iff_getElem.mp hw
      rw [← List.getD_eq_getElem _ default hj]
      simp only [decide_eq_true_eq]
      rw [← sameType_le_iff hso j i (hlen ▸ hj) hi]
      calc (s.letters.getD j default).value
          ≤ ((sortValue s.letters).getLastD default).value := by
            apply sorted_le_getLastD _ default hsortS
            rw [hpermS.mem_iff, List.getD_eq_getElem _ _ (hlen ▸ hj)]
            exact List.getElem_mem (hlen ▸ hj)
        _ = (s.letters.getD i default).value := hveq.symm
        _ ≤ (s.letters.getD i default).value := le_refl _
    apply sorted_getD_value_eq _ _ _ hsortO
    · omega
    · rw [hpermO.countP_eq]
      omega
    · rw [hpermO.countP_eq, hcnt_all, hlenO]
      omega
  · -- interior: the interpolation loop hits the slot of the value
    rw [if_neg hcase]
    have hmemv : ∃ a ∈ sortValue s.letters,
        a.value = (s.letters.getD i default).value :=
      ⟨s.letters.getD i default, hmemx, rfl⟩
    obtain ⟨k, hk1, hk2⟩ := interpLoop_eq (sortValue s.letters) (sortValue o.letters)
      (s.letters.getD i default).value (by omega) hsortS hmemv (not_le.mp hcase)
    rw [hk1]
    have hkcount : k + 1 = o.letters.countP
        (fun l => decide (l.value ≤ (o.letters.getD i default).value)) := by
      rw [hk2, hpermS.countP_eq, hcle]
    apply sorted_getD_value_eq _ _ _ hsortO
    · omega
    · rw [hpermO.countP_eq]
      omega
    · rw [hpermO.countP_eq]
      omega

/-- C3 counterexample: under the `EQ` comparator, `[1, 2]` and `[5, 3]` have
the same type, but the bijective map pairs values in sorted order, so
applying it pointwise to `[1, 2]` yields `[3, 5]`, not `[5, 3]`. -/
theorem bijective_map_claim_false :
    isSameType Cmp.ceq (mkSeq [⟨1, LType.rational⟩, ⟨2, LType.rational⟩])
      (mkSeq [⟨5, LType.rational⟩, ⟨3, LType.rational⟩]) = true
    ∧ Alphabet.applyMap ⟨LType.rational, Cmp.ceq⟩
        (mkSeq [⟨1, LType.rational⟩, ⟨2, LType.rational⟩])
        (getBijectiveMap (mkSeq [⟨1, LType.rational⟩, ⟨2, LType.rational⟩])
          (mkSeq [⟨5, LType.rational⟩, ⟨3, LType.rational⟩]))
      ≠ mkSeq [⟨5, LType.rational⟩, ⟨3, LType.rational⟩] := by
  refine ⟨by decide, ?_⟩
  intro h
  have h2 := congrArg (fun q => (q.letters.getD 0 default).value) h
  norm_num [Alphabet.applyMap, mkSeq, getBijectiveMap, sortValue, insertByValue,
    interpLoop, List.cons_ne_nil] at h2

/-- C3 amended: for same-domain sequences that have the same type under the
`LT` comparator, applying `bijective_map(s, s')` pointwise to `s` yields
exactly `s'` (each value of `s` is mapped to the value of `s'` at the same
position).  Under `EQ` the mapper pairs values in sorted order, so the
pointwise identity fails (see the counterexample). -/
theorem bijective_map_lt (alpha : Alphabet) (s o : LetterSeq)
    (hty : s.ltype = some alpha.ltype)
    (hwfo : seqWF o)
    (hso : isSameType Cmp.clt s o = true) :
    alpha.applyMap s (getBijectiveMap s o) = o := by
  obtain ⟨hlen, htyeq, _⟩ := isSameType_unpack hso
  unfold Alphabet.applyMap
  by_cases hne : s.letters = []
  · rw [if_pos hne]
    have hol : o.letters = [] := by
      rw [hne] at hlen
      exact List.length_eq_zero.mp hlen.symm
    have hot : o.ltype = some alpha.ltype := htyeq ▸ hty
    unfold Alphabet.emptySequence emptySeq
    cases o with
    | mk ols olt =>
        simp only [] at hol hot
        rw [hol, hot]
  · rw [if_neg hne]
    have hletters : s.letters.map (getBijectiveMap s o) = o.letters := by
      apply List.ext_getElem
      · simp [hlen]
      · intro n h1 h2
        have hn : n < s.letters.length := by simpa using h1
        have hno : n < o.letters.length := by simpa using h2
        rw [List.getElem_map]
        have hval := getBijectiveMap_pointwise s o hso n hn
        rw [List.getD_eq_getElem _ _ hn, List.getD_eq_getElem _ _ hno] at hval
        have hto : o.ltype = some alpha.ltype := htyeq ▸ hty
        have htyo : (o.letters[n]).ltype = alpha.ltype := by
          have := hwfo (o.letters[n]) (List.getElem_mem hno)
          rw [hto] at this
          exact (Option.some_inj.mp this)
        have hmapty : (getBijectiveMap s o (s.letters[n])).ltype = alpha.ltype := by
          unfold getBijectiveMap
          rw [if_neg hne]
          simp only [hto, Option.getD_some]
        cases hml : getBijectiveMap s o (s.letters[n]) with
        | mk mv mt =>
            cases hol : o.letters[n] with
            | mk ov ot =>
                rw [hml, hol] at hval
                rw [hml] at hmapty
                rw [hol] at htyo
                simp only [] at hval hmapty htyo
                rw [hval, hmapty, htyo]
    rw [mkSeq]
    cases o with
    | mk ols olt =>
        simp only [] at hletters ⊢
        rw [hletters]
        have hot : olt = some alpha.ltype := by
          have : LetterSeq.ltype ⟨ols, olt⟩ = some alpha.ltype := htyeq ▸ hty
          simpa using this
        have holne : ols ≠ [] := by
          intro h
          rw [h] at hlen
          simp only [List.length_nil] at hlen
          exact hne (List.length_eq_zero.mp hlen)
        cases ols with
        | nil => exact absurd rfl holne
        | cons o0 orest =>
            have h0 : o0.ltype = alpha.ltype := by
              have := hwfo o0 (by simp)
              simp only [hot] at this
              exact Option.some_inj.mp this
            simp [h0, hot]

/-- Witness for C3 (amended) on `[1, 5]` and `[3, 7]` under `LT`. -/
theorem bijective_map_lt_witness :
    Alphabet.applyMap ⟨LType.rational, Cmp.clt⟩
      (mkSeq [⟨1, LType.rational⟩, ⟨5, LType.rational⟩])
      (getBijectiveMap (mkSeq [⟨1, LType.rational⟩, ⟨5, LType.rational⟩])
        (mkSeq [⟨3, LType.rational⟩, ⟨7, LType.rational⟩]))
    = mkSeq [⟨3, LType.rational⟩, ⟨7, LType.rational⟩] :=
  bijective_map_lt ⟨LType.rational, Cmp.clt⟩
    (mkSeq [⟨1, LType.rational⟩, ⟨5, LType.rational⟩])
    (mkSeq [⟨3, LType.rational⟩, ⟨7, LType.rational⟩])
    (by decide) (by decide) (by decide)

theorem lookupL_map_update_other (m : List (Letter × ℕ)) (a : Letter) (v : ℕ)
    (b : Letter) (hba : b ≠ a) :
    lookupL (m.map (fun p => if p.1 == a then (a, v) else p)) b = lookupL m b := by
  induction m with
  | nil => rfl
  | cons q m ih =>
      rw [List.map_cons]
      by_cases hqa : q.1 = a
      · rw [if_pos (by simp [hqa])]
        simp only [lookupL]
        rw [if_neg (by simp; exact fun he => hba he.symm),
          if_neg (by simp [hqa]; exact fun he => hba he.symm)]
        exact ih
      · rw [if_neg (by simp [hqa])]
        simp only [lookupL]
        by_cases hqb : q.1 = b
        · rw [if_pos (by simp [hqb]), if_pos (by simp [hqb])]
        · rw [if_neg (by simp [hqb]), if_neg (by simp [hqb])]
          exact ih

theorem lookupL_map_update_self (m : List (Letter × ℕ)) (a : Letter) (v : ℕ)
    (h : m.any (fun p => p.1 == a) = true) :
    lookupL (m.map (fun p => if p.1 == a then (a, v) else p)) a = some v := by
  induction m with
  | nil => simp at h
  | cons q m ih =>
      rw [List.map_cons]
      by_cases hqa : q.1 = a
      · rw [if_pos (by simp [hqa])]
        simp [lookupL]
      · rw [if_neg (by simp [hqa])]
        simp only [lookupL]
        rw [if_neg (by simp [hqa])]
        simp only [List.any_cons, (by simp [hqa] : (q.1 == a) = false), Bool.false_or] at h
        exact ih h

theorem lookupL_none_of_no_key (m : List (Letter × ℕ)) (a : Letter)
    (h : ∀ p ∈ m, (p.1 == a) = false) : lookupL m a = none := by
  induction m with
  | nil => rfl
  | cons q m ih =>
      simp only [lookupL]
      rw [if_neg (by simp [h q (List.mem_cons_self q m)])]
      exact ih (fun p hp => h p (List.mem_cons_of_mem q hp))

theorem lookupL_append_none (m1 m2 : List (Letter × ℕ)) (a : Letter)
    (h : lookupL m1 a = none) : lookupL (m1 ++ m2) a = lookupL m2 a := by
  induction m1 with
  | nil => rfl
  | cons q m1 ih =>
      simp only [lookupL, List.cons_append] at h ⊢
      by_cases hq : q.1 = a
      · rw [if_pos (by simp [hq])] at h
        cases h
      · rw [if_neg (by simp [hq])] at h ⊢
        exact ih h

theorem lookupL_append_some (m1 m2 : List (Letter × ℕ)) (a : Letter) (i : ℕ)
    (h : lookupL m1 a = some i) : lookupL (m1 ++ m2) a = some i := by
  induction m1 with
  | nil => cases h
  | cons q m1 ih =>
      simp only [lookupL, List.cons_append] at h ⊢
      by_cases hq : q.1 = a
      · rw [if_pos (by simp [hq])] at h ⊢
        exact h
      · rw [if_neg (by simp [hq])] at h ⊢
        exact ih h

theorem dictUpdate_lookup_self (m : List (Letter × ℕ)) (a : Letter) (v : ℕ) :
    lookupL (dictUpdate m a v) a = some v := by
  unfold dictUpdate
  by_cases h : m.any (fun p => p.1 == a) = true
  · rw [if_pos h]
    exact lookupL_map_update_self m a v h
  · rw [if_neg h]
    have hno : ∀ p ∈ m, (p.1 == a) = false := by
      intro p hp
      by_contra hc
      exact h (List.any_eq_true.mpr ⟨p, hp, by simpa using hc⟩)
    rw [lookupL_append_none m [(a, v)] a (lookupL_none_of_no_key m a hno)]
    simp [lookupL]

theorem dictUpdate_lookup_other (m : List (Letter × ℕ)) (a : Letter) (v : ℕ)
    (b : Letter) (hba : b ≠ a) :
    lookupL (dictUpdate m a v) b = lookupL m b := by
  unfold dictUpdate
  by_cases h : m.any (fun p => p.1 == a) = true
  · rw [if_pos h]
    exact lookupL_map_update_other m a v b hba
  · rw [if_neg h]
    rcases hl : lookupL m b with _ | i
    · rw [lookupL_append_none m [(a, v)] b hl]
      simp only [lookupL]
      rw [if_neg (by simp; exact fun he => hba he.symm)]
    · exact lookupL_append_some m [(a, v)] b i hl

theorem anyKey_iff (m : List (Letter × ℕ)) (a : Letter) :
    m.any (fun p => p.1 == a) = true ↔ a ∈ m.map Prod.fst := by
  simp only [List.any_eq_true, List.mem_map, beq_iff_eq]

theorem dictUpdate_keys (m : List (Letter × ℕ)) (a : Letter) (v : ℕ) :
    (dictUpdate m a v).map Prod.fst
      = if m.any (fun p => p.1 == a) = true then m.map Prod.fst
        else m.map Prod.fst ++ [a] := by
  unfold dictUpdate
  by_cases h : m.any (fun p => p.1 == a) = true
  · rw [if_pos h, if_pos h, List.map_map]
    apply List.map_congr_left
    intro p _
    by_cases hp : p.1 = a
    · simp [hp]
    · simp [hp]
  · rw [if_neg h, if_neg h]
    simp

theorem dictUpdate_keys_nodup (m : List (Letter × ℕ)) (a : Letter) (v : ℕ)
    (hnd : (m.map Prod.fst).Nodup) :
    ((dictUpdate m a v).map Prod.fst).Nodup := by
  rw [dictUpdate_keys]
  by_cases h : m.any (fun p => p.1 == a) = true
  · rw [if_pos h]; exact hnd
  · rw [if_neg h]
    have hna : a ∉ m.map Prod.fst := fun hc => h ((anyKey_iff m a).mpr hc)
    refine List.nodup_append.mpr ⟨hnd, List.nodup_singleton a, ?_⟩
    intro x hx hx2
    simp only [List.mem_singleton] at hx2
    exact hna (hx2 ▸ hx)

theorem memMapFold_keys_nodup (mems : List Letter) (pairs : List (ℕ × Letter))
    (m : List (Letter × ℕ)) (hnd : (m.map Prod.fst).Nodup) :
    ((memMapFold mems pairs m).map Prod.fst).Nodup := by
  induction pairs generalizing m with
  | nil => exact hnd
  | cons p rest ih =>
      rcases p with ⟨idx, a⟩
      unfold memMapFold
      by_cases ha : a ∈ mems
      · rw [if_pos ha]
        exact ih _ (dictUpdate_keys_nodup m a idx hnd)
      · rw [if_neg ha]
        exact ih _ hnd

theorem lookup_of_mem_nodup (m : List (Letter × ℕ)) (hnd : (m.map Prod.fst).Nodup)
    (a : Letter) (i : ℕ) (hmem : (a, i) ∈ m) : lookupL m a = some i := by
  induction m with
  | nil => cases hmem
  | cons q m ih =>
      rcases List.mem_cons.mp hmem with rfl | hmem2
      · simp [lookupL, List.find?]
      · have hqa : q.1 ≠ a := by
          simp only [List.map_cons, List.nodup_cons] at hnd
          intro he
          exact hnd.1 (he ▸ List.mem_map_of_mem Prod.fst hmem2)
        have hq2 : (q.1 == a) = false := by simp [hqa]
        simp only [lookupL, List.find?, hq2]
        exact ih (by simp only [List.map_cons, List.nodup_cons] at hnd; exact hnd.2) hmem2

theorem mem_lookup_some (m : List (Letter × ℕ)) (a : Letter) (i : ℕ)
    (h : lookupL m a = some i) : (a, i) ∈ m := by
  induction m with
  | nil => cases h
  | cons q m ih =>
      simp only [lookupL] at h
      by_cases hq : q.1 = a
      · rw [if_pos (by simp [hq])] at h
        have hqi : q.2 = i := by simpa using h
        exact List.mem_cons.mpr (Or.inl (Prod.ext hq hqi).symm)
      · rw [if_neg (by simp [hq])] at h
        exact List.mem_cons_of_mem q (ih h)

theorem getLast?_cons (q : ℕ × Letter) (L : List (ℕ × Letter)) :
    (q :: L).getLast? = if L = [] then some q else L.getLast? := by
  cases L with
  | nil => simp
  | cons b L2 => simp [List.getLast?_cons_cons]

theorem memMapFold_lookup (mems : List Letter) (pairs : List (ℕ × Letter))
    (m : List (Letter × ℕ)) (a : Letter) :
    lookupL (memMapFold mems pairs m) a =
      if a ∈ mems then
        match (pairs.filter (fun p => p.2 == a)).getLast? with
        | some q => some q.1
        | none => lookupL m a
      else lookupL m a := by
  induction pairs generalizing m with
  | nil =>
      by_cases ha : a ∈ mems
      · simp [memMapFold, ha]
      · simp [memMapFold, ha]
  | cons p rest ih =>
      rcases p with ⟨idx, x⟩
      unfold memMapFold
      by_cases ha : a ∈ mems
      · rw [if_pos ha]
        by_cases hxa : x = a
        · subst hxa
          rw [if_pos ha]
          have hfilter : ((idx, x) :: rest).filter (fun p => p.2 == x)
              = (idx, x) :: rest.filter (fun p => p.2 == x) := by
            simp [List.filter]
          rw [hfilter, getLast?_cons]
          by_cases hr : rest.filter (fun p => p.2 == x) = []
          · rw [if_pos hr]
            rw [ih (dictUpdate m x idx), if_pos ha, hr]
            simp [dictUpdate_lookup_self]
          · rw [if_neg hr]
            rw [ih (dictUpdate m x idx), if_pos ha]
            rcases hg : (rest.filter (fun p => p.2 == x)).getLast? with _ | q
            · exact absurd (List.getLast?_eq_none_iff.mp hg) hr
            · rw [hg]
        · have hfilter : ((idx, x) :: rest).filter (fun p => p.2 == a)
              = rest.filter (fun p => p.2 == a) := by
            have : ((idx, x).2 == a) = false := by simp [hxa]
            simp [List.filter, this]
          rw [hfilter]
          by_cases hx : x ∈ mems
          · rw [if_pos hx, ih (dictUpdate m x idx), if_pos ha]
            rcases hg : (rest.filter (fun p => p.2 == a)).getLast? with _ | q
            · rw [hg]
              exact dictUpdate_lookup_other m x idx a (fun he => hxa he.symm)
            · rw [hg]
          · rw [if_neg hx, ih m, if_pos ha]
      · rw [if_neg ha]
        by_cases hx : x ∈ mems
        · rw [if_pos hx, ih (dictUpdate m x idx), if_neg ha]
          have hxa : x ≠ a := fun he => ha (he ▸ hx)
          exact dictUpdate_lookup_other m x idx a (fun he => hxa he.symm)
        · rw [if_neg hx, ih m, if_neg ha]

/-! #### Last-occurrence characterisation -/

/-- The last kept entry of the filtered enumeration is the last occurrence
of the letter. -/
theorem lastOcc_main (a : Letter) (letters : List Letter) :
    ∀ k : ℕ,
    (((List.enumFrom k letters).filter (fun p => p.2 == a)).getLast? = none →
      ∀ j, j < letters.length → letters.getD j default ≠ a)
    ∧ (∀ q, ((List.enumFrom k letters).filter (fun p => p.2 == a)).getLast? = some q →
        q.2 = a ∧ k ≤ q.1 ∧ q.1 - k < letters.length
          ∧ letters.getD (q.1 - k) default = a
          ∧ ∀ j, q.1 - k < j → j < letters.length → letters.getD j default ≠ a) := by
  induction letters with
  | nil =>
      intro k
      constructor
      · intro _ j hj
        simp at hj
      · intro q hq
        simp [List.enumFrom] at hq
  | cons x rest ih =>
      intro k
      rw [List.enumFrom_cons]
      by_cases hx : x = a
      · have hxb : ((k, x).2 == a) = true := by simp [hx]
        have hfilter : ((k, x) :: List.enumFrom (k + 1) rest).filter (fun p => p.2 == a)
            = (k, x) :: (List.enumFrom (k + 1) rest).filter (fun p => p.2 == a) := by
          simp [List.filter, hxb]
        rw [hfilter, getLast?_cons]
        by_cases hr : (List.enumFrom (k + 1) rest).filter (fun p => p.2 == a) = []
        · rw [if_pos hr]
          constructor
          · intro h; cases h
          · intro q hq
            have hqe : (k, x) = q := by simpa using hq
            subst hqe
            refine ⟨by simpa using hx, le_refl _, by simp, by simpa using hx, ?_⟩
            intro j hj1 hj2
            have hrest := (ih (k + 1)).1 (by rw [hr]; rfl)
            simp only [Nat.sub_self] at hj1
            have hj3 : j - 1 < rest.length := by simp at hj2; omega
            have := hrest (j - 1) hj3
            have hje : (x :: rest).getD j default = rest.getD (j - 1) default := by
              rcases j with _ | j2
              · omega
              · simp [List.getD_cons_succ]
            rw [hje]
            exact this
        · rw [if_neg hr]
          constructor
          · intro h
            exact absurd (List.getLast?_eq_none_iff.mp h) hr
          · intro q hq
            obtain ⟨hq1, hq2, hq3, hq4, hq5⟩ := (ih (k + 1)).2 q hq
            have hk1 : k ≤ q.1 := by omega
            have hsub : q.1 - k = (q.1 - (k + 1)) + 1 := by omega
            refine ⟨hq1, hk1, by simp; omega, ?_, ?_⟩
            · rw [hsub, List.getD_cons_succ]
              exact hq4
            · intro j hj1 hj2
              rcases j with _ | j2
              · omega
              · rw [List.getD_cons_succ]
                have hj3 : j2 < rest.length := by simp at hj2; omega
                exact hq5 j2 (by omega) hj3
      · have hxb : ((k, x).2 == a) = false := by simp [hx]
        have hfilter : ((k, x) :: List.enumFrom (k + 1) rest).filter (fun p => p.2 == a)
            = (List.enumFrom (k + 1) rest).filter (fun p => p.2 == a) := by
          simp [List.filter, hxb]
        rw [hfilter]
        constructor
        · intro h j hj1
          rcases j with _ | j2
          · simpa using hx
          · rw [List.getD_cons_succ]
            have hj3 : j2 < rest.length := by simp at hj1; omega
            exact (ih (k + 1)).1 h j2 hj3
        · intro q hq
          obtain ⟨hq1, hq2, hq3, hq4, hq5⟩ := (ih (k + 1)).2 q hq
          have hk1 : k ≤ q.1 := by omega
          have hsub : q.1 - k = (q.1 - (k + 1)) + 1 := by omega
          refine ⟨hq1, hk1, by simp; omega, ?_, ?_⟩
          · rw [hsub, List.getD_cons_succ]
            exact hq4
          · intro j hj1 hj2
            rcases j with _ | j2
            · omega
            · rw [List.getD_cons_succ]
              have hj3 : j2 < rest.length := by simp at hj2; omega
              exact hq5 j2 (by omega) hj3

theorem foldl_seqAppend_letters (kept : List (ℕ × Letter)) (acc : LetterSeq) :
    (kept.foldl (fun acc p => seqAppend acc p.2) acc).letters
      = acc.letters ++ kept.map Prod.snd := by
  induction kept generalizing acc with
  | nil => simp
  | cons p rest ih =>
      simp only [List.foldl_cons, List.map_cons]
      rw [ih]
      simp [seqAppend, mkSeq]

theorem mem_enum_char (letters : List Letter) (p : ℕ × Letter) (hp : p ∈ letters.enum) :
    p.1 < letters.length ∧ letters.getD p.1 default = p.2 := by
  rcases p with ⟨i, x⟩
  rw [List.enum_eq_enumFrom] at hp
  obtain ⟨h1, h2, h3⟩ := List.mem_enumFrom hp
  simp only [Nat.zero_add, Nat.sub_zero] at h2 h3
  exact ⟨h2, by rw [List.getD_eq_getElem _ _ h2]; exact h3.symm⟩

theorem enum_nodup (letters : List Letter) : letters.enum.Nodup := by
  apply List.Nodup.of_map Prod.fst
  rw [List.enum_map_fst]
  exact List.nodup_range _

theorem memorablesLoop_sub (fuel : ℕ) (target : RA) (u : LetterSeq)
    (uSorted : List Letter) :
    ∀ (L mems : List Letter), ∀ x ∈ memorablesLoop fuel target u uSorted L mems,
      x ∈ mems ∨ x ∈ L := by
  intro L
  induction L with
  | nil =>
      intro mems x hx
      exact Or.inl hx
  | cons a rest ih =>
      intro mems x hx
      unfold memorablesLoop at hx
      by_cases ha : a ∈ mems
      · rw [if_pos ha] at hx
        rcases ih mems x hx with h | h
        · exact Or.inl h
        · exact Or.inr (List.mem_cons_of_mem a h)
      · rw [if_neg ha] at hx
        have hsub : ∀ (C : Prop) (inst : Decidable C),
            x ∈ (@ite _ C inst (mems ++ [a]) mems) → x ∈ mems ∨ x = a := by
          intro C inst hin
          by_cases hc : C
          · rw [if_pos hc] at hin
            rcases List.mem_append.mp hin with h2 | h2
            · exact Or.inl h2
            · exact Or.inr (by simpa using h2)
          · rw [if_neg hc] at hin
            exact Or.inl hin
        rcases ih _ x hx with h | h
        · rcases hsub _ _ h with h2 | h2
          · exact Or.inl h2
          · exact Or.inr (h2 ▸ List.mem_cons_self a rest)
        · exact Or.inr (List.mem_cons_of_mem a h)

theorem mem_vals_iff (M : List Letter) (letters : List Letter) (p : ℕ × Letter)
    (hp : p ∈ letters.enum) :
    p.1 ∈ (memMapFold M letters.enum []).map Prod.snd ↔
      (p.2 ∈ M ∧ ∀ j, j < letters.length → p.1 < j → letters.getD j default ≠ p.2) := by
  obtain ⟨hip, hval⟩ := mem_enum_char letters p hp
  have hnd : ((memMapFold M letters.enum []).map Prod.fst).Nodup :=
    memMapFold_keys_nodup M letters.enum [] (by simp)
  constructor
  · intro hv
    simp only [List.mem_map] at hv
    obtain ⟨pair, hpair, hpsnd⟩ := hv
    have hlook : lookupL (memMapFold M letters.enum []) pair.1 = some pair.2 :=
      lookup_of_mem_nodup _ hnd pair.1 pair.2 (by
        rcases pair with ⟨pk, pv⟩
        exact hpair)
    rw [memMapFold_lookup] at hlook
    by_cases hM : pair.1 ∈ M
    · rw [if_pos hM] at hlook
      rcases hg : ((letters.enum.filter (fun q => q.2 == pair.1)).getLast?) with _ | q
      · rw [hg] at hlook
        simp [lookupL] at hlook
      · rw [hg] at hlook
        rw [List.enum_eq_enumFrom] at hg
        obtain ⟨hq1, _, hq3, hq4, hq5⟩ := (lastOcc_main pair.1 letters 0).2 q hg
        simp only [Nat.sub_zero] at hq3 hq4 hq5
        have hqi : q.1 = pair.2 := by simpa using hlook
        have hppos : p.1 = q.1 := by omega
        have hpa : p.2 = pair.1 := by
          rw [← hval, hppos]
          exact hq4
        rw [hpa]
        refine ⟨hM, ?_⟩
        intro j hj2 hj1
        exact hq5 j (by omega) hj2
    · rw [if_neg hM] at hlook
      simp [lookupL] at hlook
  · rintro ⟨hM, hlater⟩
    rcases hg : ((letters.enum.filter (fun q => q.2 == p.2)).getLast?) with _ | q
    · exfalso
      rw [List.enum_eq_enumFrom] at hg
      have := (lastOcc_main p.2 letters 0).1 hg p.1 hip
      exact this hval
    · have hg2 := hg
      rw [List.enum_eq_enumFrom] at hg2
      obtain ⟨hq1, _, hq3, hq4, hq5⟩ := (lastOcc_main p.2 letters 0).2 q hg2
      simp only [Nat.sub_zero] at hq3 hq4 hq5
      have hqp : q.1 = p.1 := by
        rcases lt_trichotomy q.1 p.1 with h | h | h
        · exact absurd hval (hq5 p.1 h hip)
        · exact h
        · exact absurd hq4 (hlater q.1 hq3 h)
      have hlook : lookupL (memMapFold M letters.enum []) p.2 = some p.1 := by
        rw [memMapFold_lookup, if_pos hM, hg]
        exact congrArg some hqp
      have := mem_lookup_some _ _ _ hlook
      simp only [List.mem_map]
      exact ⟨(p.2, p.1), this, rfl⟩

/-- C8: the memorability oracle returns a subsequence of `u` (kept positions
in increasing order) that consists exactly of the letters the first loop
marks memorable, each kept exactly once, at the last position where it
occurs in `u`; for the empty word it returns the empty sequence. -/
theorem memorable_seq_spec (fuel : ℕ) (target : RA) (u : LetterSeq) :
    (getMemorableSeq fuel target u).letters.Sublist u.letters
    ∧ (u.letters = [] → getMemorableSeq fuel target u = target.alphabet.emptySequence)
    ∧ (∀ x ∈ (getMemorableSeq fuel target u).letters,
        x ∈ memorablesLoop fuel target u (sortedSetByValue u.letters) u.letters [])
    ∧ (∀ a ∈ memorablesLoop fuel target u (sortedSetByValue u.letters) u.letters [],
        (getMemorableSeq fuel target u).letters.count a = 1)
    ∧ (getMemorableSeq fuel target u).letters
        = (u.letters.enum.filter (fun p =>
            decide (p.2 ∈ memorablesLoop fuel target u (sortedSetByValue u.letters)
                u.letters []
              ∧ ∀ j, j < u.letters.length → p.1 < j →
                  u.letters.getD j default ≠ p.2))).map Prod.snd := by
  have hres : (getMemorableSeq fuel target u).letters
      = (u.letters.enum.filter (fun p =>
          decide (p.1 ∈ (memMapFold
            (memorablesLoop fuel target u (sortedSetByValue u.letters) u.letters [])
            u.letters.enum []).map Prod.snd))).map Prod.snd := by
    unfold getMemorableSeq
    rw [foldl_seqAppend_letters]
    rfl
  have hfiltereq : (u.letters.enum.filter (fun p =>
        decide (p.1 ∈ (memMapFold
          (memorablesLoop fuel target u (sortedSetByValue u.letters) u.letters [])
          u.letters.enum []).map Prod.snd)))
      = (u.letters.enum.filter (fun p =>
          decide (p.2 ∈ memorablesLoop fuel target u (sortedSetByValue u.letters)
              u.letters []
            ∧ ∀ j, j < u.letters.length → p.1 < j →
                u.letters.getD j default ≠ p.2))) := by
    apply List.filter_congr
    intro p hp
    have := mem_vals_iff
      (memorablesLoop fuel target u (sortedSetByValue u.letters) u.letters [])
      u.letters p hp
    exact decide_eq_decide.mpr this
  have hchar : (getMemorableSeq fuel target u).letters
      = (u.letters.enum.filter (fun p =>
          decide (p.2 ∈ memorablesLoop fuel target u (sortedSetByValue u.letters)
              u.letters []
            ∧ ∀ j, j < u.letters.length → p.1 < j →
                u.letters.getD j default ≠ p.2))).map Prod.snd := by
    rw [hres, hfiltereq]
  refine ⟨?_, ?_, ?_, ?_, hchar⟩
  · rw [hres]
    have h1 : (u.letters.enum.filter (fun p =>
        decide (p.1 ∈ (memMapFold
          (memorablesLoop fuel target u (sortedSetByValue u.letters) u.letters [])
          u.letters.enum []).map Prod.snd))).Sublist u.letters.enum :=
      List.filter_sublist _
    have h2 := h1.map Prod.snd
    rw [List.enum_map_snd] at h2
    exact h2
  · intro hu
    unfold getMemorableSeq
    rw [hu]
    rfl
  · intro x hx
    rw [hchar] at hx
    simp only [List.mem_map, List.mem_filter, decide_eq_true_eq] at hx
    obtain ⟨p, ⟨_, hM, _⟩, rfl⟩ := hx
    exact hM
  · intro a haM
    have haU : a ∈ u.letters := by
      rcases memorablesLoop_sub fuel target u (sortedSetByValue u.letters)
        u.letters [] a haM with h | h
      · cases h
      · exact h
    -- locate the last occurrence of `a`
    rcases hg : ((u.letters.enum.filter (fun q => q.2 == a)).getLast?) with _ | q
    · exfalso
      rw [List.enum_eq_enumFrom] at hg
      obtain ⟨i, hi, rfl⟩ := List.mem_iff_getElem.mp haU
      exact (lastOcc_main _ u.letters 0).1 hg i hi (by rw [List.getD_eq_getElem _ _ hi])
    · have hg2 := hg
      rw [List.enum_eq_enumFrom] at hg2
      obtain ⟨hq1, _, hq3, hq4, hq5⟩ := (lastOcc_main a u.letters 0).2 q hg2
      simp only [Nat.sub_zero] at hq3 hq4 hq5
      rw [hchar]
      rw [List.count_eq_countP, List.countP_map, List.countP_filter]
      have hcongr : u.letters.enum.countP (fun p =>
            ((fun x => x == a) ∘ Prod.snd) p
            && decide (p.2 ∈ memorablesLoop fuel target u (sortedSetByValue u.letters)
                u.letters []
              ∧ ∀ j, j < u.letters.length → p.1 < j →
                  u.letters.getD j default ≠ p.2))
          = u.letters.enum.countP (fun p => p == (q.1, a)) := by
        apply List.countP_congr
        intro p hp
        obtain ⟨hip, hval⟩ := mem_enum_char u.letters p hp
        simp only [Function.comp, Bool.and_eq_true, beq_iff_eq, decide_eq_true_eq]
        constructor
        · rintro ⟨hpa, _, hlater⟩
          have hqp : p.1 = q.1 := by
            rcases lt_trichotomy p.1 q.1 with h | h | h
            · exact absurd hq4 (by
                have := hlater q.1 hq3 h
                rw [hpa] at this
                exact this)
            · exact h
            · exact absurd (hpa ▸ hval) (hq5 p.1 h hip)
          rcases p with ⟨pi, px⟩
          simp only [] at hpa hqp
          rw [hpa, hqp]
        · intro hpq
          have hp1 : p.1 = q.1 := by rw [hpq]
          have hp2 : p.2 = a := by rw [hpq]
          refine ⟨hp2, hp2 ▸ haM, ?_⟩
          intro j hj2 hj1
          rw [hp2]
          exact hq5 j (hp1 ▸ hj1) hj2
      rw [hcongr]
      have hmemq : ((q.1, a) : ℕ × Letter) ∈ u.letters.enum := by
        rw [List.mem_iff_getElem]
        refine ⟨q.1, by simpa using hq3, ?_⟩
        rw [List.getElem_enum]
        have : u.letters[q.1] = a := by
          rw [← List.getD_eq_getElem _ default hq3]
          exact hq4
        rw [this]
      have h1 : u.letters.enum.countP (fun p => p == (q.1, a))
          = u.letters.enum.countP (fun p => decide (p = (q.1, a))) :=
        List.countP_congr (by intro x _; simp)
      rw [h1]
      exact List.count_eq_one_of_mem (enum_nodup u.letters) hmemq

/-- Witness check for C8 on a small concrete word (the theorem has no
hypotheses; this instantiates it at `u = [1, 2, 1]`). -/
theorem memorable_seq_spec_witness :
    (getMemorableSeq 3 wRA (mkSeq [⟨1, LType.rational⟩, ⟨2, LType.rational⟩,
        ⟨1, LType.rational⟩])).letters.Sublist
      (mkSeq [⟨1, LType.rational⟩, ⟨2, LType.rational⟩, ⟨1, LType.rational⟩]).letters :=
  (memorable_seq_spec 3 wRA (mkSeq [⟨1, LType.rational⟩, ⟨2, LType.rational⟩,
    ⟨1, LType.rational⟩])).1

/-- C5: the claim's characterisation of `s_completable` is refuted: on
`cexA5` with negative sample `[1, 0]` and pair `([0, 1], [1, 0])` the code
returns `False` (both whole words reach location 2 with registers `[0, 1]`
and `[1, 0]`, which differ in type, tripping the check at `rpni.py`
line 305), while the rejection condition stated by the claim does not hold,
so the code also rejects in a case the claim classifies as `True`. -/
theorem s_completable_claim_false :
    sCompletable cexA5 [[1, 0]] [([0, 1], [1, 0])] = some false ∧
      sCompletableSpecCond cexA5 [[1, 0]] [([0, 1], [1, 0])] = false := by
  decide

theorem runSteps_append (A : RA) (c : ℕ × LetterSeq) (l1 l2 : List Letter) :
    runSteps A c (l1 ++ l2) = (runSteps A c l1).bind (fun c2 => runSteps A c2 l2) := by
  induction l1 generalizing c with
  | nil => rfl
  | cons l rest ih =>
      show runSteps A c (l :: (rest ++ l2)) = _
      rcases h : A.step (c.1, c.2, none) l with _ | c2
      · simp [runSteps, h]
      · simp [runSteps, h, ih]

theorem getSuffix_letters (s : LetterSeq) (i : ℕ) :
    (getSuffix s i).letters = s.letters.drop i := by
  unfold getSuffix
  split
  · next h => exact (List.drop_eq_nil_of_le h).symm
  · rfl

theorem getSuffix_ltype (s : LetterSeq) (t : LType) (ht : s.ltype = some t)
    (hl : ∀ x ∈ s.letters, x.ltype = t) (i : ℕ) :
    (getSuffix s i).ltype = some t := by
  unfold getSuffix
  split
  · exact ht
  · next h =>
      push_neg at h
      have hne : s.letters.drop i ≠ [] := by
        intro hnil
        have := List.drop_eq_nil_iff.mp hnil
        omega
      rcases List.exists_cons_of_ne_nil hne with ⟨a, l', ha⟩
      have hmem : a ∈ s.letters := by
        have ha2 : a ∈ s.letters.drop i := by
          rw [ha]; exact List.mem_cons_self _ _
        exact List.mem_of_mem_drop ha2
      simp [mkSeq, ha, hl a hmem]

theorem seq_eq_of_parts (s1 s2 : LetterSeq) (h1 : s1.letters = s2.letters)
    (h2 : s1.ltype = s2.ltype) : s1 = s2 := by
  cases s1; cases s2; simp_all

theorem getSuffix_getSuffix_one (s : LetterSeq) (t : LType) (ht : s.ltype = some t)
    (hl : ∀ x ∈ s.letters, x.ltype = t) (i : ℕ) :
    getSuffix (getSuffix s i) 1 = getSuffix s (i + 1) := by
  apply seq_eq_of_parts
  · rw [getSuffix_letters, getSuffix_letters, getSuffix_letters, List.drop_one,
      List.tail_drop]
  · have hsub : ∀ x ∈ (getSuffix s i).letters, x.ltype = t := by
      intro x hx
      rw [getSuffix_letters] at hx
      exact hl x (List.mem_of_mem_drop hx)
    rw [getSuffix_ltype (getSuffix s i) t (getSuffix_ltype s t ht hl i) hsub 1,
      getSuffix_ltype s t ht hl (i + 1)]

theorem makeSequence_letters (a : Alphabet) (vs : List ℚ) :
    (a.makeSequence vs).letters = vs.map a.makeLetter := by
  unfold Alphabet.makeSequence
  split
  · next h => simp [h, emptySeq]
  · rfl

theorem makeSequence_ltype (a : Alphabet) (vs : List ℚ) :
    (a.makeSequence vs).ltype = some a.ltype := by
  unfold Alphabet.makeSequence
  split
  · rfl
  · next h =>
      rcases List.exists_cons_of_ne_nil h with ⟨v, vs', hv⟩
      simp [hv, mkSeq, Alphabet.makeLetter]

theorem makeSequence_homog (a : Alphabet) (vs : List ℚ) :
    ∀ x ∈ (a.makeSequence vs).letters, x.ltype = a.ltype := by
  intro x hx
  rw [makeSequence_letters] at hx
  rcases List.mem_map.mp hx with ⟨v, _, hv⟩
  rw [← hv]
  rfl

theorem getSuffix_zero (s : LetterSeq) (t : LType) (ht : s.ltype = some t)
    (hl : ∀ x ∈ s.letters, x.ltype = t) : getSuffix s 0 = s := by
  apply seq_eq_of_parts
  · rw [getSuffix_letters, List.drop_zero]
  · rw [getSuffix_ltype s t ht hl 0, ht]

theorem scTrigger_eq_true (A : RA) (ws : ℕ) (wr wsuf : LetterSeq)
    (zs : ℕ) (zr zsuf : LetterSeq) :
    scTrigger A ws wr wsuf zs zr zsuf = true ↔
      ws = zs ∧ (A.alphabet.testType wr zr = false ∨
        A.alphabet.testType (seqConcat wr wsuf) (seqConcat zr zsuf) = true) := by
  simp [scTrigger, Bool.and_eq_true, Bool.or_eq_true, Bool.not_eq_true']

theorem scZScan_iff (A : RA) (ws : ℕ) (wr wsuf : LetterSeq) (fullZ : LetterSeq)
    (rest : List Letter) (j : ℕ) (c : ℕ × LetterSeq) :
    scZScan A ws wr wsuf fullZ rest j c = true ↔
      ∃ k, 1 ≤ k ∧ k ≤ rest.length ∧ ∃ c2,
        runSteps A c (rest.take k) = some c2 ∧
        scTrigger A ws wr wsuf c2.1 c2.2 (getSuffix fullZ (j + k)) = true := by
  induction rest generalizing j c with
  | nil =>
      simp only [scZScan, List.length_nil]
      constructor
      · intro h
        exact absurd h Bool.false_ne_true
      · rintro ⟨k, hk1, hk2, -⟩
        omega
  | cons l rest2 ih =>
      rcases h : A.step (c.1, c.2, none) l with _ | c2
      · simp only [scZScan, h]
        constructor
        · intro h1
          exact absurd h1 Bool.false_ne_true
        · rintro ⟨k, hk1, hk2, c3, hrun, htr⟩
          rcases k with _ | k'
          · omega
          · rw [List.take_succ_cons] at hrun
            simp [runSteps, h] at hrun
      · simp only [scZScan, h]
        rw [Bool.or_eq_true, ih]
        constructor
        · rintro (htr | ⟨k', hk1, hk2, c3, hrun, htr⟩)
          · refine ⟨1, Nat.le_refl 1, by simp, (c2.1, c2.2.1), ?_, ?_⟩
            · simp [runSteps, h]
            · simpa using htr
          · refine ⟨k' + 1, by omega, ?_, c3, ?_, ?_⟩
            · simp only [List.length_cons]
              omega
            · rw [List.take_succ_cons]
              simp only [runSteps, h]
              exact hrun
            · rw [show j + (k' + 1) = j + 1 + k' from by omega]
              exact htr
        · rintro ⟨k, hk1, hk2, c3, hrun, htr⟩
          rcases k with _ | k'
          · omega
          · rw [List.take_succ_cons] at hrun
            simp only [runSteps, h] at hrun
            rcases k' with _ | k''
            · left
              have hc3 : c3 = (c2.1, c2.2.1) := by
                simpa [runSteps, List.take_zero] using hrun.symm
              subst hc3
              simpa using htr
            · right
              refine ⟨k'' + 1, by omega, ?_, c3, hrun, ?_⟩
              · simp only [List.length_cons] at hk2
                omega
              · rw [show j + 1 + (k'' + 1) = j + (k'' + 1 + 1) from by omega]
                exact htr

theorem scZPass_iff (A : RA) (ws : ℕ) (wr wsuf : LetterSeq) (isFirst : Bool)
    (fullZ : LetterSeq) :
    scZPass A ws wr wsuf isFirst fullZ = true ↔
      ∃ j, j ≤ fullZ.letters.length ∧ (isFirst = false ∨ 0 < j) ∧ ∃ cz,
        runSteps A (A.initial.getD 0, A.alphabet.emptySequence)
          (fullZ.letters.take j) = some cz ∧
        scTrigger A ws wr wsuf cz.1 cz.2 (getSuffix fullZ j) = true := by
  unfold scZPass
  rw [Bool.or_eq_true, Bool.and_eq_true, scZScan_iff]
  constructor
  · rintro (⟨hnot, htr⟩ | ⟨k, hk1, hk2, c2, hrun, htr⟩)
    · refine ⟨0, Nat.zero_le _, Or.inl (by simpa using hnot),
        (A.initial.getD 0, A.alphabet.emptySequence), rfl, htr⟩
    · exact ⟨k, hk2, Or.inr hk1, c2, hrun, by simpa using htr⟩
  · rintro ⟨j, hj, hcond, cz, hrun, htr⟩
    rcases Nat.eq_zero_or_pos j with hj0 | hjpos
    · subst hj0
      left
      obtain rfl : cz = (A.initial.getD 0, A.alphabet.emptySequence) := by
        simpa [runSteps, List.take_zero] using hrun.symm
      refine ⟨?_, htr⟩
      rcases hcond with hf | hlt
      · simp [hf]
      · omega
    · right
      exact ⟨j, hjpos, hj, cz, hrun, by simpa using htr⟩

theorem scWScan_iff (A : RA) (fullW fullZ : LetterSeq) (t : LType)
    (ht : fullW.ltype = some t) (hl : ∀ x ∈ fullW.letters, x.ltype = t) :
    ∀ rest (i : ℕ) (c : ℕ × LetterSeq), rest = fullW.letters.drop i →
      (scWScan A fullW fullZ rest (getSuffix fullW i) c = true ↔
        ∃ k, k ≤ rest.length ∧ ∃ cw,
          runSteps A c (rest.take k) = some cw ∧
          scZPass A cw.1 cw.2 (getSuffix fullW (i + k))
            ((getSuffix fullW (i + k)).letters.length == fullW.letters.length)
            fullZ = true) := by
  intro rest
  induction rest with
  | nil =>
      intro i c _
      simp only [scWScan, List.length_nil]
      constructor
      · intro h
        exact ⟨0, Nat.le_refl 0, c, rfl, by simpa using h⟩
      · rintro ⟨k, hk, cw, hrun, hz⟩
        have hk0 : k = 0 := Nat.le_zero.mp hk
        subst hk0
        have hcw : cw = c := by simpa [runSteps, List.take_zero] using hrun.symm
        subst hcw
        simpa using hz
  | cons l rest2 ih =>
      intro i c hrest
      have hrest2 : rest2 = fullW.letters.drop (i + 1) := by
        rw [← List.tail_drop, ← hrest]
        rfl
      have hone : getSuffix (getSuffix fullW i) 1 = getSuffix fullW (i + 1) :=
        getSuffix_getSuffix_one fullW t ht hl i
      simp only [scWScan]
      by_cases hz0 : scZPass A c.1 c.2 (getSuffix fullW i)
          ((getSuffix fullW i).letters.length == fullW.letters.length) fullZ = true
      · rw [if_pos hz0]
        simp only [true_iff]
        exact ⟨0, Nat.zero_le _, c, rfl, by simpa using hz0⟩
      · rw [if_neg hz0]
        rcases h : A.step (c.1, c.2, none) l with _ | c2
        · constructor
          · intro hf
            exact absurd hf Bool.false_ne_true
          · rintro ⟨k, hk, cw, hrun, hzp⟩
            rcases k with _ | k'
            · exfalso
              have hcw : cw = c := by
                simpa [runSteps, List.take_zero] using hrun.symm
              subst hcw
              exact hz0 (by simpa using hzp)
            · rw [List.take_succ_cons] at hrun
              simp [runSteps, h] at hrun
        · rw [hone, ih (i + 1) (c2.1, c2.2.1) hrest2]
          constructor
          · rintro ⟨k', hk', cw, hrun, hzp⟩
            refine ⟨k' + 1, ?_, cw, ?_, ?_⟩
            · simp only [List.length_cons]
              omega
            · rw [List.take_succ_cons]
              simp only [runSteps, h]
              exact hrun
            · rw [show i + (k' + 1) = i + 1 + k' from by omega]
              exact hzp
          · rintro ⟨k, hk, cw, hrun, hzp⟩
            rcases k with _ | k'
            · exfalso
              have hcw : cw = c := by
                simpa [runSteps, List.take_zero] using hrun.symm
              subst hcw
              exact hz0 (by simpa using hzp)
            · rw [List.take_succ_cons] at hrun
              simp only [runSteps, h] at hrun
              refine ⟨k', ?_, cw, hrun, ?_⟩
              · simp only [List.length_cons] at hk
                omega
              · rw [show i + 1 + k' = i + (k' + 1) from by omega]
                exact hzp

theorem scCheckPair_iff (A : RA) (w z : List ℚ) :
    scCheckPair A (A.alphabet.makeSequence w) (A.alphabet.makeSequence z) = true ↔
      ∃ i, i ≤ w.length ∧ ∃ j, j ≤ z.length ∧ ¬(i = 0 ∧ j = 0) ∧ ∃ cw cz,
        reachAfter A (w.take i) = some cw ∧
        reachAfter A (z.take j) = some cz ∧
        cw.1 = cz.1 ∧
        (A.alphabet.testType cw.2 cz.2 = false ∨
          A.alphabet.testType
            (seqConcat cw.2 (getSuffix (A.alphabet.makeSequence w) i))
            (seqConcat cz.2 (getSuffix (A.alphabet.makeSequence z) j)) = true) := by
  have hWt := makeSequence_ltype A.alphabet w
  have hWl := makeSequence_homog A.alphabet w
  have hlenW : (A.alphabet.makeSequence w).letters.length = w.length := by
    rw [makeSequence_letters, List.length_map]
  have hlenZ : (A.alphabet.makeSequence z).letters.length = z.length := by
    rw [makeSequence_letters, List.length_map]
  have htakeW : ∀ k, runSteps A (A.initial.getD 0, A.alphabet.emptySequence)
      ((A.alphabet.makeSequence w).letters.take k) = reachAfter A (w.take k) := by
    intro k
    rw [makeSequence_letters, ← List.map_take]
    rfl
  have htakeZ : ∀ k, runSteps A (A.initial.getD 0, A.alphabet.emptySequence)
      ((A.alphabet.makeSequence z).letters.take k) = reachAfter A (z.take k) := by
    intro k
    rw [makeSequence_letters, ← List.map_take]
    rfl
  have hfirst : ∀ k, k ≤ w.length →
      ((((getSuffix (A.alphabet.makeSequence w) k).letters.length ==
        (A.alphabet.makeSequence w).letters.length) = false) ↔ ¬ k = 0) := by
    intro k hk
    simp only [getSuffix_letters, List.length_drop, beq_eq_false_iff_ne, ne_eq, hlenW]
    omega
  have hW := scWScan_iff A (A.alphabet.makeSequence w) (A.alphabet.makeSequence z)
    A.alphabet.ltype hWt hWl (A.alphabet.makeSequence w).letters 0
    (A.initial.getD 0, A.alphabet.emptySequence) (List.drop_zero _).symm
  rw [getSuffix_zero _ _ hWt hWl] at hW
  simp only [Nat.zero_add] at hW
  unfold scCheckPair
  rw [hW]
  constructor
  · rintro ⟨k, hk, cw, hrun, hzp⟩
    rw [scZPass_iff] at hzp
    rcases hzp with ⟨j, hj, hcond, cz, hrunz, htr⟩
    rw [scTrigger_eq_true] at htr
    have hk' : k ≤ w.length := by rw [← hlenW]; exact hk
    refine ⟨k, hk', j, by rw [← hlenZ]; exact hj, ?_, cw, cz, ?_, ?_, htr.1, htr.2⟩
    · rintro ⟨hk0, hj0⟩
      subst hk0
      subst hj0
      rcases hcond with hf | hlt
      · exact (hfirst 0 (Nat.zero_le _)).mp hf rfl
      · omega
    · rw [← htakeW k]; exact hrun
    · rw [← htakeZ j]; exact hrunz
  · rintro ⟨i, hi, j, hj, hnot, cw, cz, hrw, hrz, hst, hdisj⟩
    refine ⟨i, by rw [hlenW]; exact hi, cw, ?_, ?_⟩
    · rw [htakeW i]; exact hrw
    · rw [scZPass_iff]
      refine ⟨j, by rw [hlenZ]; exact hj, ?_, cz, ?_, ?_⟩
      · rcases Nat.eq_zero_or_pos j with hj0 | hjpos
        · subst hj0
          left
          apply (hfirst i hi).mpr
          intro hi0
          exact hnot ⟨hi0, rfl⟩
        · exact Or.inr hjpos
      · rw [htakeZ j]; exact hrz
      · rw [scTrigger_eq_true]
        exact ⟨hst, hdisj⟩

theorem scPairsLoop_iff (A : RA) (pairs : List (List ℚ × List ℚ))
    (hassert : ∀ p ∈ pairs,
      A.alphabet.testType (A.alphabet.makeSequence p.1)
        (A.alphabet.makeSequence p.2) = false) :
    (scPairsLoop A pairs = some false ↔
      ∃ p ∈ pairs, scCheckPair A (A.alphabet.makeSequence p.1)
        (A.alphabet.makeSequence p.2) = true) := by
  induction pairs with
  | nil => simp [scPairsLoop]
  | cons q rest ih =>
      rcases q with ⟨w, z⟩
      have hq := hassert (w, z) (List.mem_cons_self _ _)
      have hrest : ∀ p ∈ rest,
          A.alphabet.testType (A.alphabet.makeSequence p.1)
            (A.alphabet.makeSequence p.2) = false :=
        fun p hp => hassert p (List.mem_cons_of_mem _ hp)
      simp only [scPairsLoop, hq, Bool.false_eq_true, if_false]
      by_cases hc : scCheckPair A (A.alphabet.makeSequence w)
          (A.alphabet.makeSequence z) = true
      · rw [if_pos hc]
        constructor
        · intro _
          exact ⟨(w, z), List.mem_cons_self _ _, hc⟩
        · intro _
          rfl
      · rw [if_neg hc, ih hrest]
        constructor
        · rintro ⟨p, hp, h⟩
          exact ⟨p, List.mem_cons_of_mem _ hp, h⟩
        · rintro ⟨p, hp, h⟩
          rcases List.mem_cons.mp hp with hp1 | hp2
          · subst hp1
            exact absurd h hc
          · exact ⟨p, hp2, h⟩

/-- C5 (amended): characterisation of `s_completable` as the code computes
it.  Provided no pair trips the internal assertion, the check returns
`False` exactly when some negative sample is accepted, or some pair
`(w, z)` has prefixes `w.take i` and `z.take j`, not both empty, that drive
the automaton to a common location such that the register contents either
differ in type (the extra rejection of `rpni.py` line 305, absent from the
claim) or have same-typed concatenations with the remaining suffixes. -/
theorem s_completable_spec (A : RA) (negs : List (List ℚ))
    (pairs : List (List ℚ × List ℚ))
    (hassert : ∀ p ∈ pairs,
      A.alphabet.testType (A.alphabet.makeSequence p.1)
        (A.alphabet.makeSequence p.2) = false) :
    (sCompletable A negs pairs = some false ↔
      ((∃ zw ∈ negs, A.isAccepted (A.alphabet.makeSequence zw) = true) ∨
        ∃ p ∈ pairs, ∃ i, i ≤ p.1.length ∧ ∃ j, j ≤ p.2.length ∧
          ¬(i = 0 ∧ j = 0) ∧ ∃ cw cz,
            reachAfter A (p.1.take i) = some cw ∧
            reachAfter A (p.2.take j) = some cz ∧
            cw.1 = cz.1 ∧
            (A.alphabet.testType cw.2 cz.2 = false ∨
              A.alphabet.testType
                (seqConcat cw.2 (getSuffix (A.alphabet.makeSequence p.1) i))
                (seqConcat cz.2 (getSuffix (A.alphabet.makeSequence p.2) j))
                = true))) := by
  unfold sCompletable
  by_cases hneg : negs.any (fun zw => A.isAccepted (A.alphabet.makeSequence zw)) = true
  · rw [if_pos hneg]
    simp only [List.any_eq_true] at hneg
    constructor
    · intro _
      exact Or.inl hneg
    · intro _
      rfl
  · rw [if_neg hneg, scPairsLoop_iff A pairs hassert]
    constructor
    · rintro ⟨p, hp, hchk⟩
      exact Or.inr ⟨p, hp, (scCheckPair_iff A p.1 p.2).mp hchk⟩
    · rintro (hleft | ⟨p, hp, hcond⟩)
      · exact absurd (List.any_eq_true.mpr hleft) hneg
      · exact ⟨p, hp, (scCheckPair_iff A p.1 p.2).mpr hcond⟩

/-- Witness instantiating `s_completable_spec` on `cexA5`: the pair
`([0, 1], [1, 0])` satisfies the assertion hypothesis and both whole words
reach location 2, so the characterisation yields `some false`. -/
theorem s_completable_spec_witness :
    sCompletable cexA5 [[1, 0]] [([0, 1], [1, 0])] = some false :=
  (s_completable_spec cexA5 [[1, 0]] [([0, 1], [1, 0])] (by decide)).mpr
    (Or.inr ⟨([0, 1], [1, 0]), by decide, 2, by decide, 2, by decide, by decide,
      (2, mkSeq [⟨0, LType.rational⟩, ⟨1, LType.rational⟩]),
      (2, mkSeq [⟨1, LType.rational⟩, ⟨0, LType.rational⟩]),
      by decide, by decide, by decide, Or.inl (by decide)⟩)

/-- C7: the round-trip claim is refuted: `to_text` prints an empty
location name as `""`, which the location regex `"([^"]+)"` of `from_text`
cannot match, so parsing raises (`none`) instead of returning an automaton
equal to `cexA7` up to renaming. -/
theorem to_text_round_trip_claim_false :
    cexA7.initial.isSome = true ∧ fromText (toText cexA7) = none := by
  constructor
  · rfl
  · decide

theorem not_mem_of_forall {P : Char → Bool} {l : List Char}
    (hl : ∀ c ∈ l, P c = true) (x : Char) (hx : P x = false) : x ∉ l := by
  intro hm
  rw [hl x hm] at hx
  cases hx

theorem splitChar_of_not_mem (sep : Char) (s : List Char) (h : sep ∉ s) :
    splitChar sep s = [s] := by
  induction s with
  | nil => rfl
  | cons c cs ih =>
      have hcs : sep ∉ cs := fun hm => h (List.mem_cons_of_mem _ hm)
      have hc : ¬ c = sep := fun he => h (he ▸ List.mem_cons_self _ _)
      simp [splitChar, ih hcs, hc]

theorem splitChar_ne_nil (sep : Char) (s : List Char) : splitChar sep s ≠ [] := by
  cases s with
  | nil => simp [splitChar]
  | cons c cs =>
      rcases h : splitChar sep cs with _ | ⟨l, ls⟩
      · simp [splitChar, h]
      · by_cases hc : c = sep <;> simp [splitChar, h, hc]

theorem splitChar_append (sep : Char) (a b : List Char) (ha : sep ∉ a) :
    splitChar sep (a ++ sep :: b) = a :: splitChar sep b := by
  induction a with
  | nil =>
      show splitChar sep (sep :: b) = [] :: splitChar sep b
      rcases hr : splitChar sep b with _ | ⟨l, ls⟩
      · exact absurd hr (splitChar_ne_nil sep b)
      · simp [splitChar, hr]
  | cons c a2 ih =>
      have ha2 : sep ∉ a2 := fun hm => ha (List.mem_cons_of_mem _ hm)
      have hc : ¬ c = sep := fun he => ha (he ▸ List.mem_cons_self _ _)
      show splitChar sep (c :: (a2 ++ sep :: b)) = (c :: a2) :: splitChar sep b
      simp only [splitChar]
      rw [ih ha2]
      simp [hc]

theorem joinChar_cons_cons (sep : Char) (a b : List Char) (ls : List (List Char)) :
    joinChar sep (a :: b :: ls) = a ++ sep :: joinChar sep (b :: ls) := rfl

theorem split_join (sep : Char) (ls : List (List Char)) (hne : ls ≠ [])
    (h : ∀ l ∈ ls, sep ∉ l) :
    splitChar sep (joinChar sep ls) = ls := by
  induction ls with
  | nil => exact absurd rfl hne
  | cons l ls2 ih =>
      rcases ls2 with _ | ⟨l2, ls3⟩
      · exact splitChar_of_not_mem sep l (h l (List.mem_cons_self _ _))
      · rw [joinChar_cons_cons, splitChar_append sep l _ (h l (List.mem_cons_self _ _)),
          ih (by simp) (fun x hx => h x (List.mem_cons_of_mem _ hx))]

theorem joinChar_cons_ne (sep : Char) (x : List Char) (rest : List (List Char))
    (h : rest ≠ []) :
    joinChar sep (x :: rest) = x ++ sep :: joinChar sep rest := by
  rcases rest with _ | ⟨y, ys⟩
  · exact absurd rfl h
  · rfl

theorem joinChar_split_elem (sep : Char) (xs : List (List Char)) (a b : List Char)
    (ys : List (List Char)) :
    joinChar sep (xs ++ (a ++ sep :: b) :: ys) = joinChar sep (xs ++ a :: b :: ys) := by
  induction xs with
  | nil =>
      rcases ys with _ | ⟨y, ys2⟩
      · simp [joinChar, joinChar_cons_cons]
      · rw [List.nil_append, List.nil_append, joinChar_cons_ne _ _ _ (by simp),
          joinChar_cons_cons, joinChar_cons_cons]
        simp
  | cons x xs2 ih =>
      rw [List.cons_append, List.cons_append,
        joinChar_cons_ne _ _ _ (by simp),
        joinChar_cons_ne _ _ _ (by simp), ih]

theorem mem_joinChar (sep : Char) (ls : List (List Char)) (c : Char)
    (hc : c ∈ joinChar sep ls) : c = sep ∨ ∃ l ∈ ls, c ∈ l := by
  induction ls with
  | nil => cases hc
  | cons l ls2 ih =>
      rcases ls2 with _ | ⟨l2, ls3⟩
      · exact Or.inr ⟨l, List.mem_cons_self _ _, hc⟩
      · rw [joinChar_cons_cons] at hc
        rcases List.mem_append.mp hc with h1 | h2
        · exact Or.inr ⟨l, List.mem_cons_self _ _, h1⟩
        · rcases List.mem_cons.mp h2 with h3 | h4
          · exact Or.inl h3
          · rcases ih h4 with h5 | ⟨l3, hl3, hcl3⟩
            · exact Or.inl h5
            · exact Or.inr ⟨l3, List.mem_cons_of_mem _ hl3, hcl3⟩

theorem splitOnceChar_append (sep : Char) (a b : List Char) (ha : sep ∉ a) :
    splitOnceChar sep (a ++ sep :: b) = some (a, b) := by
  induction a with
  | nil => simp [splitOnceChar]
  | cons c a2 ih =>
      have ha2 : sep ∉ a2 := fun hm => ha (List.mem_cons_of_mem _ hm)
      have hc : ¬ c = sep := fun he => ha (he ▸ List.mem_cons_self _ _)
      simp [splitOnceChar, hc, ih ha2]

theorem dropWhile_append_all (p : Char → Bool) (a b : List Char)
    (ha : ∀ c ∈ a, p c = true) :
    (a ++ b).dropWhile p = b.dropWhile p := by
  induction a with
  | nil => rfl
  | cons c a2 ih =>
      have hc := ha c (List.mem_cons_self _ _)
      simp [List.dropWhile_cons, hc,
        ih (fun x hx => ha x (List.mem_cons_of_mem _ hx))]

theorem dropWhile_head_false (p : Char → Bool) (l : List Char)
    (h : ∀ c, l.head? = some c → p c = false) : l.dropWhile p = l := by
  cases l with
  | nil => rfl
  | cons c cs => simp [List.dropWhile_cons, h c rfl]

theorem dropWhile_all (p : Char → Bool) (l : List Char)
    (h : ∀ c ∈ l, p c = true) : l.dropWhile p = [] := by
  induction l with
  | nil => rfl
  | cons c cs ih =>
      simp [List.dropWhile_cons, h c (List.mem_cons_self _ _),
        ih (fun x hx => h x (List.mem_cons_of_mem _ hx))]

theorem takeWhile_append_all (p : Char → Bool) (a b : List Char)
    (ha : ∀ c ∈ a, p c = true)
    (hb : ∀ c, b.head? = some c → p c = false) :
    (a ++ b).takeWhile p = a ∧ (a ++ b).dropWhile p = b := by
  constructor
  · induction a with
    | nil =>
        cases b with
        | nil => rfl
        | cons c cs => simp [List.takeWhile_cons, hb c rfl]
    | cons c a2 ih =>
        simp [List.takeWhile_cons, ha c (List.mem_cons_self _ _),
          ih (fun x hx => ha x (List.mem_cons_of_mem _ hx))]
  · rw [dropWhile_append_all p a b ha]
    exact dropWhile_head_false p b hb

theorem stripChars_wrap (pre body suf : List Char)
    (hpre : ∀ c ∈ pre, isSpaceC c = true)
    (hsuf : ∀ c ∈ suf, isSpaceC c = true)
    (hh : ∀ c, body.head? = some c → isSpaceC c = false)
    (hl : ∀ c, body.getLast? = some c → isSpaceC c = false) :
    stripChars (pre ++ body ++ suf) = body := by
  unfold stripChars
  by_cases hbody : body = []
  · rw [hbody]
    simp only [List.append_nil]
    rw [dropWhile_append_all _ pre suf hpre, dropWhile_all _ suf hsuf]
    rfl
  · obtain ⟨c0, body2, rfl⟩ := List.exists_cons_of_ne_nil hbody
    rw [List.append_assoc, dropWhile_append_all _ pre _ hpre]
    have hgl : ∀ c, ((c0 :: body2) ++ suf).head? = some c → isSpaceC c = false := by
      intro c hc
      rw [List.cons_append] at hc
      have hc2 := Option.some.inj hc
      rw [← hc2]
      exact hh c0 rfl
    rw [dropWhile_head_false _ _ hgl, List.reverse_append]
    have h2 : (suf.reverse ++ (c0 :: body2).reverse).dropWhile isSpaceC =
        (c0 :: body2).reverse := by
      rw [dropWhile_append_all _ _ _ (fun c hc => hsuf c (List.mem_reverse.mp hc))]
      apply dropWhile_head_false
      intro c hc
      rw [List.head?_reverse] at hc
      exact hl c hc
    rw [h2, List.reverse_reverse]

theorem stripChars_eq_self (body : List Char)
    (hh : ∀ c, body.head? = some c → isSpaceC c = false)
    (hl : ∀ c, body.getLast? = some c → isSpaceC c = false) :
    stripChars body = body := by
  have := stripChars_wrap [] body [] (by simp) (by simp) hh hl
  simpa using this

theorem charToDigit_digitChar (d : ℕ) (h : d < 10) :
    charToDigit (digitChar d) = d := by
  interval_cases d <;> rfl

theorem isDigitC_digitChar (d : ℕ) (h : d < 10) :
    isDigitC (digitChar d) = true := by
  interval_cases d <;> rfl

theorem natToCharsAux_all_digit (fuel : ℕ) :
    ∀ n, ∀ c ∈ natToCharsAux fuel n, isDigitC c = true := by
  induction fuel with
  | zero => intro n c hc; cases hc
  | succ fuel ih =>
      intro n c hc
      rw [natToCharsAux] at hc
      by_cases hn : n = 0
      · rw [if_pos hn] at hc; cases hc
      · rw [if_neg hn] at hc
        rcases List.mem_append.mp hc with h1 | h2
        · exact ih (n / 10) c h1
        · have : c = digitChar (n % 10) := by simpa using h2
          rw [this]
          exact isDigitC_digitChar _ (Nat.mod_lt n (by omega))

theorem natToCharsAux_foldl (fuel : ℕ) :
    ∀ n, n ≤ fuel → ∀ acc : ℕ,
      List.foldl (fun a c => a * 10 + charToDigit c) acc (natToCharsAux fuel n) =
        acc * 10 ^ (natToCharsAux fuel n).length + n := by
  induction fuel with
  | zero =>
      intro n hn acc
      have : n = 0 := Nat.le_zero.mp hn
      subst this
      simp [natToCharsAux]
  | succ fuel ih =>
      intro n hn acc
      rw [natToCharsAux]
      by_cases hn0 : n = 0
      · rw [if_pos hn0]
        simp [hn0]
      · rw [if_neg hn0]
        have hdiv : n / 10 ≤ fuel := by
          have h1 : n / 10 < n := Nat.div_lt_self (by omega) (by omega)
          omega
        rw [List.foldl_append]
        simp only [List.foldl_cons, List.foldl_nil]
        rw [ih (n / 10) hdiv acc]
        rw [charToDigit_digitChar _ (Nat.mod_lt n (by omega))]
        rw [List.length_append, List.length_singleton]
        have hdm : 10 * (n / 10) + n % 10 = n := Nat.div_add_mod n 10
        calc (acc * 10 ^ (natToCharsAux fuel (n / 10)).length + n / 10) * 10 + n % 10
            = acc * (10 ^ (natToCharsAux fuel (n / 10)).length * 10) +
                (10 * (n / 10) + n % 10) := by ring
          _ = acc * 10 ^ ((natToCharsAux fuel (n / 10)).length + 1) + n := by
              rw [hdm, pow_succ]

theorem natToCharsAux_ne_nil (fuel n : ℕ) (hn : n ≠ 0) (hf : n ≤ fuel) :
    natToCharsAux fuel n ≠ [] := by
  cases fuel with
  | zero => omega
  | succ fuel =>
      rw [natToCharsAux, if_neg hn]
      simp

theorem natToChars_all_digit (n : ℕ) : ∀ c ∈ natToChars n, isDigitC c = true := by
  intro c hc
  unfold natToChars at hc
  by_cases hn : n = 0
  · rw [if_pos hn] at hc
    have : c = '0' := by simpa using hc
    rw [this]; rfl
  · rw [if_neg hn] at hc
    exact natToCharsAux_all_digit n n c hc

theorem natToChars_ne_nil (n : ℕ) : natToChars n ≠ [] := by
  unfold natToChars
  by_cases hn : n = 0
  · rw [if_pos hn]; simp
  · rw [if_neg hn]
    exact natToCharsAux_ne_nil n n hn (Nat.le_refl n)

theorem parseNat_natToChars (n : ℕ) : parseNatChars (natToChars n) = some n := by
  unfold parseNatChars
  rw [if_neg (by simpa using natToChars_ne_nil n)]
  rw [if_pos (by rw [List.all_eq_true]; intro c hc; exact natToChars_all_digit n c hc)]
  unfold natToChars
  by_cases hn : n = 0
  · rw [if_pos hn]
    simp [hn, charToDigit]
  · rw [if_neg hn]
    rw [natToCharsAux_foldl n n (Nat.le_refl n) 0]
    simp

theorem isSpaceC_false_of_digit (c : Char) (h : isDigitC c = true) :
    isSpaceC c = false := by
  have h2 : 48 ≤ c.toNat ∧ c.toNat ≤ 57 := by simpa [isDigitC] using h
  have hne : ∀ d : Char, c.toNat ≠ d.toNat → (c == d) = false := by
    intro d hd
    rw [beq_eq_false_iff_ne]
    intro he
    exact hd (he ▸ rfl)
  simp only [isSpaceC, Bool.or_eq_false_iff]
  refine ⟨⟨⟨hne ' ' ?_, hne '\t' ?_⟩, hne '\n' ?_⟩, hne '\r' ?_⟩
  · rw [show (' ').toNat = 32 from rfl]; omega
  · rw [show ('\t').toNat = 9 from rfl]; omega
  · rw [show ('\n').toNat = 10 from rfl]; omega
  · rw [show ('\r').toNat = 13 from rfl]; omega

theorem head_digit_not_space (l : List Char) (hd : ∀ c ∈ l, isDigitC c = true) :
    ∀ c, l.head? = some c → isSpaceC c = false := by
  intro c hc
  have : c ∈ l := by
    cases l with
    | nil => cases hc
    | cons a l2 =>
        have : a = c := Option.some.inj hc
        rw [← this]; exact List.mem_cons_self _ _
  exact isSpaceC_false_of_digit c (hd c this)

theorem last_digit_not_space (l : List Char) (hd : ∀ c ∈ l, isDigitC c = true) :
    ∀ c, l.getLast? = some c → isSpaceC c = false := by
  intro c hc
  have : c ∈ l := List.mem_of_mem_getLast? hc
  exact isSpaceC_false_of_digit c (hd c this)

theorem digit_head_ne_dash (l : List Char) (hdig : ∀ c ∈ l, isDigitC c = true) :
    l.head? ≠ some '-' := by
  intro hc
  cases l with
  | nil => cases hc
  | cons a l2 =>
      have ha : a = '-' := Option.some.inj hc
      have hd := hdig a (List.mem_cons_self _ _)
      rw [ha] at hd
      cases hd

theorem parseInt_intToChars (z : ℤ) : parseIntChars (intToChars z) = some z := by
  unfold parseIntChars intToChars
  by_cases hz : z < 0
  · rw [if_pos hz]
    have hh : ('-' :: natToChars z.natAbs).head? = some '-' := rfl
    rw [if_pos hh]
    simp only [List.tail_cons]
    rw [parseNat_natToChars]
    exact congrArg some (show -(z.natAbs : ℤ) = z by omega)
  · rw [if_neg hz]
    rw [if_neg (digit_head_ne_dash _ (natToChars_all_digit z.natAbs)),
      parseNat_natToChars]
    exact congrArg some (show (z.natAbs : ℤ) = z by omega)

theorem intToChars_sub (z : ℤ) :
    ∀ c ∈ intToChars z, isDigitC c = true ∨ c = '-' := by
  intro c hc
  unfold intToChars at hc
  by_cases hz : z < 0
  · rw [if_pos hz] at hc
    rcases List.mem_cons.mp hc with h1 | h2
    · exact Or.inr h1
    · exact Or.inl (natToChars_all_digit _ c h2)
  · rw [if_neg hz] at hc
    exact Or.inl (natToChars_all_digit _ c hc)

theorem intToChars_ne_nil (z : ℤ) : intToChars z ≠ [] := by
  unfold intToChars
  by_cases hz : z < 0
  · rw [if_pos hz]; simp
  · rw [if_neg hz]; exact natToChars_ne_nil _

theorem ratToChars_sub (q : ℚ) :
    ∀ c ∈ ratToChars q, isDigitC c = true ∨ c = '-' ∨ c = '/' := by
  intro c hc
  unfold ratToChars at hc
  by_cases hq : q.den = 1
  · rw [if_pos hq] at hc
    rcases intToChars_sub q.num c hc with h1 | h2
    · exact Or.inl h1
    · exact Or.inr (Or.inl h2)
  · rw [if_neg hq] at hc
    rcases List.mem_append.mp hc with h1 | h2
    · rcases intToChars_sub q.num c h1 with h3 | h4
      · exact Or.inl h3
      · exact Or.inr (Or.inl h4)
    · rcases List.mem_cons.mp h2 with h3 | h4
      · exact Or.inr (Or.inr h3)
      · exact Or.inl (natToChars_all_digit _ c h4)

theorem ratToChars_ne_nil (q : ℚ) : ratToChars q ≠ [] := by
  unfold ratToChars
  by_cases hq : q.den = 1
  · rw [if_pos hq]; exact intToChars_ne_nil _
  · rw [if_neg hq]
    intro h
    exact intToChars_ne_nil q.num (List.append_eq_nil.mp h).1

theorem ratToChars_nonspace (q : ℚ) :
    ∀ c ∈ ratToChars q, isSpaceC c = false := by
  intro c hc
  rcases ratToChars_sub q c hc with h | h | h
  · exact isSpaceC_false_of_digit c h
  · rw [h]; rfl
  · rw [h]; rfl

theorem strip_self_of_nonspace (l : List Char)
    (h : ∀ c ∈ l, isSpaceC c = false) : stripChars l = l := by
  apply stripChars_eq_self
  · intro c hc
    apply h
    cases l with
    | nil => cases hc
    | cons a l2 => rw [← Option.some.inj hc]; exact List.mem_cons_self _ _
  · intro c hc
    exact h c (List.mem_of_mem_getLast? hc)

theorem int_num_cast (q : ℚ) (hq : q.den = 1) : (q.num : ℚ) = q := by
  have h := Rat.num_div_den q
  rw [hq] at h
  simpa using h

theorem parseRat_ratToChars (q : ℚ) : parseRatChars (ratToChars q) = some q := by
  unfold parseRatChars ratToChars
  have hslash : ∀ z : ℤ, '/' ∉ intToChars z := by
    intro z hm
    rcases intToChars_sub z '/' hm with h1 | h2
    · cases h1
    · cases h2
  by_cases hq : q.den = 1
  · rw [if_pos hq]
    rw [splitChar_of_not_mem '/' _ (hslash q.num)]
    dsimp only
    rw [parseInt_intToChars]
    exact congrArg some (int_num_cast q hq)
  · rw [if_neg hq]
    rw [splitChar_append '/' _ _ (hslash q.num)]
    rw [splitChar_of_not_mem '/' _
      (not_mem_of_forall (natToChars_all_digit q.den) '/' (by decide))]
    dsimp only
    rw [parseInt_intToChars, parseNat_natToChars]
    dsimp only
    have hd0 : ¬ q.den = 0 := q.den_nz
    rw [if_neg hd0]
    exact congrArg some (Rat.num_div_den q)

theorem parseRatList_map (vals : List ℚ) :
    parseRatList ((vals.map ratToChars).map stripChars) = some vals := by
  induction vals with
  | nil => rfl
  | cons v vs ih =>
      simp only [List.map_cons]
      rw [parseRatList, strip_self_of_nonspace _ (ratToChars_nonspace v),
        parseRat_ratToChars, ih]

theorem parseNatList_map (ns : List ℕ) :
    parseNatList (ns.map natToChars) = some ns := by
  induction ns with
  | nil => rfl
  | cons n ns2 ih =>
      simp only [List.map_cons]
      rw [parseNatList, parseNat_natToChars, ih]

theorem isPrefixOf_append (l t : List Char) : List.isPrefixOf l (l ++ t) = true := by
  induction l with
  | nil => simp [List.isPrefixOf]
  | cons c l2 ih => simp [List.isPrefixOf, ih]

theorem splitWS_token_append (tok rest : List Char) (hne : tok ≠ [])
    (ht : ∀ c ∈ tok, isSpaceC c = false) :
    splitWS (tok ++ ' ' :: rest) = tok :: splitWS rest := by
  obtain ⟨c, tok2, rfl⟩ := List.exists_cons_of_ne_nil hne
  have hc : isSpaceC c = false := ht c (List.mem_cons_self _ _)
  have htw := takeWhile_append_all (fun d => !isSpaceC d) tok2 (' ' :: rest)
    (fun x hx => by simp [ht x (List.mem_cons_of_mem _ hx)])
    (fun x hx => by rw [← Option.some.inj hx]; rfl)
  rw [List.cons_append, splitWS]
  rw [hc]
  simp only [Bool.false_eq_true, if_false]
  rw [htw.1, htw.2]
  rw [splitWS]
  simp [isSpaceC]

theorem takeWhile_all (p : Char → Bool) (l : List Char)
    (h : ∀ c ∈ l, p c = true) : l.takeWhile p = l := by
  induction l with
  | nil => rfl
  | cons c cs ih =>
      simp [List.takeWhile_cons, h c (List.mem_cons_self _ _),
        ih (fun x hx => h x (List.mem_cons_of_mem _ hx))]

theorem splitWS_single (tok : List Char) (hne : tok ≠ [])
    (ht : ∀ c ∈ tok, isSpaceC c = false) :
    splitWS tok = [tok] := by
  obtain ⟨c, tok2, rfl⟩ := List.exists_cons_of_ne_nil hne
  have hc : isSpaceC c = false := ht c (List.mem_cons_self _ _)
  rw [splitWS, hc]
  simp only [Bool.false_eq_true, if_false]
  rw [takeWhile_all _ tok2
    (fun x hx => by simp [ht x (List.mem_cons_of_mem _ hx)])]
  rw [dropWhile_all _ tok2
    (fun x hx => by simp [ht x (List.mem_cons_of_mem _ hx)])]
  rw [splitWS]

theorem parseAlphaLine_emit (a : Alphabet) :
    parseAlphaLine (("alphabet: ".toList) ++ ltypeChars a.ltype ++ (", ".toList) ++
      cmpChars a.cmp) = some a := by
  rcases a with ⟨t, c⟩
  cases t <;> cases c <;> decide

theorem not_mem_space_natToChars (n : ℕ) : ':' ∉ ' ' :: natToChars n := by
  intro hm
  rcases List.mem_cons.mp hm with h1 | h2
  · cases h1
  · have := natToChars_all_digit n ':' h2
    cases this

theorem parseInitLine_emit (n : ℕ) :
    parseInitLine (("initial: ".toList) ++ natToChars n) = some n := by
  unfold parseInitLine
  rw [show (("initial: ".toList) ++ natToChars n) =
    (("initial:".toList) ++ (' ' :: natToChars n)) from rfl]
  rw [if_pos (isPrefixOf_append _ _)]
  rw [show (("initial:".toList) ++ (' ' :: natToChars n)) =
    (("initial".toList) ++ ':' :: (' ' :: natToChars n)) from rfl]
  rw [splitChar_append ':' _ _ (by decide)]
  rw [splitChar_of_not_mem ':' _ (not_mem_space_natToChars n)]
  dsimp only [List.get?]
  rw [show (' ' :: natToChars n) = ([' '] ++ natToChars n ++ []) from by simp]
  rw [stripChars_wrap [' '] (natToChars n) []
    (by intro x hx; rcases List.mem_singleton.mp hx with rfl; rfl)
    (by intro x hx; cases hx)
    (head_digit_not_space _ (natToChars_all_digit n))
    (last_digit_not_space _ (natToChars_all_digit n))]
  exact parseNat_natToChars n

theorem isEmpty_false_of_ne_nil (l : List Char) (h : l ≠ []) :
    l.isEmpty = false := by
  rcases l with _ | ⟨c, cs⟩
  · exact absurd rfl h
  · rfl

theorem parseLocLine_emit (i : ℕ) (nm : List Char) (b : Bool)
    (hne : nm ≠ []) (hq : '\x22' ∉ nm) :
    parseLocLine (natToChars i ++ (' ' :: '\x22' :: (nm ++ ('\x22' :: ' ' ::
      (("accepting=".toList) ++ boolChars b))))) = some (i, nm, b) := by
  have hdig := natToChars_all_digit i
  have htd := takeWhile_append_all isDigitC (natToChars i)
    (' ' :: '\x22' :: (nm ++ ('\x22' :: ' ' :: (("accepting=".toList) ++ boolChars b))))
    hdig (fun c hc => by rw [← Option.some.inj hc]; rfl)
  have hq2 : ∀ c ∈ nm, (!(c == '\x22')) = true := by
    intro c hc
    simp only [Bool.not_eq_true', beq_eq_false_iff_ne, ne_eq]
    intro he
    exact hq (he ▸ hc)
  have htn := takeWhile_append_all (fun c => !(c == '\x22')) nm
    ('\x22' :: ' ' :: (("accepting=".toList) ++ boolChars b)) hq2
    (fun c hc => by rw [← Option.some.inj hc]; rfl)
  simp only [parseLocLine]
  rw [htd.1, htd.2]
  rw [if_neg (by simp [isEmpty_false_of_ne_nil _ (natToChars_ne_nil i)])]
  rw [show ((' ' :: '\x22' :: (nm ++ ('\x22' :: ' ' :: (("accepting=".toList) ++
    boolChars b)))).takeWhile isSpaceC) = [' '] from rfl]
  rw [if_neg (by simp)]
  rw [show ((' ' :: '\x22' :: (nm ++ ('\x22' :: ' ' :: (("accepting=".toList) ++
    boolChars b)))).dropWhile isSpaceC) = ('\x22' :: (nm ++ ('\x22' :: ' ' ::
    (("accepting=".toList) ++ boolChars b)))) from rfl]
  rw [if_pos (show (('\x22' :: (nm ++ ('\x22' :: ' ' :: (("accepting=".toList) ++
    boolChars b)))).head? = some '\x22') from rfl)]
  simp only [List.tail_cons]
  rw [htn.1, htn.2]
  rw [if_neg (by simp [isEmpty_false_of_ne_nil _ hne])]
  rw [if_pos (show (('\x22' :: ' ' :: (("accepting=".toList) ++
    boolChars b)).head? = some '\x22') from rfl)]
  simp only [List.tail_cons]
  rw [show ((' ' :: (("accepting=".toList) ++ boolChars b)).takeWhile isSpaceC) =
    [' '] from rfl]
  rw [if_neg (by simp)]
  simp only [show ((' ' :: (("accepting=".toList) ++ boolChars b)).dropWhile
    isSpaceC) = (("accepting=".toList) ++ boolChars b) from rfl]
  rw [if_pos (isPrefixOf_append _ _)]
  simp only [show ((("accepting=".toList) ++ boolChars b).drop
    (("accepting=".toList).length)) = boolChars b from rfl]
  cases b
  · rw [if_neg (by decide), if_pos (by decide)]
    rw [parseNat_natToChars]
    rfl
  · rw [if_pos (by decide)]
    rw [parseNat_natToChars]
    rfl

theorem splitOnSub1_ne_nil (p : Char) (ps s : List Char) :
    splitOnSub1 p ps s ≠ [] := by
  cases s with
  | nil => simp [splitOnSub1]
  | cons c cs =>
      rw [splitOnSub1]
      by_cases hpre : List.isPrefixOf (p :: ps) (c :: cs)
      · rw [if_pos hpre]
        rcases h : splitOnSub1 p ps (cs.drop ps.length) with _ | ⟨l, ls⟩ <;> simp
      · rw [if_neg hpre]
        rcases h : splitOnSub1 p ps cs with _ | ⟨l, ls⟩ <;> simp

theorem splitOnSub1_of_not_mem (p : Char) (ps : List Char) (s : List Char)
    (x : Char) (hx : x ∈ p :: ps) (hs : x ∉ s) : splitOnSub1 p ps s = [s] := by
  induction s with
  | nil => simp [splitOnSub1]
  | cons c cs ih =>
      have hpre : List.isPrefixOf (p :: ps) (c :: cs) = false := by
        by_contra hb
        rw [Bool.not_eq_false] at hb
        have hp : (p :: ps) <+: (c :: cs) := List.isPrefixOf_iff_prefix.mp hb
        rcases hp with ⟨t, ht⟩
        have : x ∈ c :: cs := by
          rw [← ht]
          exact List.mem_append.mpr (Or.inl hx)
        exact hs this
      rw [splitOnSub1, hpre]
      simp only [Bool.false_eq_true, if_false]
      rw [ih (fun hm => hs (List.mem_cons_of_mem _ hm))]

theorem splitOnSub1_append (p q : Char) (ps2 : List Char) (a b : List Char)
    (hqa : q ∉ a) (hpq : p ≠ q) :
    splitOnSub1 p (q :: ps2) (a ++ (p :: q :: (ps2 ++ b))) =
      a :: splitOnSub1 p (q :: ps2) b := by
  induction a with
  | nil =>
      rw [List.nil_append, splitOnSub1]
      have hpre : List.isPrefixOf (p :: q :: ps2) (p :: q :: (ps2 ++ b)) = true := by
        have h := isPrefixOf_append (p :: q :: ps2) b
        simp only [List.cons_append] at h
        exact h
      rw [if_pos hpre]
      have hdrop : (q :: (ps2 ++ b)).drop (q :: ps2).length = b := by
        simp [List.drop_succ_cons, List.drop_left]
      rw [hdrop]
      rcases h : splitOnSub1 p (q :: ps2) b with _ | ⟨l, ls⟩
      · exact absurd h (splitOnSub1_ne_nil _ _ _)
      · simp
  | cons c a2 ih =>
      have hqa2 : q ∉ a2 := fun hm => hqa (List.mem_cons_of_mem _ hm)
      rw [List.cons_append, splitOnSub1]
      have hpre : List.isPrefixOf (p :: q :: ps2)
          (c :: (a2 ++ (p :: q :: (ps2 ++ b)))) = false := by
        cases a2 with
        | nil =>
            have hqp : (q == p) = false :=
              beq_eq_false_iff_ne.mpr (fun he => hpq he.symm)
            simp [List.isPrefixOf, hqp]
        | cons d a3 =>
            have hqd : (q == d) = false := by
              rw [beq_eq_false_iff_ne]
              intro he
              exact hqa (List.mem_cons_of_mem _ (he ▸ List.mem_cons_self d a3))
            simp [List.isPrefixOf, hqd]
      rw [hpre]
      simp only [Bool.false_eq_true, if_false]
      rw [ih hqa2]

theorem head?_append_left (a b : List Char) (ha : a ≠ []) :
    (a ++ b).head? = a.head? := by
  obtain ⟨c, a2, rfl⟩ := List.exists_cons_of_ne_nil ha
  rfl

theorem getLast?_cons_of_ne_nil (x : Char) (l : List Char) (h : l ≠ []) :
    (x :: l).getLast? = l.getLast? := by
  rw [show (x :: l) = [x] ++ l from rfl]
  exact List.getLast?_append_of_ne_nil [x] h

theorem stripChars_cons_space (body : List Char)
    (hh : ∀ c, body.head? = some c → isSpaceC c = false)
    (hl : ∀ c, body.getLast? = some c → isSpaceC c = false) :
    stripChars (' ' :: body) = body := by
  have h := stripChars_wrap [' '] body []
    (by intro c hc; rcases List.mem_singleton.mp hc with rfl; rfl)
    (by intro c hc; cases hc) hh hl
  simpa using h

theorem stripChars_trailing_space (body : List Char)
    (hh : ∀ c, body.head? = some c → isSpaceC c = false)
    (hl : ∀ c, body.getLast? = some c → isSpaceC c = false) :
    stripChars (body ++ [' ']) = body := by
  have h := stripChars_wrap [] body [' ']
    (by intro c hc; cases hc)
    (by intro c hc; rcases List.mem_singleton.mp hc with rfl; rfl) hh hl
  simpa using h

theorem natToChars_nonspace (n : ℕ) : ∀ c ∈ natToChars n, isSpaceC c = false :=
  fun c hc => isSpaceC_false_of_digit c (natToChars_all_digit n c hc)

theorem joinChar_cons_ne_nil (sep : Char) (a : List Char) (ls : List (List Char))
    (ha : a ≠ []) : joinChar sep (a :: ls) ≠ [] := by
  rcases ls with _ | ⟨b, ls2⟩
  · exact ha
  · rw [joinChar_cons_cons]
    simp

theorem eChars_sub (E : Finset ℕ) :
    ∀ c ∈ eChars E,
      (isDigitC c || (c == ',') || (c == '\x7b') || (c == '\x7d')) = true := by
  intro c hc
  unfold eChars at hc
  by_cases hE : E = ∅
  · rw [if_pos hE] at hc
    rcases List.mem_cons.mp hc with h1 | h2
    · rw [h1]; rfl
    · rcases List.mem_singleton.mp h2 with rfl; rfl
  · rw [if_neg hE] at hc
    rcases List.mem_cons.mp hc with h1 | h2
    · rw [h1]; rfl
    · rcases List.mem_append.mp h2 with h3 | h4
      · rcases mem_joinChar ',' _ c h3 with h5 | ⟨l, hl, hcl⟩
        · rw [h5]; rfl
        · rcases List.mem_map.mp hl with ⟨n, _, hn⟩
          rw [← hn] at hcl
          simp [natToChars_all_digit n c hcl]
      · rcases List.mem_singleton.mp h4 with rfl; rfl

theorem eChars_ne_nil (E : Finset ℕ) : eChars E ≠ [] := by
  unfold eChars
  by_cases hE : E = ∅
  · rw [if_pos hE]; simp
  · rw [if_neg hE]; simp

theorem eChars_getLast (E : Finset ℕ) : (eChars E).getLast? = some '\x7d' := by
  unfold eChars
  by_cases hE : E = ∅
  · rw [if_pos hE]; rfl
  · rw [if_neg hE]
    rw [List.getLast?_append_of_ne_nil _ (by simp)]
    rfl

theorem eChars_nonspace (E : Finset ℕ) : ∀ c ∈ eChars E, isSpaceC c = false := by
  intro c hc
  have h : isDigitC c = true ∨ c = ',' ∨ c = '\x7b' ∨ c = '\x7d' := by
    simpa [or_assoc] using eChars_sub E c hc
  rcases h with h | h | h | h
  · exact isSpaceC_false_of_digit c h
  · rw [h]; rfl
  · rw [h]; rfl
  · rw [h]; rfl

theorem tauJoin_sub (vals : List ℚ) :
    ∀ c ∈ joinChar ',' (vals.map ratToChars),
      (isDigitC c || (c == '-') || (c == '/') || (c == ',')) = true := by
  intro c hc
  rcases mem_joinChar ',' _ c hc with h | ⟨l, hl, hcl⟩
  · rw [h]; rfl
  · rcases List.mem_map.mp hl with ⟨v, _, hv⟩
    rw [← hv] at hcl
    rcases ratToChars_sub v c hcl with h1 | h1 | h1
    · simp [h1]
    · rw [h1]; rfl
    · rw [h1]; rfl

theorem tauJoin_nonspace (vals : List ℚ) :
    ∀ c ∈ joinChar ',' (vals.map ratToChars), isSpaceC c = false := by
  intro c hc
  have h : isDigitC c = true ∨ c = '-' ∨ c = '/' ∨ c = ',' := by
    simpa [or_assoc] using tauJoin_sub vals c hc
  rcases h with h | h | h | h
  · exact isSpaceC_false_of_digit c h
  · rw [h]; rfl
  · rw [h]; rfl
  · rw [h]; rfl

theorem comma_not_mem_ratToChars (v : ℚ) : ',' ∉ ratToChars v := by
  intro hm
  rcases ratToChars_sub v ',' hm with h | h | h
  · exact absurd h (by decide)
  · exact absurd h (by decide)
  · exact absurd h (by decide)

theorem tauStr_parse (vals : List ℚ) :
    (if (joinChar ',' (vals.map ratToChars)).isEmpty then some ([] : List ℚ) else
      parseRatList ((splitChar ','
        (joinChar ',' (vals.map ratToChars))).map stripChars)) = some vals := by
  rcases vals with _ | ⟨v, vs⟩
  · rfl
  · have hnem : (joinChar ',' ((v :: vs).map ratToChars)).isEmpty = false := by
      apply isEmpty_false_of_ne_nil
      rw [List.map_cons]
      exact joinChar_cons_ne_nil ',' _ _ (ratToChars_ne_nil v)
    rw [hnem]
    simp only [Bool.false_eq_true, if_false]
    rw [split_join ',' _ (by simp)
      (by
        intro l hl
        rcases List.mem_map.mp hl with ⟨w, _, hw⟩
        rw [← hw]
        exact comma_not_mem_ratToChars w)]
    exact parseRatList_map (v :: vs)

theorem sort_ne_nil_of_ne_empty (E : Finset ℕ) (hE : E ≠ ∅) :
    E.sort (· ≤ ·) ≠ [] := by
  intro h
  have hs := Finset.sort_toFinset (· ≤ ·) E
  rw [h] at hs
  exact hE (by simpa using hs.symm)

theorem eStr_parse (E : Finset ℕ) :
    (if (((stripChars (eChars E)).drop 1).dropLast).isEmpty then
      some (∅ : Finset ℕ)
    else (parseNatList (splitChar ','
      (((stripChars (eChars E)).drop 1).dropLast))).map List.toFinset) = some E := by
  rw [strip_self_of_nonspace _ (eChars_nonspace E)]
  unfold eChars
  by_cases hE : E = ∅
  · rw [if_pos hE]
    subst hE
    rfl
  · rw [if_neg hE]
    rw [show ((('\x7b' :: (joinChar ',' ((E.sort (· ≤ ·)).map natToChars))) ++
      ['\x7d']).drop 1) =
      (joinChar ',' ((E.sort (· ≤ ·)).map natToChars)) ++ ['\x7d'] from rfl]
    rw [List.dropLast_concat]
    have hsort := sort_ne_nil_of_ne_empty E hE
    have hmapne : (E.sort (· ≤ ·)).map natToChars ≠ [] := by
      simpa using hsort
    obtain ⟨n0, ns, hns⟩ := List.exists_cons_of_ne_nil hmapne
    have hnem : (joinChar ',' ((E.sort (· ≤ ·)).map natToChars)).isEmpty = false := by
      apply isEmpty_false_of_ne_nil
      rw [hns]
      apply joinChar_cons_ne_nil
      rcases List.mem_map.mp (hns ▸ List.mem_cons_self n0 ns) with ⟨m, _, hm⟩
      rw [← hm]
      exact natToChars_ne_nil m
    rw [hnem]
    simp only [Bool.false_eq_true, if_false]
    rw [split_join ',' _ hmapne
      (by
        intro l hl
        rcases List.mem_map.mp hl with ⟨m, _, hm⟩
        rw [← hm]
        exact not_mem_of_forall (natToChars_all_digit m) ',' (by decide))]
    rw [parseNatList_map]
    simp only [Option.map_some']
    rw [Finset.sort_toFinset]

theorem parseTransLine_emit (alpha : Alphabet) (src tgt : ℕ) (vals : List ℚ)
    (E : Finset ℕ) :
    parseTransLine alpha
      ((natToChars src ++ (' ' :: '-' :: '>' :: ' ' :: (natToChars tgt ++ [' ']))) ++
        ':' :: (' ' :: 't' :: 'a' :: 'u' :: '=' :: '[' ::
          (joinChar ',' (vals.map ratToChars) ++
            (']' :: ',' :: ' ' :: 'E' :: '=' :: eChars E)))) =
      some (src, tgt, alpha.formSequence (vals.map alpha.makeLetter), E) := by
  have hA : ':' ∉ natToChars src ++ (' ' :: '-' :: '>' :: ' ' ::
      (natToChars tgt ++ [' '])) := by
    intro hm
    rcases List.mem_append.mp hm with h | h
    · exact absurd (natToChars_all_digit src ':' h) (by decide)
    rcases List.mem_cons.mp h with h | h
    · exact absurd h (by decide)
    rcases List.mem_cons.mp h with h | h
    · exact absurd h (by decide)
    rcases List.mem_cons.mp h with h | h
    · exact absurd h (by decide)
    rcases List.mem_cons.mp h with h | h
    · exact absurd h (by decide)
    rcases List.mem_append.mp h with h | h
    · exact absurd (natToChars_all_digit tgt ':' h) (by decide)
    · exact absurd (List.mem_singleton.mp h) (by decide)
  have hB : ':' ∉ ' ' :: 't' :: 'a' :: 'u' :: '=' :: '[' ::
      (joinChar ',' (vals.map ratToChars) ++
        (']' :: ',' :: ' ' :: 'E' :: '=' :: eChars E)) := by
    intro hm
    rcases List.mem_cons.mp hm with h | h
    · exact absurd h (by decide)
    rcases List.mem_cons.mp h with h | h
    · exact absurd h (by decide)
    rcases List.mem_cons.mp h with h | h
    · exact absurd h (by decide)
    rcases List.mem_cons.mp h with h | h
    · exact absurd h (by decide)
    rcases List.mem_cons.mp h with h | h
    · exact absurd h (by decide)
    rcases List.mem_cons.mp h with h | h
    · exact absurd h (by decide)
    rcases List.mem_append.mp h with h | h
    · exact absurd (tauJoin_sub vals ':' h) (by decide)
    rcases List.mem_cons.mp h with h | h
    · exact absurd h (by decide)
    rcases List.mem_cons.mp h with h | h
    · exact absurd h (by decide)
    rcases List.mem_cons.mp h with h | h
    · exact absurd h (by decide)
    rcases List.mem_cons.mp h with h | h
    · exact absurd h (by decide)
    rcases List.mem_cons.mp h with h | h
    · exact absurd h (by decide)
    · exact absurd (eChars_sub E ':' h) (by decide)
  simp only [parseTransLine]
  rw [splitChar_append ':' _ _ hA, splitChar_of_not_mem ':' _ hB]
  dsimp only
  have hbodyA : natToChars src ++ (' ' :: '-' :: '>' :: ' ' ::
      (natToChars tgt ++ [' '])) =
      (natToChars src ++ (' ' :: '-' :: '>' :: ' ' :: natToChars tgt)) ++ [' '] := by
    simp [List.append_assoc, List.cons_append]
  rw [hbodyA]
  rw [stripChars_trailing_space _
    (by
      intro c hc
      rw [head?_append_left _ _ (natToChars_ne_nil src)] at hc
      exact head_digit_not_space _ (natToChars_all_digit src) c hc)
    (by
      intro c hc
      rw [List.getLast?_append_of_ne_nil _ (by simp)] at hc
      rw [show (' ' :: '-' :: '>' :: ' ' :: natToChars tgt) =
        ([' ', '-', '>', ' '] ++ natToChars tgt) from rfl] at hc
      rw [List.getLast?_append_of_ne_nil _ (natToChars_ne_nil tgt)] at hc
      exact last_digit_not_space _ (natToChars_all_digit tgt) c hc)]
  rw [splitWS_token_append (natToChars src) _ (natToChars_ne_nil src)
    (natToChars_nonspace src)]
  rw [show ('-' :: '>' :: ' ' :: natToChars tgt) =
    (['-', '>'] ++ ' ' :: natToChars tgt) from rfl]
  rw [splitWS_token_append ['-', '>'] _ (by simp) (by decide)]
  rw [splitWS_single (natToChars tgt) (natToChars_ne_nil tgt)
    (natToChars_nonspace tgt)]
  dsimp only
  rw [parseNat_natToChars, parseNat_natToChars]
  dsimp only
  rw [stripChars_cons_space _
    (fun c hc => by rw [← Option.some.inj hc]; rfl)
    (by
      intro c hc
      rw [show ('t' :: 'a' :: 'u' :: '=' :: '[' ::
        (joinChar ',' (vals.map ratToChars) ++
          (']' :: ',' :: ' ' :: 'E' :: '=' :: eChars E))) =
        (('t' :: 'a' :: 'u' :: '=' :: '[' ::
          (joinChar ',' (vals.map ratToChars) ++ [']', ',', ' ', 'E', '='])) ++
          eChars E) from by simp [List.append_assoc, List.cons_append]] at hc
      rw [List.getLast?_append_of_ne_nil _ (eChars_ne_nil E)] at hc
      rw [eChars_getLast] at hc
      rw [← Option.some.inj hc]
      rfl)]
  rw [show ((" E=").toList) = (' ' :: ['E', '='] : List Char) from rfl]
  rw [show ('t' :: 'a' :: 'u' :: '=' :: '[' ::
    (joinChar ',' (vals.map ratToChars) ++
      (']' :: ',' :: ' ' :: 'E' :: '=' :: eChars E))) =
    (('t' :: 'a' :: 'u' :: '=' :: '[' ::
      (joinChar ',' (vals.map ratToChars) ++ [']'])) ++
      (',' :: ' ' :: (['E', '='] ++ eChars E))) from by
    simp [List.append_assoc, List.cons_append]]
  rw [splitOnSub1_append ',' ' ' ['E', '='] _ _
    (by
      intro hm
      rcases List.mem_cons.mp hm with h | h
      · exact absurd h (by decide)
      rcases List.mem_cons.mp h with h | h
      · exact absurd h (by decide)
      rcases List.mem_cons.mp h with h | h
      · exact absurd h (by decide)
      rcases List.mem_cons.mp h with h | h
      · exact absurd h (by decide)
      rcases List.mem_cons.mp h with h | h
      · exact absurd h (by decide)
      rcases List.mem_append.mp h with h | h
      · exact absurd (tauJoin_sub vals ' ' h) (by decide)
      · exact absurd (List.mem_singleton.mp h) (by decide))
    (by decide)]
  rw [splitOnSub1_of_not_mem ',' (' ' :: ['E', '=']) (eChars E) ' '
    (by simp)
    (by
      intro hm
      exact absurd (eChars_sub E ' ' hm) (by decide))]
  dsimp only
  rw [show ('t' :: 'a' :: 'u' :: '=' :: '[' ::
    (joinChar ',' (vals.map ratToChars) ++ [']'])) =
    (['t', 'a', 'u'] ++ '=' :: ('[' ::
      (joinChar ',' (vals.map ratToChars) ++ [']']))) from rfl]
  rw [splitOnceChar_append '=' ['t', 'a', 'u'] _ (by decide)]
  dsimp only
  rw [strip_self_of_nonspace ('[' :: (joinChar ',' (vals.map ratToChars) ++ [']']))
    (by
      intro c hc
      rcases List.mem_cons.mp hc with h | h
      · rw [h]; rfl
      rcases List.mem_append.mp h with h | h
      · exact tauJoin_nonspace vals c h
      · rcases List.mem_singleton.mp h with rfl; rfl)]
  rw [show (('[' :: (joinChar ',' (vals.map ratToChars) ++ [']'])).drop 1) =
    (joinChar ',' (vals.map ratToChars) ++ [']']) from rfl]
  rw [List.dropLast_concat]
  rw [tauStr_parse vals]
  dsimp only
  rw [eStr_parse E]

theorem digit_ne (c : Char) (h : isDigitC c = true) (d : Char)
    (hd : isDigitC d = false) : c ≠ d := by
  intro he
  rw [he, hd] at h
  cases h

theorem locline_not_transitions (loc : Location) :
    List.isPrefixOf ("transitions".toList) (locLineStripped loc) = false := by
  obtain ⟨c, cs, hc⟩ := List.exists_cons_of_ne_nil (natToChars_ne_nil loc.id)
  have hcd : isDigitC c = true := by
    apply natToChars_all_digit loc.id
    rw [hc]
    exact List.mem_cons_self _ _
  unfold locLineStripped
  rw [hc, show ((c :: cs) ++ (' ' :: '\x22' :: (loc.name ++ ('\x22' :: ' ' ::
    (("accepting=".toList) ++ boolChars loc.accepting))))) =
    c :: (cs ++ (' ' :: '\x22' :: (loc.name ++ ('\x22' :: ' ' ::
    (("accepting=".toList) ++ boolChars loc.accepting))))) from rfl]
  rw [show ("transitions".toList) = 't' :: ("ransitions".toList) from rfl]
  have hne : ('t' == c) = false :=
    beq_eq_false_iff_ne.mpr (Ne.symm (digit_ne c hcd 't' (by decide)))
  simp [List.isPrefixOf, hne]

theorem parseLocLoop_emit (locs : List Location) :
    ∀ (ra : RA) (rest : List (List Char)),
      (∀ l0, rest.head? = some l0 →
        List.isPrefixOf ("transitions".toList) l0 = true) →
      (∀ loc ∈ locs, ra.findLoc loc.id = none) →
      ((locs.map Location.id)).Nodup →
      (∀ loc ∈ locs, loc.name ≠ [] ∧ '\x22' ∉ loc.name) →
      parseLocLoop ra (locs.map locLineStripped ++ rest) =
        some ({ ra with
                locations := ra.locations ++
                  locs.map (fun loc => ⟨loc.id, loc.name, loc.accepting, []⟩) },
          rest) := by
  induction locs with
  | nil =>
      intro ra rest hstop _ _ _
      rcases rest with _ | ⟨l, rest2⟩
      · simp [parseLocLoop]
      · simp only [List.map_nil, List.nil_append]
        rw [parseLocLoop, if_pos (hstop l rfl)]
        simp
  | cons loc locs2 ih =>
      intro ra rest hstop hfresh hnd hname
      rw [List.map_cons] at hnd
      rw [List.map_cons, List.cons_append, parseLocLoop]
      rw [locline_not_transitions loc]
      simp only [Bool.false_eq_true, if_false]
      have hn := hname loc (List.mem_cons_self _ _)
      rw [show locLineStripped loc = natToChars loc.id ++ (' ' :: '\x22' ::
        (loc.name ++ ('\x22' :: ' ' :: (("accepting=".toList) ++
          boolChars loc.accepting)))) from rfl]
      rw [parseLocLine_emit loc.id loc.name loc.accepting hn.1 hn.2]
      dsimp only
      have hfl : (ra.findLoc loc.id).isSome = false := by
        rw [hfresh loc (List.mem_cons_self _ _)]
        rfl
      rw [hfl]
      simp only [Bool.false_eq_true, if_false]
      have hadd : ra.addLocation loc.id loc.name loc.accepting =
          { ra with locations := ra.locations ++
            [⟨loc.id, loc.name, loc.accepting, []⟩] } := by
        unfold RA.addLocation
        rw [hfl]
        simp
      rw [hadd]
      rw [ih _ rest hstop ?_ (by simpa using (List.nodup_cons.mp hnd).2)
        (fun l2 hl2 => hname l2 (List.mem_cons_of_mem _ hl2))]
      · simp [List.append_assoc]
      · intro loc2 hloc2
        rw [RA.findLoc]
        rw [List.find?_eq_none]
        intro x hx
        simp only [List.mem_append, List.mem_singleton] at hx
        rcases hx with hx | hx
        · have h0 := hfresh loc2 (List.mem_cons_of_mem _ hloc2)
          rw [RA.findLoc, List.find?_eq_none] at h0
          exact h0 x hx
        · subst hx
          have hid : loc.id ∉ locs2.map Location.id := (List.nodup_cons.mp hnd).1
          simp only [beq_iff_eq]
          intro he
          exact hid (he ▸ List.mem_map_of_mem Location.id hloc2)

theorem map_self_of {α : Type} (f : α → α) (l : List α)
    (h : ∀ x ∈ l, f x = x) : l.map f = l := by
  induction l with
  | nil => rfl
  | cons x xs ih =>
      rw [List.map_cons, h x (List.mem_cons_self _ _),
        ih (fun y hy => h y (List.mem_cons_of_mem _ hy))]

theorem formSequence_roundtrip (alpha : Alphabet) (tau : LetterSeq)
    (ht : tau.ltype = some alpha.ltype)
    (hl : ∀ x ∈ tau.letters, x.ltype = alpha.ltype) :
    alpha.formSequence ((tau.letters.map Letter.value).map alpha.makeLetter) =
      tau := by
  have hmap : (tau.letters.map Letter.value).map alpha.makeLetter =
      tau.letters := by
    rw [List.map_map]
    apply map_self_of
    intro x hx
    have hx2 := hl x hx
    cases x with
    | mk v t =>
        simp only [Function.comp_apply, Alphabet.makeLetter]
        simp at hx2
        rw [hx2]
  rw [hmap]
  unfold Alphabet.formSequence
  by_cases hnil : tau.letters = []
  · rw [if_pos hnil]
    apply seq_eq_of_parts
    · rw [hnil]; rfl
    · rw [ht]; rfl
  · rw [if_neg hnil]
    apply seq_eq_of_parts
    · rfl
    · obtain ⟨x, xs, hx⟩ := List.exists_cons_of_ne_nil hnil
      rw [show (mkSeq tau.letters).ltype = tau.letters.head?.map Letter.ltype
        from rfl]
      rw [hx]
      simp only [List.head?_cons, Option.map_some']
      rw [hl x (by rw [hx]; exact List.mem_cons_self _ _), ht]

theorem addTransition_id (l : Location) (t : Transition) :
    (l.addTransition t).id = l.id := by
  unfold Location.addTransition
  split <;> rfl

theorem findLoc_addTransition (A : RA) (t : Transition) (i : ℕ) :
    ((A.addTransition t).findLoc i).isSome = (A.findLoc i).isSome := by
  unfold RA.addTransition RA.findLoc
  simp only [List.find?_map]
  have hps : ((fun l : Location => l.id == i) ∘
      (fun l : Location => if l.id = t.source then l.addTransition t else l)) =
      (fun l : Location => l.id == i) := by
    funext x
    by_cases h : x.id = t.source
    · simp [Function.comp_apply, h, addTransition_id]
    · simp [Function.comp_apply, h]
  rw [hps]
  cases List.find? (fun l : Location => l.id == i) A.locations <;> rfl

theorem addTransition_alphabet (A : RA) (t : Transition) :
    (A.addTransition t).alphabet = A.alphabet := rfl

theorem parseTransLoop_emit (ts : List Transition) :
    ∀ (ra : RA),
      (∀ t ∈ ts, (ra.findLoc t.source).isSome = true ∧
        (ra.findLoc t.target).isSome = true) →
      (∀ t ∈ ts, t.tau.ltype = some ra.alphabet.ltype ∧
        ∀ x ∈ t.tau.letters, x.ltype = ra.alphabet.ltype) →
      parseTransLoop ra (ts.map transLineStripped) =
        some (ts.foldl RA.addTransition ra) := by
  induction ts with
  | nil => intro ra _ _; rfl
  | cons t ts2 ih =>
      intro ra hloc htau
      rw [List.map_cons, parseTransLoop]
      rw [show transLineStripped t =
        ((natToChars t.source ++ (' ' :: '-' :: '>' :: ' ' ::
          (natToChars t.target ++ [' ']))) ++
        ':' :: (' ' :: 't' :: 'a' :: 'u' :: '=' :: '[' ::
          (joinChar ',' (((t.tau.letters.map Letter.value)).map ratToChars) ++
            (']' :: ',' :: ' ' :: 'E' :: '=' :: eChars t.E)))) from rfl]
      rw [parseTransLine_emit ra.alphabet t.source t.target
        (t.tau.letters.map Letter.value) t.E]
      dsimp only
      have ht := htau t (List.mem_cons_self _ _)
      rw [formSequence_roundtrip ra.alphabet t.tau ht.1 ht.2]
      have hl := hloc t (List.mem_cons_self _ _)
      rw [if_pos (by rw [hl.1, hl.2]; rfl)]
      have heta : (⟨t.source, t.tau, t.E, t.target⟩ : Transition) = t := rfl
      rw [heta]
      rw [ih (ra.addTransition t)
        (fun t2 ht2 => by
          rw [findLoc_addTransition, findLoc_addTransition]
          exact hloc t2 (List.mem_cons_of_mem _ ht2))
        (fun t2 ht2 => by
          rw [addTransition_alphabet]
          exact htau t2 (List.mem_cons_of_mem _ ht2))]
      rfl

theorem foldl_addTransition_parts (ts : List Transition) :
    ∀ (ra : RA),
      (ts.foldl RA.addTransition ra).locations =
        ra.locations.map (fun l => ts.foldl
          (fun l2 t => if l2.id = t.source then l2.addTransition t else l2) l) ∧
      (ts.foldl RA.addTransition ra).initial = ra.initial ∧
      (ts.foldl RA.addTransition ra).alphabet = ra.alphabet := by
  induction ts with
  | nil =>
      intro ra
      refine ⟨?_, rfl, rfl⟩
      simp
  | cons t ts2 ih =>
      intro ra
      simp only [List.foldl_cons]
      rcases ih (ra.addTransition t) with ⟨h1, h2, h3⟩
      refine ⟨?_, h2, h3⟩
      rw [h1]
      unfold RA.addTransition
      rw [List.map_map]
      rfl

theorem foldl_step_other (l : Location) (ts : List Transition)
    (h : ∀ t ∈ ts, t.source ≠ l.id) :
    ts.foldl (fun l2 t => if l2.id = t.source then l2.addTransition t else l2) l =
      l := by
  induction ts with
  | nil => rfl
  | cons t ts2 ih =>
      rw [List.foldl_cons]
      rw [if_neg (fun he => h t (List.mem_cons_self _ _) he.symm)]
      exact ih (fun t2 ht2 => h t2 (List.mem_cons_of_mem _ ht2))

theorem foldl_step_own (lid : ℕ) (nm : List Char) (acc : Bool) :
    ∀ (ts done : List Transition), (done ++ ts).Nodup →
      (∀ t ∈ ts, t.source = lid) →
      ts.foldl (fun (l2 : Location) (t : Transition) =>
          if l2.id = t.source then l2.addTransition t else l2)
        (⟨lid, nm, acc, done⟩ : Location) =
        (⟨lid, nm, acc, done ++ ts⟩ : Location) := by
  intro ts
  induction ts with
  | nil => intro done _ _; simp
  | cons t ts2 ih =>
      intro done hnd hsrc
      rw [List.foldl_cons]
      rw [if_pos (hsrc t (List.mem_cons_self _ _)).symm]
      have hmem : t ∉ done := by
        intro hm
        rcases List.nodup_append.mp hnd with ⟨-, -, hdisj⟩
        exact hdisj hm (List.mem_cons_self _ _)
      have hadd : Location.addTransition ⟨lid, nm, acc, done⟩ t =
          ⟨lid, nm, acc, done ++ [t]⟩ := by
        unfold Location.addTransition
        rw [if_neg hmem]
      rw [hadd]
      have hnd2 : ((done ++ [t]) ++ ts2).Nodup := by
        have : (done ++ [t]) ++ ts2 = done ++ t :: ts2 := by simp
        rw [this]
        exact hnd
      rw [ih (done ++ [t]) hnd2 (fun t2 ht2 => hsrc t2 (List.mem_cons_of_mem _ ht2))]
      simp

theorem fold_flatten_single (loc : Location) :
    ∀ (locs : List Location), loc ∈ locs →
      (locs.map Location.id).Nodup →
      (∀ loc2 ∈ locs, ∀ t ∈ loc2.transitions, t.source = loc2.id) →
      (∀ loc2 ∈ locs, loc2.transitions.Nodup) →
      ((locs.map Location.transitions).flatten).foldl
        (fun l2 t => if l2.id = t.source then l2.addTransition t else l2)
        ⟨loc.id, loc.name, loc.accepting, []⟩ = loc := by
  intro locs
  induction locs with
  | nil => intro hmem; cases hmem
  | cons loc1 rest ih =>
      intro hmem hnd hsrc hndt
      rw [List.map_cons] at hnd
      rw [List.map_cons, List.flatten_cons, List.foldl_append]
      rcases List.mem_cons.mp hmem with hm | hm
      · subst hm
        rw [foldl_step_own loc.id loc.name loc.accepting loc.transitions []
          (by simpa using hndt loc (List.mem_cons_self _ _))
          (hsrc loc (List.mem_cons_self _ _))]
        simp only [List.nil_append]
        have hother : ∀ t ∈ (List.map Location.transitions rest).flatten,
            t.source ≠
              (⟨loc.id, loc.name, loc.accepting, loc.transitions⟩ :
                Location).id := by
          intro t ht
          rcases List.mem_flatten.mp ht with ⟨ch, hch, htch⟩
          rcases List.mem_map.mp hch with ⟨loc2, hloc2, hc⟩
          rw [← hc] at htch
          rw [hsrc loc2 (List.mem_cons_of_mem _ hloc2) t htch]
          have hid : loc.id ∉ rest.map Location.id := (List.nodup_cons.mp hnd).1
          intro he
          exact hid (he ▸ List.mem_map_of_mem Location.id hloc2)
        rw [foldl_step_other _ _ hother]
      · have hother : ∀ t ∈ loc1.transitions,
            t.source ≠
              (⟨loc.id, loc.name, loc.accepting, ([] : List Transition)⟩ :
                Location).id := by
          intro t ht
          rw [hsrc loc1 (List.mem_cons_self _ _) t ht]
          have hid : loc1.id ∉ rest.map Location.id := (List.nodup_cons.mp hnd).1
          intro he
          apply hid
          rw [he]
          exact (show loc.id ∈ rest.map Location.id from
            List.mem_map_of_mem Location.id hm)
        rw [foldl_step_other _ _ hother]
        exact ih hm (List.nodup_cons.mp hnd).2
          (fun l2 hl2 => hsrc l2 (List.mem_cons_of_mem _ hl2))
          (fun l2 hl2 => hndt l2 (List.mem_cons_of_mem _ hl2))

theorem boolChars_ne_nil (b : Bool) : boolChars b ≠ [] := by
  cases b <;> simp [boolChars]

theorem boolChars_getLast (b : Bool) : (boolChars b).getLast? = some 'e' := by
  cases b <;> rfl

theorem stripChars_leading (pre body : List Char)
    (hpre : ∀ c ∈ pre, isSpaceC c = true)
    (hh : ∀ c, body.head? = some c → isSpaceC c = false)
    (hl : ∀ c, body.getLast? = some c → isSpaceC c = false) :
    stripChars (pre ++ body) = body := by
  have h := stripChars_wrap pre body [] hpre (by intro c hc; cases hc) hh hl
  simpa using h

theorem nl_not_mem_ltypeChars (t : LType) : '\n' ∉ ltypeChars t := by
  cases t <;> decide

theorem nl_not_mem_cmpChars (c : Cmp) : '\n' ∉ cmpChars c := by
  cases c <;> decide

theorem nl_not_mem_boolChars (b : Bool) : '\n' ∉ boolChars b := by
  cases b <;> decide

theorem nl_not_mem_initialChars (o : Option ℕ) : '\n' ∉ initialChars o := by
  rcases o with _ | i
  · decide
  · intro hm
    exact absurd (natToChars_all_digit i '\n' hm) (by decide)

theorem nl_not_mem_eChars (E : Finset ℕ) : '\n' ∉ eChars E := by
  intro hm
  exact absurd (eChars_sub E '\n' hm) (by decide)

theorem nl_not_mem_locLine (loc : Location)
    (hname : ∀ c ∈ loc.name, isLineBreakC c = false) : '\n' ∉ locLine loc := by
  intro hm
  unfold locLine at hm
  rcases List.mem_append.mp hm with h | h
  · rcases List.mem_append.mp h with h | h
    · rcases List.mem_append.mp h with h | h
      · rcases List.mem_cons.mp h with h | h
        · exact absurd h (by decide)
        rcases List.mem_cons.mp h with h | h
        · exact absurd h (by decide)
        · exact absurd (natToChars_all_digit _ '\n' h) (by decide)
      · rcases List.mem_cons.mp h with h | h
        · exact absurd h (by decide)
        rcases List.mem_cons.mp h with h | h
        · exact absurd h (by decide)
        · exact absurd (hname '\n' h) (by decide)
    · rcases List.mem_cons.mp h with h | h
      · exact absurd h (by decide)
      rcases List.mem_cons.mp h with h | h
      · exact absurd h (by decide)
      · exact absurd h (by decide)
  · exact nl_not_mem_boolChars loc.accepting h

theorem nl_not_mem_transLine (t : Transition) : '\n' ∉ transLine t := by
  intro hm
  unfold transLine at hm
  rcases List.mem_append.mp hm with h | h
  · rcases List.mem_append.mp h with h | h
    · rcases List.mem_append.mp h with h | h
      · rcases List.mem_append.mp h with h | h
        · rcases List.mem_append.mp h with h | h
          · rcases List.mem_append.mp h with h | h
            · rcases List.mem_cons.mp h with h | h
              · exact absurd h (by decide)
              rcases List.mem_cons.mp h with h | h
              · exact absurd h (by decide)
              · exact absurd (natToChars_all_digit _ '\n' h) (by decide)
            · exact absurd h (by decide)
          · exact absurd (natToChars_all_digit _ '\n' h) (by decide)
        · exact absurd h (by decide)
      · have hmap : t.tau.letters.map (fun l => ratToChars l.value) =
            (t.tau.letters.map Letter.value).map ratToChars := by
          rw [List.map_map]
          rfl
        rw [hmap] at h
        rcases mem_joinChar ',' _ '\n' h with h4 | h4
        · exact absurd h4 (by decide)
        · rcases h4 with ⟨l, hl, hcl⟩
          rcases List.mem_map.mp hl with ⟨v, _, hv⟩
          rw [← hv] at hcl
          rcases ratToChars_sub v '\n' hcl with h5 | h5 | h5
          · exact absurd h5 (by decide)
          · exact absurd h5 (by decide)
          · exact absurd h5 (by decide)
    · exact absurd h (by decide)
  · exact nl_not_mem_eChars t.E h

theorem map_congr_mem {α β : Type} (f g : α → β) (l : List α)
    (h : ∀ x ∈ l, f x = g x) : l.map f = l.map g := by
  induction l with
  | nil => rfl
  | cons x xs ih =>
      rw [List.map_cons, List.map_cons, h x (List.mem_cons_self _ _),
        ih (fun y hy => h y (List.mem_cons_of_mem _ hy))]

theorem cmpChars_ne_nil (c : Cmp) : cmpChars c ≠ [] := by
  cases c <;> simp [cmpChars]

theorem cmpChars_last_nonspace (c : Cmp) :
    ∀ x, (cmpChars c).getLast? = some x → isSpaceC x = false := by
  cases c <;> (intro x hx; rw [← Option.some.inj hx]; rfl)

theorem initialChars_ne_nil (o : Option ℕ) : initialChars o ≠ [] := by
  rcases o with _ | i
  · simp [initialChars]
  · exact natToChars_ne_nil i

theorem initialChars_last_nonspace (o : Option ℕ) :
    ∀ x, (initialChars o).getLast? = some x → isSpaceC x = false := by
  rcases o with _ | i
  · intro x hx; rw [← Option.some.inj hx]; rfl
  · exact last_digit_not_space _ (natToChars_all_digit i)

theorem strip_alphaLine (a : Alphabet) :
    stripChars (("alphabet: ".toList) ++ ltypeChars a.ltype ++ (", ".toList) ++
      cmpChars a.cmp) =
    ("alphabet: ".toList) ++ ltypeChars a.ltype ++ (", ".toList) ++
      cmpChars a.cmp := by
  apply stripChars_eq_self
  · intro c hc
    rw [← Option.some.inj hc]
    rfl
  · intro c hc
    rw [List.getLast?_append_of_ne_nil _ (cmpChars_ne_nil a.cmp)] at hc
    exact cmpChars_last_nonspace a.cmp c hc

theorem strip_initLine (o : Option ℕ) :
    stripChars (("initial: ".toList) ++ initialChars o) =
      ("initial: ".toList) ++ initialChars o := by
  apply stripChars_eq_self
  · intro c hc
    rw [← Option.some.inj hc]
    rfl
  · intro c hc
    rw [List.getLast?_append_of_ne_nil _ (initialChars_ne_nil o)] at hc
    exact initialChars_last_nonspace o c hc

theorem hash_prefix_false_of_head (l : List Char) (c : Char)
    (hc : l.head? = some c) (hne : c ≠ '#') :
    List.isPrefixOf ['#'] l = false := by
  cases l with
  | nil => cases hc
  | cons a l2 =>
      have ha : a = c := Option.some.inj hc
      subst ha
      simp [List.isPrefixOf, beq_eq_false_iff_ne.mpr (Ne.symm hne)]

theorem locLineStripped_head_digit (loc : Location) :
    ∀ c, (locLineStripped loc).head? = some c → isDigitC c = true := by
  intro c hc
  unfold locLineStripped at hc
  rw [head?_append_left _ _ (natToChars_ne_nil loc.id)] at hc
  apply natToChars_all_digit loc.id
  cases hl : natToChars loc.id with
  | nil => exact absurd hl (natToChars_ne_nil loc.id)
  | cons a l2 =>
      rw [hl] at hc
      rw [← Option.some.inj hc]
      exact List.mem_cons_self _ _

theorem strip_locLine (loc : Location) :
    stripChars (locLine loc) = locLineStripped loc := by
  have heq : locLine loc = [' ', ' '] ++ locLineStripped loc := by
    simp [locLine, locLineStripped, List.append_assoc, List.cons_append]
  rw [heq]
  apply stripChars_leading
  · intro c hc
    rcases List.mem_cons.mp hc with h | h
    · rw [h]; rfl
    · rcases List.mem_singleton.mp h with rfl; rfl
  · intro c hc
    exact isSpaceC_false_of_digit c (locLineStripped_head_digit loc c hc)
  · intro c hc
    have heq2 : locLineStripped loc =
        (natToChars loc.id ++ (' ' :: '\x22' :: (loc.name ++ ('\x22' :: ' ' ::
          (("accepting=".toList)))))) ++ boolChars loc.accepting := by
      simp [locLineStripped, List.append_assoc, List.cons_append]
    rw [heq2, List.getLast?_append_of_ne_nil _ (boolChars_ne_nil loc.accepting),
      boolChars_getLast] at hc
    rw [← Option.some.inj hc]
    rfl

theorem transLineStripped_head_digit (t : Transition) :
    ∀ c, (transLineStripped t).head? = some c → isDigitC c = true := by
  intro c hc
  unfold transLineStripped at hc
  rw [head?_append_left _ _ (by
    intro h
    exact natToChars_ne_nil t.source (List.append_eq_nil.mp h).1)] at hc
  rw [head?_append_left _ _ (natToChars_ne_nil t.source)] at hc
  apply natToChars_all_digit t.source
  cases hl : natToChars t.source with
  | nil => exact absurd hl (natToChars_ne_nil t.source)
  | cons a l2 =>
      rw [hl] at hc
      rw [← Option.some.inj hc]
      exact List.mem_cons_self _ _

theorem strip_transLine (t : Transition) :
    stripChars (transLine t) = transLineStripped t := by
  have heq : transLine t = [' ', ' '] ++ transLineStripped t := by
    simp [transLine, transLineStripped, List.append_assoc, List.cons_append,
      List.map_map]
    rfl
  rw [heq]
  apply stripChars_leading
  · intro c hc
    rcases List.mem_cons.mp hc with h | h
    · rw [h]; rfl
    · rcases List.mem_singleton.mp h with rfl; rfl
  · intro c hc
    exact isSpaceC_false_of_digit c (transLineStripped_head_digit t c hc)
  · intro c hc
    have heq2 : transLineStripped t =
        ((natToChars t.source ++ (' ' :: '-' :: '>' :: ' ' ::
          (natToChars t.target ++ [' ']))) ++
        ':' :: (' ' :: 't' :: 'a' :: 'u' :: '=' :: '[' ::
          (joinChar ',' ((t.tau.letters.map Letter.value).map ratToChars) ++
            (']' :: ',' :: ' ' :: 'E' :: '=' :: [])))) ++ eChars t.E := by
      simp [transLineStripped, List.append_assoc, List.cons_append]
    rw [heq2, List.getLast?_append_of_ne_nil _ (eChars_ne_nil t.E),
      eChars_getLast] at hc
    rw [← Option.some.inj hc]
    rfl

theorem nl_not_mem_alphaLine (a : Alphabet) :
    '\n' ∉ (("alphabet: ".toList) ++ ltypeChars a.ltype ++ (", ".toList) ++
      cmpChars a.cmp) := by
  intro hm
  rcases List.mem_append.mp hm with h | h
  · rcases List.mem_append.mp h with h | h
    · rcases List.mem_append.mp h with h | h
      · exact absurd h (by decide)
      · exact absurd h (nl_not_mem_ltypeChars a.ltype)
    · exact absurd h (by decide)
  · exact absurd h (nl_not_mem_cmpChars a.cmp)

theorem nl_not_mem_initLine (o : Option ℕ) :
    '\n' ∉ (("initial: ".toList) ++ initialChars o) := by
  intro hm
  rcases List.mem_append.mp hm with h | h
  · exact absurd h (by decide)
  · exact absurd h (nl_not_mem_initialChars o)

theorem join_toTextLines (h0 a1 a2 a3 : List Char) (locLines : List (List Char))
    (T : List Char) (transLines : List (List Char)) :
    joinChar '\n' (h0 :: a1 :: a2 :: a3 ::
        (locLines ++ ('\n' :: T) :: transLines)) =
      joinChar '\n' ((h0 :: a1 :: a2 :: a3 :: locLines) ++
        ([] : List Char) :: T :: transLines) := by
  have h1 : h0 :: a1 :: a2 :: a3 :: (locLines ++ ('\n' :: T) :: transLines) =
      (h0 :: a1 :: a2 :: a3 :: locLines) ++
        (([] : List Char) ++ '\n' :: T) :: transLines := by
    simp
  rw [h1, joinChar_split_elem]

theorem ne_nil_of_head_some (l : List Char) (c : Char) (h : l.head? = some c) :
    l ≠ [] := by
  intro he
  rw [he] at h
  cases h

theorem locLineStripped_ne_nil (loc : Location) : locLineStripped loc ≠ [] := by
  unfold locLineStripped
  intro h
  exact natToChars_ne_nil loc.id (List.append_eq_nil.mp h).1

theorem transLineStripped_ne_nil (t : Transition) : transLineStripped t ≠ [] := by
  unfold transLineStripped
  intro h
  exact absurd (List.append_eq_nil.mp h).2 (by simp)

theorem preprocess_toText (A : RA)
    (hname : ∀ loc ∈ A.locations, ∀ c ∈ loc.name, isLineBreakC c = false) :
    preprocessLines (toText A) =
      (("alphabet: ".toList) ++ ltypeChars A.alphabet.ltype ++ (", ".toList) ++
        cmpChars A.alphabet.cmp) ::
      (("initial: ".toList) ++ initialChars A.initial) ::
      ("locations:".toList) ::
      (A.locations.map locLineStripped ++
        ("transitions:".toList) ::
          (A.locations.map
            (fun loc => loc.transitions.map transLineStripped)).flatten) := by
  have hmem : ∀ l ∈ (("# Register Automaton".toList) ::
      (("alphabet: ".toList) ++ ltypeChars A.alphabet.ltype ++ (", ".toList) ++
        cmpChars A.alphabet.cmp) ::
      (("initial: ".toList) ++ initialChars A.initial) ::
      ("locations:".toList) :: A.locations.map locLine) ++
      ([] : List Char) :: ("transitions:".toList) ::
        (A.locations.map (fun loc => loc.transitions.map transLine)).flatten,
      '\n' ∉ l := by
    intro l hl
    simp only [List.mem_append, List.mem_cons] at hl
    rcases hl with (rfl | rfl | rfl | rfl | h) | (rfl | rfl | h)
    · decide
    · exact nl_not_mem_alphaLine A.alphabet
    · exact nl_not_mem_initLine A.initial
    · decide
    · obtain ⟨loc, hloc, rfl⟩ := List.mem_map.mp h
      exact nl_not_mem_locLine loc (hname loc hloc)
    · exact List.not_mem_nil _
    · decide
    · obtain ⟨chunk, hch, hlch⟩ := List.mem_flatten.mp h
      obtain ⟨loc, hloc, rfl⟩ := List.mem_map.mp hch
      obtain ⟨t, ht, rfl⟩ := List.mem_map.mp hlch
      exact nl_not_mem_transLine t
  have hsplit := split_join '\n' _ (by simp) hmem
  have pHdr : (!(stripChars ("# Register Automaton".toList)).isEmpty &&
      !(List.isPrefixOf ['#'] ("# Register Automaton".toList))) = false := by
    decide
  have pAlpha : (!(("alphabet: ".toList) ++
        ltypeChars A.alphabet.ltype ++ (", ".toList) ++
        cmpChars A.alphabet.cmp).isEmpty &&
      !(List.isPrefixOf ['#'] (("alphabet: ".toList) ++
        ltypeChars A.alphabet.ltype ++ (", ".toList) ++
        cmpChars A.alphabet.cmp))) = true := by
    rw [hash_prefix_false_of_head _ 'a' (by rfl) (by decide),
      isEmpty_false_of_ne_nil _ (ne_nil_of_head_some _ 'a' (by rfl))]
    decide
  have pInit : (!(("initial: ".toList) ++
        initialChars A.initial).isEmpty &&
      !(List.isPrefixOf ['#'] (("initial: ".toList) ++
        initialChars A.initial))) = true := by
    rw [hash_prefix_false_of_head _ 'i' (by rfl) (by decide),
      isEmpty_false_of_ne_nil _ (ne_nil_of_head_some _ 'i' (by rfl))]
    decide
  have pLocHdr : (!("locations:".toList).isEmpty &&
      !(List.isPrefixOf ['#'] ("locations:".toList))) = true := by decide
  have pNil : (!(stripChars ([] : List Char)).isEmpty &&
      !(List.isPrefixOf ['#'] ([] : List Char))) = false := by decide
  have pTrans : (!("transitions:".toList).isEmpty &&
      !(List.isPrefixOf ['#'] ("transitions:".toList))) = true := by decide
  have hfloc : (A.locations.map locLine).filter
      (fun ln => !(stripChars ln).isEmpty && !(List.isPrefixOf ['#'] ln)) =
      A.locations.map locLine := by
    apply List.filter_eq_self.mpr
    intro l hl
    obtain ⟨loc, hloc, rfl⟩ := List.mem_map.mp hl
    show (!(stripChars (locLine loc)).isEmpty &&
      !(List.isPrefixOf ['#'] (locLine loc))) = true
    rw [strip_locLine,
      hash_prefix_false_of_head _ ' ' (by rfl) (by decide),
      isEmpty_false_of_ne_nil _ (locLineStripped_ne_nil loc)]
    decide
  have hftr : ((A.locations.map
        (fun loc => loc.transitions.map transLine)).flatten).filter
      (fun ln => !(stripChars ln).isEmpty && !(List.isPrefixOf ['#'] ln)) =
      (A.locations.map (fun loc => loc.transitions.map transLine)).flatten := by
    apply List.filter_eq_self.mpr
    intro l hl
    obtain ⟨chunk, hch, hlch⟩ := List.mem_flatten.mp hl
    obtain ⟨loc, hloc, rfl⟩ := List.mem_map.mp hch
    obtain ⟨t, ht, rfl⟩ := List.mem_map.mp hlch
    show (!(stripChars (transLine t)).isEmpty &&
      !(List.isPrefixOf ['#'] (transLine t))) = true
    rw [strip_transLine,
      hash_prefix_false_of_head _ ' ' (by rfl) (by decide),
      isEmpty_false_of_ne_nil _ (transLineStripped_ne_nil t)]
    decide
  have hmloc : (A.locations.map locLine).map stripChars =
      A.locations.map locLineStripped := by
    rw [List.map_map]
    exact map_congr_mem _ _ _ (fun loc _ => strip_locLine loc)
  have hmtr : ((A.locations.map
        (fun loc => loc.transitions.map transLine)).flatten).map stripChars =
      (A.locations.map
        (fun loc => loc.transitions.map transLineStripped)).flatten := by
    rw [List.map_flatten, List.map_map]
    apply congrArg List.flatten
    apply map_congr_mem
    intro loc _
    show (loc.transitions.map transLine).map stripChars =
      loc.transitions.map transLineStripped
    rw [List.map_map]
    exact map_congr_mem _ _ _ (fun t _ => strip_transLine t)
  have ifT : ∀ (a b : List (List Char)), (if (true = true) then a else b) = a :=
    fun a b => if_pos rfl
  have ifF : ∀ (a b : List (List Char)),
      (if (false = true) then a else b) = b :=
    fun a b => if_neg (by decide)
  have sLoc : stripChars ("locations:".toList) = ("locations:".toList) := rfl
  have sTrans : stripChars ("transitions:".toList) =
    ("transitions:".toList) := rfl
  unfold preprocessLines toText toTextLines
  rw [join_toTextLines, hsplit]
  simp only [List.filter_append, List.filter_cons, pHdr, pAlpha, pInit,
    pLocHdr, pNil, pTrans, ifT, ifF, if_true, if_false, hfloc, hftr,
    List.map_append,
    List.map_cons, hmloc, hmtr, strip_alphaLine, strip_initLine, sLoc, sTrans,
    List.cons_append, List.nil_append]

theorem RA.ext_parts (X Y : RA) (h1 : X.locations = Y.locations)
    (h2 : X.initial = Y.initial) (h3 : X.alphabet = Y.alphabet) : X = Y := by
  cases X
  cases Y
  cases h1
  cases h2
  cases h3
  rfl

/-- C7 (amended): on any automaton whose printed form is parseable —
initial location set and present, distinct location ids, nonempty
quote-free line-break-free names, transitions recorded at their source
with existing targets, no duplicate transitions, and letters typed by the
automaton's own alphabet — `from_text` recovers exactly the automaton
`to_text` printed. -/
theorem to_text_round_trip (A : RA) (i0 : ℕ)
    (hinit : A.initial = some i0)
    (hi0 : ∃ loc ∈ A.locations, loc.id = i0)
    (hnd : (A.locations.map Location.id).Nodup)
    (hname : ∀ loc ∈ A.locations,
      loc.name ≠ [] ∧ '\x22' ∉ loc.name ∧
        ∀ c ∈ loc.name, isLineBreakC c = false)
    (hsrc : ∀ loc ∈ A.locations, ∀ t ∈ loc.transitions, t.source = loc.id)
    (htgt : ∀ loc ∈ A.locations, ∀ t ∈ loc.transitions,
      ∃ loc2 ∈ A.locations, loc2.id = t.target)
    (hndt : ∀ loc ∈ A.locations, loc.transitions.Nodup)
    (htau : ∀ loc ∈ A.locations, ∀ t ∈ loc.transitions,
      t.tau.ltype = some A.alphabet.ltype ∧
        ∀ x ∈ t.tau.letters, x.ltype = A.alphabet.ltype) :
    fromText (toText A) = some A := by
  unfold fromText
  rw [preprocess_toText A (fun loc hl => (hname loc hl).2.2)]
  unfold fromLines
  dsimp only
  rw [parseAlphaLine_emit A.alphabet]
  dsimp only
  rw [hinit, show initialChars (some i0) = natToChars i0 from rfl,
    parseInitLine_emit i0]
  dsimp only
  rw [if_pos rfl]
  rw [parseLocLoop_emit A.locations ⟨[], none, A.alphabet⟩
    (("transitions:".toList) ::
      (A.locations.map
        (fun loc => loc.transitions.map transLineStripped)).flatten)
    (fun l0 h => by rw [← Option.some.inj h]; decide)
    (fun loc _ => rfl)
    hnd
    (fun loc hl => ⟨(hname loc hl).1, (hname loc hl).2.1⟩)]
  dsimp only
  have hfind : ((⟨([] : List Location) ++ A.locations.map
      (fun loc => ⟨loc.id, loc.name, loc.accepting, []⟩), none,
      A.alphabet⟩ : RA).findLoc i0).isSome = true := by
    unfold RA.findLoc
    rw [List.find?_isSome]
    obtain ⟨loc, hmem, hid⟩ := hi0
    exact ⟨⟨loc.id, loc.name, loc.accepting, []⟩,
      List.mem_map_of_mem _ hmem, by simp [hid]⟩
  rw [if_pos hfind]
  rw [if_pos rfl]
  have hflat : (A.locations.map
      (fun loc => loc.transitions.map transLineStripped)).flatten =
      ((A.locations.map Location.transitions).flatten).map
        transLineStripped := by
    rw [List.map_flatten, List.map_map]
    rfl
  rw [hflat]
  have hloc3 : ∀ t ∈ (A.locations.map Location.transitions).flatten,
      ((⟨A.locations.map (fun loc => ⟨loc.id, loc.name, loc.accepting, []⟩),
        some i0, A.alphabet⟩ : RA).findLoc t.source).isSome = true ∧
      ((⟨A.locations.map (fun loc => ⟨loc.id, loc.name, loc.accepting, []⟩),
        some i0, A.alphabet⟩ : RA).findLoc t.target).isSome = true := by
    intro t ht
    obtain ⟨chunk, hch, htch⟩ := List.mem_flatten.mp ht
    obtain ⟨loc, hloc, rfl⟩ := List.mem_map.mp hch
    constructor
    · unfold RA.findLoc
      rw [List.find?_isSome]
      exact ⟨⟨loc.id, loc.name, loc.accepting, []⟩,
        List.mem_map_of_mem _ hloc, by simp [hsrc loc hloc t htch]⟩
    · obtain ⟨loc2, hloc2, hid2⟩ := htgt loc hloc t htch
      unfold RA.findLoc
      rw [List.find?_isSome]
      exact ⟨⟨loc2.id, loc2.name, loc2.accepting, []⟩,
        List.mem_map_of_mem _ hloc2, by simp [hid2]⟩
  have htau3 : ∀ t ∈ (A.locations.map Location.transitions).flatten,
      t.tau.ltype = some (A.alphabet.ltype) ∧
        ∀ x ∈ t.tau.letters, x.ltype = A.alphabet.ltype := by
    intro t ht
    obtain ⟨chunk, hch, htch⟩ := List.mem_flatten.mp ht
    obtain ⟨loc, hloc, rfl⟩ := List.mem_map.mp hch
    exact htau loc hloc t htch
  have hfold : (((A.locations.map Location.transitions).flatten).foldl
      RA.addTransition
      (⟨A.locations.map (fun loc => ⟨loc.id, loc.name, loc.accepting, []⟩),
        some i0, A.alphabet⟩ : RA)) = A := by
    rcases foldl_addTransition_parts
      ((A.locations.map Location.transitions).flatten)
      (⟨A.locations.map (fun loc => ⟨loc.id, loc.name, loc.accepting, []⟩),
        some i0, A.alphabet⟩ : RA) with ⟨hL, hI, hAl⟩
    apply RA.ext_parts
    · rw [hL]
      dsimp only
      rw [List.map_map]
      apply map_self_of
      intro loc hloc
      exact fold_flatten_single loc A.locations hloc hnd hsrc hndt
    · rw [hI]
      exact hinit.symm
    · rw [hAl]
  exact (parseTransLoop_emit _ _ hloc3 htau3).trans (congrArg some hfold)

/-- Witness for the amended C7 theorem on a concrete two-location
automaton with one transition. -/
theorem to_text_round_trip_witness :
    wA7.initial = some 0 ∧ (∃ loc ∈ wA7.locations, loc.id = 0) ∧
      fromText (toText wA7) = some wA7 :=
  ⟨rfl, by decide,
    to_text_round_trip wA7 0 rfl (by decide) (by decide) (by decide)
      (by decide) (by decide) (by decide) (by decide)⟩

/-- C6: idempotence is refuted: normalisation succeeds on `cexA6`, whose
location 1 keeps only the canonical self-loop (its other transition goes
to the rejecting sink 2), so in the output location 1 is itself a
rejecting sink; a second normalisation skips it and strips its self-loop,
giving a structurally different automaton. -/
theorem normalised_idempotent_claim_false :
    (RA.getNormalisedDra cexA6).isSome = true ∧
      (RA.getNormalisedDra cexA6).bind RA.getNormalisedDra ≠
        RA.getNormalisedDra cexA6 := by
  decide

theorem addTransition_loc_id (l : Location) (t : Transition) :
    (l.addTransition t).id = l.id := by
  unfold Location.addTransition
  by_cases h : t ∈ l.transitions
  · rw [if_pos h]
  · rw [if_neg h]

theorem filter_map_untouched (s : ℕ) (f : Location → Location)
    (hid : ∀ l, (f l).id = l.id)
    (hfix : ∀ l, l.id = s → f l = l) :
    ∀ L : List Location,
      (L.map f).filter (fun l => l.id == s) = L.filter (fun l => l.id == s) := by
  intro L
  induction L with
  | nil => rfl
  | cons l L2 ih =>
      rw [List.map_cons, List.filter_cons, List.filter_cons, hid l]
      by_cases h : l.id = s
      · simp only [h, beq_self_eq_true, if_true, hfix l h, ih]
      · have hb : (l.id == s) = false := beq_eq_false_iff_ne.mpr h
        simp only [hb, Bool.false_eq_true, if_false, ih]

theorem filter_id_addTransition (ra : RA) (t : Transition) (s : ℕ)
    (h : t.source ≠ s) :
    ((ra.addTransition t).locations.filter (fun l => l.id == s)) =
      ra.locations.filter (fun l => l.id == s) := by
  unfold RA.addTransition
  apply filter_map_untouched
  · intro l
    by_cases hl : l.id = t.source
    · rw [if_pos hl, addTransition_loc_id]
    · rw [if_neg hl]
  · intro l hl
    rw [if_neg (fun he => h (by rw [← he, hl]))]

theorem filter_id_locAdd (ra : RA) (i : ℕ) (t : Transition) (s : ℕ)
    (h : i ≠ s) :
    ((ra.locAdd i t).locations.filter (fun l => l.id == s)) =
      ra.locations.filter (fun l => l.id == s) := by
  unfold RA.locAdd
  apply filter_map_untouched
  · intro l
    by_cases hl : l.id = i
    · rw [if_pos hl, addTransition_loc_id]
    · rw [if_neg hl]
  · intro l hl
    rw [if_neg (fun he => h (by rw [← he, hl]))]

theorem normLoop_filter (alpha : Alphabet) (sinks : List ℕ) (s : ℕ)
    (ts : List Transition) (hs : ∀ t ∈ ts, t.source ≠ s) :
    ∀ ra origU used ra2 origU2 used2,
      normLoop alpha sinks ra origU used ts = some (ra2, origU2, used2) →
      (ra2.locations.filter (fun l => l.id == s)) =
        ra.locations.filter (fun l => l.id == s) := by
  induction ts with
  | nil =>
      intro ra origU used ra2 origU2 used2 h
      rw [normLoop.eq_def] at h
      dsimp only at h
      cases h
      rfl
  | cons t rest ih =>
      intro ra origU used ra2 origU2 used2 h
      rw [normLoop.eq_def] at h
      dsimp only at h
      by_cases h1 : t.tau.letters.length = 0
      · rw [if_pos h1] at h
        cases h
      · rw [if_neg h1] at h
        by_cases h2 : t.target ∈ sinks
        · rw [if_pos h2] at h
          exact ih (fun x hx => hs x (List.mem_cons_of_mem _ hx))
            ra origU used ra2 origU2 used2 h
        · rw [if_neg h2] at h
          have hsrc := hs t (List.mem_cons_self _ _)
          cases hu : resolveU alpha origU
              (seqPrefix t.tau (t.tau.letters.length - 1)) with
          | none =>
              rw [hu] at h
              cases h
          | some u0 =>
              rw [hu] at h
              dsimp only at h
              by_cases h3 : ((ra.findLoc t.source).isSome &&
                  (ra.findLoc t.target).isSome) = true
              · rw [if_pos h3] at h
                have := ih (fun x hx => hs x (List.mem_cons_of_mem _ hx))
                  _ _ _ _ _ _ h
                rw [this, filter_id_addTransition]
                exact hsrc
              · rw [if_neg h3] at h
                cases h

theorem normLocs_filter (alpha : Alphabet) (sinks : List ℕ) (s : ℕ)
    (hins : s ∈ sinks) (locs : List Location)
    (hsrc : ∀ loc ∈ locs, ∀ t ∈ loc.transitions, t.source = loc.id) :
    ∀ ra mm cm ra2 mm2 cm2,
      normLocs alpha sinks ra mm cm locs = some (ra2, mm2, cm2) →
      ((ra2.locations.filter (fun l => l.id == s)) =
        ra.locations.filter (fun l => l.id == s)) ∧
      (∀ p ∈ mm2, p ∈ mm ∨ p.1 ∉ sinks) := by
  induction locs with
  | nil =>
      intro ra mm cm ra2 mm2 cm2 h
      rw [normLocs.eq_def] at h
      dsimp only at h
      cases h
      exact ⟨rfl, fun p hp => Or.inl hp⟩
  | cons loc rest ih =>
      intro ra mm cm ra2 mm2 cm2 h
      rw [normLocs.eq_def] at h
      dsimp only at h
      by_cases h1 : loc.id ∈ sinks
      · rw [if_pos h1] at h
        exact ih (fun x hx => hsrc x (List.mem_cons_of_mem _ hx))
          ra mm cm ra2 mm2 cm2 h
      · rw [if_neg h1] at h
        cases hl : normLoop alpha sinks ra none [] loc.transitions with
        | none =>
            rw [hl] at h
            cases h
        | some r =>
            rw [hl] at h
            rcases r with ⟨raM, origU, used⟩
            dsimp only at h
            cases origU with
        | none => cases h
        | some u0 =>
            dsimp only at h
            have hfil := normLoop_filter alpha sinks s loc.transitions
              (fun x hx => by
                rw [hsrc loc (List.mem_cons_self _ _) x hx]
                intro he
                exact h1 (he ▸ hins))
              ra none [] raM (some u0) used hl
            rcases ih (fun x hx => hsrc x (List.mem_cons_of_mem _ hx))
              _ _ _ _ _ _ h with ⟨h2, h3⟩
            refine ⟨h2.trans hfil, fun p hp => ?_⟩
            rcases h3 p hp with hp2 | hp2
            · by_cases hmiss : (((getLetterExtension (mkCanonU alpha u0)
                  alpha.cmp).letters.dedup).filter
                    (fun a => !(used.contains a))).isEmpty = true
              · rw [if_pos hmiss] at hp2
                exact Or.inl hp2
              · rw [if_neg hmiss] at hp2
                rcases List.mem_append.mp hp2 with hp3 | hp3
                · exact Or.inl hp3
                · rcases List.mem_singleton.mp hp3 with rfl
                  exact Or.inr h1
            · exact Or.inr hp2

theorem foldl_locAdd_filter (s i : ℕ) (h : i ≠ s)
    (f : Letter → Transition) (ms : List Letter) :
    ∀ ra : RA,
      (((ms.foldl (fun r a => RA.locAdd r i (f a)) ra)).locations.filter
        (fun l => l.id == s)) =
        ra.locations.filter (fun l => l.id == s) := by
  induction ms with
  | nil => intro ra; rfl
  | cons a ms2 ih =>
      intro ra
      rw [List.foldl_cons, ih, filter_id_locAdd _ _ _ _ h]

theorem addSinkTrans_filter (sinkId : ℕ) (cm : List (ℕ × LetterSeq)) (s : ℕ)
    (mm : List (ℕ × List Letter)) (hmm : ∀ p ∈ mm, p.1 ≠ s) :
    ∀ ra, (((addSinkTrans sinkId cm ra mm)).locations.filter
        (fun l => l.id == s)) =
      ra.locations.filter (fun l => l.id == s) := by
  induction mm with
  | nil => intro ra; rfl
  | cons p rest ih =>
      intro ra
      rcases p with ⟨i, ms⟩
      rw [addSinkTrans]
      rw [ih (fun q hq => hmm q (List.mem_cons_of_mem _ hq))]
      exact foldl_locAdd_filter s i (hmm ⟨i, ms⟩ (List.mem_cons_self _ _)) _ ms ra

/-- C6 (amended): every rejecting sink of the input other than the chosen
one (the least id, the one `next(iter(...))` picks) comes out of
`get_normalised_dra` with an empty transition list: normalisation copies
locations bare and never adds transitions at a skipped sink. -/
theorem normalised_extra_sink (A B : RA) (l : Location)
    (h : RA.getNormalisedDra A = some B)
    (hsrc : ∀ loc ∈ A.locations, ∀ t ∈ loc.transitions, t.source = loc.id)
    (hl : l ∈ B.locations)
    (hs : l.id ∈ A.getSinkRejectingLocations)
    (hmin : (A.getSinkRejectingLocations).min? ≠ some l.id) :
    l.transitions = [] := by
  have key : ∀ (X : RA),
      (X.locations.filter (fun x => x.id == l.id)) =
        ((A.locations.map
          (fun l0 => (⟨l0.id, l0.name, l0.accepting, []⟩ : Location))).filter
            (fun x => x.id == l.id)) →
      l ∈ X.locations → l.transitions = [] := by
    intro X hX hmem
    have h1 : l ∈ X.locations.filter (fun x => x.id == l.id) :=
      List.mem_filter.mpr ⟨hmem, by simp⟩
    rw [hX] at h1
    have h2 := (List.mem_filter.mp h1).1
    obtain ⟨l0, _, he⟩ := List.mem_map.mp h2
    rw [← he]
  unfold RA.getNormalisedDra at h
  cases hinit : A.initial with
  | none => rw [hinit] at h; cases h
  | some i0 =>
      rw [hinit] at h
      dsimp only at h
      by_cases hfind : (((⟨A.locations.map
          (fun l0 => (⟨l0.id, l0.name, l0.accepting, []⟩ : Location)),
          none, A.alphabet⟩ : RA)).findLoc i0).isSome = true
      · rw [if_pos hfind] at h
        cases hnl : normLocs A.alphabet A.getSinkRejectingLocations
            (⟨A.locations.map
              (fun l0 => (⟨l0.id, l0.name, l0.accepting, []⟩ : Location)),
              some i0, A.alphabet⟩ : RA) [] [] A.locations with
        | none => rw [hnl] at h; cases h
        | some r =>
            rw [hnl] at h
            rcases r with ⟨ra2, mm, cm⟩
            dsimp only at h
            have hfil := normLocs_filter A.alphabet
              A.getSinkRejectingLocations l.id hs A.locations hsrc
              _ _ _ _ _ _ hnl
            by_cases hmm : mm.isEmpty = true
            · rw [if_pos hmm] at h
              have hB : B = ra2 := (Option.some.inj h).symm
              refine key B ?_ hl
              rw [hB, hfil.1]
            · rw [if_neg hmm] at h
              cases hminq : (A.getSinkRejectingLocations).min? with
              | none =>
                  have hnil : A.getSinkRejectingLocations = [] :=
                    List.min?_eq_none_iff.mp hminq
                  rw [hnil] at hs
                  cases hs
              | some c =>
                  rw [hminq] at h
                  dsimp only at h
                  have hcs : c ≠ l.id := fun he => hmin (by rw [hminq, he])
                  have hmm2 : ∀ p ∈ mm, p.1 ≠ l.id := by
                    intro p hp
                    rcases hfil.2 p hp with h0 | h0
                    · cases h0
                    · exact fun he => h0 (he ▸ hs)
                  have hB := (Option.some.inj h).symm
                  refine key B ?_ hl
                  rw [hB, filter_id_locAdd _ _ _ _ hcs,
                    addSinkTrans_filter c cm l.id mm hmm2, hfil.1]
      · rw [if_neg hfind] at h
        cases h

/-- Witness for the amended C6 theorem: `wA6` has rejecting sinks 1 and 2,
sink 1 is chosen, and the extra sink 2 keeps an empty transition list in
the normalised automaton `wB6`. -/
theorem normalised_extra_sink_witness :
    RA.getNormalisedDra wA6 = some wB6 ∧
      (⟨2, ("r2".toList), false, []⟩ : Location).transitions = [] :=
  ⟨by decide,
    normalised_extra_sink wA6 wB6 ⟨2, ("r2".toList), false, []⟩
      (by decide) (by decide) (by decide) (by decide) (by decide)⟩
